import Mathlib

/-!
Formal model of the bokedb storage core (src/types.rs and src/storage.rs).

Conventions of the shallow embedding:
* Machine integers are modelled as `Nat` (unsigned) or `Int` (signed) with
  explicit `% 2 ^ 32` where wrap-around matters; a byte is a `Nat` below 256.
* Fallible Rust code returns a `DRes`; a Rust panic (slice index out of
  range, `unwrap` on `None`/`Err`, failed `assert!`) is modelled by `.crash`
  (or by `none` in `Option`-valued tree operations).
* Rust `String` is modelled by its UTF-8 byte list together with the
  validity invariant that `String` maintains.
-/

namespace Bokedb

/-- SerializeError from src/types.rs. The `FromUtf8Error` payload of
`InvalidUtf8` is not observed anywhere, so it is dropped. -/
inductive SerializeError where
  | invalidUtf8
  | invalidByteLen
  deriving DecidableEq

/-- Outcome of a Rust decoder: success with the number of consumed bytes,
a returned `SerializeError`, or a panic (`.crash`). -/
inductive DRes (α : Type) where
  | ok : Nat → α → DRes α
  | err : SerializeError → DRes α
  | crash : DRes α
  deriving DecidableEq

/-- Little-endian byte decomposition of a u32 value (`u32::to_le_bytes`). -/
def u32Le (n : Nat) : List Nat :=
  [n % 256, n / 256 % 256, n / 256 ^ 2 % 256, n / 256 ^ 3 % 256]

/-- Recomposition of four little-endian bytes (`u32::from_le_bytes`). -/
def leU32 (a b c d : Nat) : Nat := a + 256 * b + 256 ^ 2 * c + 256 ^ 3 * d

/-- Two's-complement u32 bit pattern of an i32 value. -/
def i32Bits (v : Int) : Nat := (v % (2 ^ 32 : Nat)).toNat

/-- The i32 value denoted by a u32 bit pattern. -/
def i32OfBits (n : Nat) : Int :=
  if n < 2 ^ 31 then (n : Int) else (n : Int) - 2 ^ 32

/-- `impl Serializable for i32`, `to_bytes`: 4 little-endian bytes. -/
def i32ToBytes (v : Int) : List Nat := u32Le (i32Bits v)

/-- `impl Serializable for i32`, `from_bytes`: checks the length first and
returns `InvalidByteLen` on short input, then reads 4 little-endian bytes. -/
def i32FromBytes (bs : List Nat) : DRes Int :=
  match bs with
  | a :: b :: c :: d :: _ => .ok 4 (i32OfBits (leU32 a b c d))
  | _ => .err .invalidByteLen

/-- Helper for `validUtf8`: a UTF-8 continuation byte (0x80..=0xBF). -/
def isUtf8Cont (b : Nat) : Bool := decide (128 ≤ b ∧ b < 192)

/-- Model of the validity check done by Rust `String::from_utf8`:
standard UTF-8 (RFC 3629), rejecting overlong forms, surrogates and
code points above U+10FFFF. -/
def validUtf8 : List Nat → Bool
  | [] => true
  | b :: rest =>
    if b < 128 then validUtf8 rest
    else if 194 ≤ b ∧ b ≤ 223 then
      match rest with
      | c :: r => isUtf8Cont c && validUtf8 r
      | [] => false
    else if b = 224 then
      match rest with
      | c :: d :: r => decide (160 ≤ c ∧ c ≤ 191) && isUtf8Cont d && validUtf8 r
      | _ => false
    else if (225 ≤ b ∧ b ≤ 236) ∨ b = 238 ∨ b = 239 then
      match rest with
      | c :: d :: r => isUtf8Cont c && isUtf8Cont d && validUtf8 r
      | _ => false
    else if b = 237 then
      match rest with
      | c :: d :: r => decide (128 ≤ c ∧ c ≤ 159) && isUtf8Cont d && validUtf8 r
      | _ => false
    else if b = 240 then
      match rest with
      | c :: d :: e :: r =>
        decide (144 ≤ c ∧ c ≤ 191) && isUtf8Cont d && isUtf8Cont e && validUtf8 r
      | _ => false
    else if 241 ≤ b ∧ b ≤ 243 then
      match rest with
      | c :: d :: e :: r => isUtf8Cont c && isUtf8Cont d && isUtf8Cont e && validUtf8 r
      | _ => false
    else if b = 244 then
      match rest with
      | c :: d :: e :: r =>
        decide (128 ≤ c ∧ c ≤ 143) && isUtf8Cont d && isUtf8Cont e && validUtf8 r
      | _ => false
    else false

/-- Model of a Rust `String`: its UTF-8 bytes with the validity invariant
that `String` maintains by construction. -/
def RustString : Type := { bs : List Nat // validUtf8 bs = true }

instance : DecidableEq RustString := fun a b =>
  decidable_of_iff (a.val = b.val) Subtype.ext_iff.symm

/-- VARCHAR_MAX_LEN from src/types.rs. -/
def VARCHAR_MAX_LEN : Nat := 8192

/-- VarChar from src/types.rs. The private `max_len` field equals
`VARCHAR_MAX_LEN` in every value the program can construct (`VarChar::new`
and `from_bytes` both set it), so the model keeps only the string. -/
structure VarChar where
  val : RustString
  deriving DecidableEq

/-- `impl Serializable for VarChar`, `to_bytes`: 4-byte little-endian length
followed by the UTF-8 bytes. (Rust converts the length with
`u32::try_from(..).unwrap()`, a panic for lengths at or above 2 ^ 32; the
model wraps, and the round-trip theorem assumes the in-range case.) -/
def VarChar.toBytes (v : VarChar) : List Nat :=
  u32Le v.val.1.length ++ v.val.1

/-- `impl Serializable for VarChar`, `from_bytes`. The Rust code slices
`bs[0..4]` and `bs[4..4 + len]` without length checks, so short input is a
panic (`.crash`), not an `InvalidByteLen` error. -/
def VarChar.fromBytes (bs : List Nat) : DRes VarChar :=
  match bs with
  | a :: b :: c :: d :: rest =>
    let len := leU32 a b c d
    if len ≤ rest.length then
      if hv : validUtf8 (rest.take len) = true then .ok (4 + len) ⟨⟨rest.take len, hv⟩⟩
      else .err .invalidUtf8
    else .crash
  | _ => .crash

/-- DateTime from src/types.rs (all fields are u32 in Rust). -/
structure DateTime where
  year : Nat
  month : Nat
  day : Nat
  hour : Nat
  minute : Nat
  second : Nat
  deriving DecidableEq

/-- `impl Serializable for DateTime`, `to_bytes`: packs year·10000 +
month·100 + day and hour·10000 + minute·100 + second as two u32 fields
(u32 arithmetic, hence the explicit wrap). -/
def DateTime.toBytes (dt : DateTime) : List Nat :=
  u32Le ((10000 * dt.year + 100 * dt.month + dt.day) % 2 ^ 32) ++
    u32Le ((dt.hour * 10000 + dt.minute * 100 + dt.second) % 2 ^ 32)

/-- `impl Serializable for DateTime`, `from_bytes`: length-checked, then
components recovered by division and remainder. -/
def DateTime.fromBytes (bs : List Nat) : DRes DateTime :=
  match bs with
  | a :: b :: c :: d :: e :: f :: g :: h :: _ =>
    let de := leU32 a b c d
    let te := leU32 e f g h
    .ok 8 ⟨de / 10000, de % 10000 / 100, de % 10000 % 100,
           te / 10000, te % 10000 / 100, te % 10000 % 100⟩
  | _ => .err .invalidByteLen

/-- Value from src/types.rs. -/
inductive Value where
  | int : Int → Value
  | varChar : VarChar → Value
  | dateTime : DateTime → Value
  deriving DecidableEq

/-- `impl Serializable for Value`, `to_bytes`: a one-byte kind discriminant
(0 int, 1 varchar, 2 datetime) followed by the inner encoding. -/
def Value.toBytes : Value → List Nat
  | .int n => 0 :: i32ToBytes n
  | .varChar vc => 1 :: vc.toBytes
  | .dateTime dt => 2 :: dt.toBytes

/-- `impl Serializable for Value`, `from_bytes`: reads `bs[0]` (a panic on
empty input) and dispatches on the discriminant;
`Type::try_from(..).unwrap()` panics on an unknown discriminant. -/
def Value.fromBytes (bs : List Nat) : DRes Value :=
  match bs with
  | [] => .crash
  | t :: rest =>
    if t = 0 then
      match i32FromBytes rest with
      | .ok n v => .ok (n + 1) (.int v)
      | .err e => .err e
      | .crash => .crash
    else if t = 1 then
      match VarChar.fromBytes rest with
      | .ok n v => .ok (n + 1) (.varChar v)
      | .err e => .err e
      | .crash => .crash
    else if t = 2 then
      match DateTime.fromBytes rest with
      | .ok n v => .ok (n + 1) (.dateTime v)
      | .err e => .err e
      | .crash => .crash
    else .crash

/-- `impl Serializable for Vec<Value>`, `to_bytes`: 4-byte little-endian
element count followed by the element encodings (same wrap caveat as
`VarChar.toBytes` for counts at or above 2 ^ 32). -/
def rowToBytes (row : List Value) : List Nat :=
  u32Le row.length ++ (row.map Value.toBytes).flatten

/-- Loop of `Vec<Value>::from_bytes`: decode `n` values starting at byte
offset `i`, accumulating in order. -/
def rowFromBytesGo : Nat → List Nat → Nat → List Value → DRes (List Value)
  | 0, _, i, acc => .ok i acc
  | n + 1, bs, i, acc =>
    match Value.fromBytes (bs.drop i) with
    | .ok sz v => rowFromBytesGo n bs (i + sz) (acc ++ [v])
    | .err e => .err e
    | .crash => .crash

/-- `impl Serializable for Vec<Value>`, `from_bytes`: reads the count from
`bs[0..4]` (a panic on input shorter than 4 bytes) and then decodes that
many elements. -/
def rowFromBytes (bs : List Nat) : DRes (List Value) :=
  match bs with
  | a :: b :: c :: d :: _ => rowFromBytesGo (leU32 a b c d) bs 4 []
  | _ => .crash

/-! ### Pages and the B+Tree (src/storage.rs) -/

/-- PageType from src/storage.rs. -/
inductive PageType where
  | leaf
  | interior
  deriving DecidableEq

/-- PAGE_SIZE from src/storage.rs. -/
def PAGE_SIZE : Nat := 65536

/-- Page from src/storage.rs. Page identifiers are u32 in Rust and `Nat`
here; all identifiers the tree allocates stay far below 2 ^ 32. -/
structure Page (K V : Type) where
  id : Nat
  ptype : PageType
  deleted : List Bool
  keys : List K
  vals : List V
  children : List Nat
  sibling : Option Nat
  deriving DecidableEq

/-- One output byte of `pack_bits`: the chunk's bits most-significant
first (`bs[i] ^= bit << (7 - j)`), missing trailing bits zero. -/
def packByte (l : List Bool) : Nat :=
  (l.foldl (fun a b => 2 * a + cond b 1 0) 0) * 2 ^ (8 - l.length)

/-- pack_bits from src/storage.rs: `(len + 7) / 8` output bytes, byte `i`
packing bits `8 i .. 8 i + 7` (missing bits zero), first bit in bit 7. -/
def packBits (bits : List Bool) : List Nat :=
  (List.range ((bits.length + 7) / 8)).map
    (fun i => packByte ((bits.drop (8 * i)).take 8))

/-- One byte unpacked most-significant bit first (the `(0..8).rev()` loop
of unpack_bits). -/
def byteBits (b : Nat) : List Bool :=
  [decide (b / 128 % 2 = 1), decide (b / 64 % 2 = 1), decide (b / 32 % 2 = 1),
   decide (b / 16 % 2 = 1), decide (b / 8 % 2 = 1), decide (b / 4 % 2 = 1),
   decide (b / 2 % 2 = 1), decide (b % 2 = 1)]

/-- unpack_bits from src/storage.rs: unpack every byte, then truncate to
the declared length. -/
def unpackBits (len : Nat) (bytes : List Nat) : List Bool :=
  ((bytes.map byteBits).flatten).take len

/-- Page::find from src/storage.rs: the number of leading keys strictly
below the target (the loop increments while `key > k` and breaks
otherwise). -/
def pageFindGo [LinearOrder K] (key : K) : List K → Nat
  | [] => 0
  | k :: rest => if k < key then pageFindGo key rest + 1 else 0

/-- Page::find as a method. -/
def Page.find [LinearOrder K] (p : Page K V) (key : K) : Nat :=
  pageFindGo key p.keys

/-- The binary search of Rust `slice::binary_search`, step for step: its
exact probe sequence matters when duplicate keys are present. `.inl i`
models `Ok(i)` (match at index `i`), `.inr i` models `Err(i)` (insertion
index). Call sites maintain `right ≤ xs.length`, so the `getD` default is
never consulted. -/
def bsearchGo [LinearOrder K] (xs : List K) (key : K) :
    Nat → Nat → Nat → Nat ⊕ Nat
  | 0, left, _ => .inr left
  | fuel + 1, left, right =>
    if left < right then
      let x := xs.getD (left + (right - left) / 2) key
      if x < key then bsearchGo xs key fuel (left + (right - left) / 2 + 1) right
      else if key < x then bsearchGo xs key fuel left (left + (right - left) / 2)
      else .inl (left + (right - left) / 2)
    else .inr left

/-- `slice::binary_search(&key)` over a whole list. The structural fuel
`xs.length + 1` never runs out: `right - left` starts at `xs.length` and
shrinks strictly on every iteration, so the `while` is fully unrolled. -/
def rustBS [LinearOrder K] (xs : List K) (key : K) : Nat ⊕ Nat :=
  bsearchGo xs key (xs.length + 1) 0 xs.length

/-- `Vec::insert`, a panic (`none`) when the index exceeds the length. -/
def insIdx (l : List α) (i : Nat) (a : α) : Option (List α) :=
  if i ≤ l.length then some (l.take i ++ a :: l.drop i) else none

/-- `Vec::remove`, a panic (`none`) when the index is out of bounds. -/
def remIdx (l : List α) (i : Nat) : Option (List α) :=
  if i < l.length then some (l.eraseIdx i) else none

/-- Index assignment `v[i] = a`, a panic (`none`) out of bounds. -/
def setIdx (l : List α) (i : Nat) (a : α) : Option (List α) :=
  if i < l.length then some (l.set i a) else none

/-- MemPager::read_page: binary search by id over the id-sorted page
vector, modelled as ordered lookup (every pager state the tree produces is
sorted by id with distinct ids, where the two agree). -/
def readPage (ps : List (Page K V)) (id : Nat) : Option (Page K V) :=
  ps.find? (fun p => p.id == id)

/-- MemPager::write_page: replace the page with the same id, or insert at
the sorted position (binary-search insert on the id-sorted vector). -/
def writePage : List (Page K V) → Page K V → List (Page K V)
  | [], pg => [pg]
  | p :: rest, pg =>
    if pg.id < p.id then pg :: p :: rest
    else if pg.id = p.id then pg :: rest
    else p :: writePage rest pg

/-- BTree from src/storage.rs, with the MemPager that `new` constructs
inlined as the sorted page list. -/
structure BTree (K V : Type) where
  b : Nat
  is_unique : Bool
  depth : Nat
  root_id : Nat
  next_id : Nat
  pages : List (Page K V)
  deriving DecidableEq

/-- BTree::new (its `assert!`s on `b` become hypotheses of
`Reachable.init`). -/
def BTree.new (K V : Type) (b : Nat) (is_unique : Bool) : BTree K V :=
  { b, is_unique, depth := 0, root_id := 0, next_id := 1,
    pages := [{ id := 0, ptype := .leaf, deleted := [], keys := [], vals := [],
                children := [], sibling := none }] }

/-- One descent step shared by find_leaf and the insert descent: read the
page, compute `page.find(key)`, follow `children[idx]` (`none` models the
panic when the page is missing or the index is out of bounds). -/
def descendStep [LinearOrder K] (ps : List (Page K V)) (key : K) (id : Nat) :
    Option Nat := do
  let page ← readPage ps id
  page.children.get? (page.find key)

/-- BTree::find_leaf: descend `depth` levels from the given id. -/
def findLeafGo [LinearOrder K] (ps : List (Page K V)) (key : K) :
    Nat → Nat → Option Nat
  | 0, id => some id
  | n + 1, id => do findLeafGo ps key n (← descendStep ps key id)

/-- BTree::find_leaf from the root. -/
def BTree.find_leaf [LinearOrder K] (s : BTree K V) (key : K) : Option Nat :=
  findLeafGo s.pages key s.depth s.root_id

/-- BTree::find. The outer `Option` is the panic monad; the inner
`Option V` is the Rust return value. -/
def BTree.find [LinearOrder K] (s : BTree K V) (key : K) :
    Option (Option V) := do
  let id ← s.find_leaf key
  let leaf ← readPage s.pages id
  match rustBS leaf.keys key with
  | .inl idx => do
      let d ← leaf.deleted.get? idx
      if d then pure none else do pure (some (← leaf.vals.get? idx))
  | .inr _ => pure none

/-- Inner loop of BTree::find_range over one leaf: scan entries from `i`
up to `vals.len()`, appending live pairs; the Bool is true when a key above
`ma` was met (the labelled break of the outer loop). Reading `keys[i]` or
`deleted[i]` out of bounds is the usual panic. -/
def rangeScanGo [LinearOrder K] (leaf : Page K V) (ma : K) :
    Nat → Nat → List (K × V) → Option (List (K × V) × Bool)
  | 0, _, acc => some (acc, false)
  | rem + 1, i, acc => do
    let k ← leaf.keys.get? i
    if ma < k then some (acc, true)
    else do
      let d ← leaf.deleted.get? i
      let acc' ← if d then some acc else do
        let v ← leaf.vals.get? i
        some (acc ++ [(k, v)])
      rangeScanGo leaf ma rem (i + 1) acc'

/-- Entry to the inner scan: the Rust `for i in idx..leaf.vals.len()` runs
exactly `vals.len() - idx` iterations (the loop body never changes the
leaf), which is the structural recursion count of `rangeScanGo`. -/
def rangeScan [LinearOrder K] (leaf : Page K V) (ma : K) (idx : Nat)
    (acc : List (K × V)) : Option (List (K × V) × Bool) :=
  rangeScanGo leaf ma (leaf.vals.length - idx) idx acc

/-- Outer loop of BTree::find_range: scan the current leaf from `idx`,
then follow sibling pointers with the scan restarting at 0. `fuel` bounds
the unbounded Rust loop; exhausting it models divergence (`none`). -/
def rangeLoop [LinearOrder K] (ps : List (Page K V)) (ma : K) :
    Nat → Nat → Nat → List (K × V) → Option (List (K × V))
  | 0, _, _, _ => none
  | fuel + 1, id, idx, acc => do
    let leaf ← readPage ps id
    let (acc', stop) ← rangeScan leaf ma idx acc
    if stop then some acc'
    else match leaf.sibling with
      | some sid => rangeLoop ps ma fuel sid 0 acc'
      | none => some acc'

/-- BTree::find_range. The Rust code reads the first leaf once before the
loop to seed `idx` with the binary-search position of `mi`; re-reading it
at the first loop iteration is observationally identical because reads have
no effect on the store. -/
def BTree.find_range [LinearOrder K] (s : BTree K V) (mi ma : K)
    (fuel : Nat) : Option (List (K × V)) := do
  let id ← s.find_leaf mi
  let leaf ← readPage s.pages id
  let idx := match rustBS leaf.keys mi with
    | .inl i => i
    | .inr i => i
  rangeLoop s.pages ma fuel id idx []

/-- Inner loop of BTree::delete over one leaf: from index `i`, set the
tombstone of every entry whose key matches, writing the page back after
each mark exactly as the Rust loop does; the Bool is true when a
non-matching key was met (the labelled break of the outer loop). -/
def delMarkGo [LinearOrder K] (key : K) :
    Nat → List (Page K V) → Page K V → Nat → Nat →
    Option (List (Page K V) × Page K V × Nat × Bool)
  | 0, ps, leaf, _, n => some (ps, leaf, n, false)
  | rem + 1, ps, leaf, i, n => do
    let k ← leaf.keys.get? i
    if k ≠ key then some (ps, leaf, n, true)
    else
      let leaf' := { leaf with deleted := leaf.deleted.set i true }
      delMarkGo key rem (writePage ps leaf') leaf' (i + 1) (n + 1)

/-- Entry to the inner mark loop: `for i in idx..leaf.deleted.len()` runs
exactly `deleted.len() - idx` iterations (`set` keeps the length), the
structural recursion count of `delMarkGo`. -/
def delMark [LinearOrder K] (key : K) (ps : List (Page K V))
    (leaf : Page K V) (idx n : Nat) :
    Option (List (Page K V) × Page K V × Nat × Bool) :=
  delMarkGo key (leaf.deleted.length - idx) ps leaf idx n

/-- Outer loop of BTree::delete: mark in the current leaf starting at its
`find` index, then follow sibling pointers. `fuel` bounds the unbounded
Rust loop. -/
def deleteLoop [LinearOrder K] (key : K) :
    Nat → List (Page K V) → Nat → Nat → Option (List (Page K V) × Nat)
  | 0, _, _, _ => none
  | fuel + 1, ps, id, n => do
    let leaf ← readPage ps id
    let (ps', leaf', n', stop) ← delMark key ps leaf (leaf.find key) n
    if stop then some (ps', n')
    else match leaf'.sibling with
      | some sid => deleteLoop key fuel ps' sid n'
      | none => some (ps', n')

/-- BTree::delete. On completion the result is the new tree together with
`some n` for `Ok(n)` or `none` for `Err(KeyNotFoundError)`. -/
def BTree.delete [LinearOrder K] (s : BTree K V) (key : K) (fuel : Nat) :
    Option (BTree K V × Option Nat) := do
  let start ← s.find_leaf key
  let (ps', n) ← deleteLoop key fuel s.pages start 0
  if n > 0 then some ({ s with pages := ps' }, some n)
  else some ({ s with pages := ps' }, none)

/-- Result of BTree::insert: `Ok(())` or `Err(DuplicateKeyError)`. -/
inductive InsRes where
  | ok
  | dup
  deriving DecidableEq

/-- Insert descent: find_leaf that also records the visited interior page
ids, most recent first (the Rust `visited` stack, popped from the back). -/
def insDescend [LinearOrder K] (ps : List (Page K V)) (key : K) :
    Nat → Nat → List Nat → Option (List Nat × Nat)
  | 0, id, vis => some (vis, id)
  | n + 1, id, vis => do
    insDescend ps key n (← descendStep ps key id) (id :: vis)

/-- BTree::divide_page: move everything above index `b / 2` of `page` into
a fresh right sibling (id `next_id`); for a leaf also chain the sibling
pointers. Returns (left page, new sibling). `Vec::drain((si + 1)..)`
panics when `si + 1` exceeds the drained vector's length. -/
def dividePage (b next_id : Nat) (page : Page K V) :
    Option (Page K V × Page K V) :=
  let si := b / 2
  if si + 1 ≤ page.keys.length then
    let r0 : Page K V :=
      { id := next_id, ptype := page.ptype, deleted := [],
        keys := page.keys.drop (si + 1), vals := [], children := [],
        sibling := page.sibling }
    match page.ptype with
    | .leaf =>
      if si + 1 ≤ page.vals.length ∧ si + 1 ≤ page.deleted.length then
        some ({ page with keys := page.keys.take (si + 1),
                          vals := page.vals.take (si + 1),
                          deleted := page.deleted.take (si + 1),
                          sibling := some next_id },
              { r0 with vals := page.vals.drop (si + 1),
                        deleted := page.deleted.drop (si + 1) })
      else none
    | .interior =>
      if si + 1 ≤ page.children.length then
        some ({ page with keys := page.keys.take (si + 1),
                          children := page.children.take (si + 1) },
              { r0 with children := page.children.drop (si + 1) })
      else none
  else none

/-- BTree::split_page: `assert!(page.keys.len() >= b)`, divide the page,
then promote the split key into the parent: insert the key and the left
child id at the parent's `find` index and overwrite the next child slot
with the sibling id. Returns (left, sibling, updated parent). -/
def splitPage [LinearOrder K] (b next_id : Nat) (page parent : Page K V) :
    Option (Page K V × Page K V × Page K V) :=
  if page.keys.length < b then none
  else do
    let split_key ← page.keys.get? (b / 2)
    let (left, sibling) ← dividePage b next_id page
    let idx := parent.find split_key
    let pkeys ← insIdx parent.keys idx split_key
    let pch0 ← insIdx parent.children idx page.id
    let pch ← setIdx pch0 (idx + 1) sibling.id
    some (left, sibling, { parent with keys := pkeys, children := pch })

/-- BTree::split_root: divide the root page and create a new interior root
(id `next_id + 1`, since divide_page consumed `next_id`) with one key and
two children. Returns (left, sibling, new root). -/
def splitRoot (b next_id : Nat) (page : Page K V) :
    Option (Page K V × Page K V × Page K V) := do
  let split_key ← page.keys.get? (b / 2)
  let (left, sibling) ← dividePage b next_id page
  some (left, sibling,
    { id := next_id + 1, ptype := .interior, deleted := [],
      keys := [split_key], vals := [], children := [page.id, sibling.id],
      sibling := none })

/-- Split-propagation loop of BTree::insert (`for _ in 0..max_splits`):
`page` is the current over-full page (a local, not yet written), `parOpt`
the popped parent id, `vis` the rest of the visited stack. When the
iteration bound is exhausted the Rust `for` falls through and insert
returns `Ok` with the remaining writes undone; the model does the same. -/
def splitLoop [LinearOrder K] :
    Nat → BTree K V → Page K V → Option Nat → List Nat → Option (BTree K V)
  | 0, s, _, _, _ => some s
  | fuel + 1, s, page, parOpt, vis =>
    match parOpt with
    | some par_id => do
      let parent ← readPage s.pages par_id
      let (left, sibling, parent') ← splitPage s.b s.next_id page parent
      let ps1 := writePage (writePage s.pages left) sibling
      let s1 : BTree K V := { s with pages := ps1, next_id := s.next_id + 1 }
      if parent'.keys.length < s.b then
        some { s1 with pages := writePage ps1 parent' }
      else
        splitLoop fuel s1 parent' vis.head? vis.tail
    | none =>
      -- assert_eq!(self.root_id, page.id)
      if page.id = s.root_id then do
        let (left, sibling, root) ← splitRoot s.b s.next_id page
        some { s with
          pages := writePage (writePage (writePage s.pages left) sibling) root,
          next_id := s.next_id + 2, root_id := root.id, depth := s.depth + 1 }
      else none

/-- Leaf splice of BTree::insert (key absent, or present with uniqueness
off), the opportunistic compaction, and the split check. Note the
compaction faithfully reproduces the source: the candidate is found by
scanning `deleted` from the right end, but the index handed to
`Vec::remove` is the position in the reversed iterator
(`.rev().enumerate()`), not the position in the vector. -/
def insertSpliced [LinearOrder K] (s : BTree K V) (vis : List Nat)
    (page0 : Page K V) (idx : Nat) (key : K) (val : V) :
    Option (BTree K V × InsRes) := do
  let keys' ← insIdx page0.keys idx key
  let vals' ← insIdx page0.vals idx val
  let del' ← insIdx page0.deleted idx false
  let page1 := { page0 with keys := keys', vals := vals', deleted := del' }
  let page2 ← match page1.deleted.reverse.findIdx? (fun b => b) with
    | none => some page1
    | some i => do
      let d2 ← remIdx page1.deleted i
      let k2 ← remIdx page1.keys i
      let v2 ← remIdx page1.vals i
      some { page1 with keys := k2, vals := v2, deleted := d2 }
  if page2.keys.length < s.b then
    some ({ s with pages := writePage s.pages page2 }, .ok)
  else do
    let s' ← splitLoop (s.depth + 1) s page2 vis.head? vis.tail
    some (s', .ok)

/-- BTree::insert. `none` is a panic; otherwise the updated tree and the
Rust result. -/
def BTree.insert [LinearOrder K] (s : BTree K V) (key : K) (val : V) :
    Option (BTree K V × InsRes) := do
  let (vis, id) ← insDescend s.pages key s.depth s.root_id []
  let page0 ← readPage s.pages id
  match rustBS page0.keys key with
  | .inl idx =>
    if s.is_unique then do
      -- duplicate key on a unique tree: revive a tombstoned slot or fail
      let d ← page0.deleted.get? idx
      if d then do
        let vals' ← setIdx page0.vals idx val
        let del' ← setIdx page0.deleted idx false
        let page' := { page0 with vals := vals', deleted := del' }
        some ({ s with pages := writePage s.pages page' }, .ok)
      else
        some (s, .dup)
    else
      insertSpliced s vis page0 idx key val
  | .inr idx => insertSpliced s vis page0 idx key val

/-! ### Page byte codec (Page::to_bytes / Page::from_bytes), at the
repository's concrete i32 key / i32 value instantiation, where
`size_of::<K>() = 4` coincides with the serialized key size. -/

/-- The `ptype as u8` discriminant byte. -/
def pageTypeByte : PageType → Nat
  | .leaf => 0
  | .interior => 1

/-- The byte sequence Page::to_bytes writes into the front of the page
buffer (the writes are contiguous: the offset advances by exactly the
number of bytes copied). The Leaf arm's length `assert_eq!`s are modelled
by `none`. -/
def pageBytesWritten (p : Page Int Int) : Option (List Nat) :=
  let header := u32Le p.id ++ [pageTypeByte p.ptype] ++ u32Le 4 ++
    u32Le p.keys.length
  let keyBytes := (p.keys.map i32ToBytes).flatten
  match p.ptype with
  | .interior => some (header ++ keyBytes ++ (p.children.map u32Le).flatten)
  | .leaf =>
    if p.deleted.length = p.vals.length ∧ p.vals.length = p.keys.length then
      some (header ++ keyBytes ++ u32Le (p.sibling.getD (2 ^ 32 - 1)) ++
        packBits p.deleted ++ (p.vals.map i32ToBytes).flatten)
    else none

/-- Page::to_bytes: the written bytes padded with zeroes to the fixed
65,536-byte buffer; writing past the buffer is a panic
(`copy_from_slice` out of range). -/
def pageToBytes (p : Page Int Int) : Option (List Nat) := do
  let w ← pageBytesWritten p
  if w.length ≤ PAGE_SIZE then some (w ++ List.replicate (PAGE_SIZE - w.length) 0)
  else none

/-- Read `n` bytes at offset `i` (`&bs[i..i + n]`); `none` models the
slice-out-of-range panic. The bound `i + n ≤ bs.length` is tested by
measuring only the extracted slice, so evaluation never walks the
65,536-byte buffer; this agrees with the Rust check except for the
combination `n = 0 ∧ i > bs.length`, which no caller can produce (every
call site's offset is bounded by a preceding successful read). -/
def sliceAt (bs : List Nat) (i n : Nat) : Option (List Nat) :=
  if ((bs.drop i).take n).length = n then some ((bs.drop i).take n) else none

/-- Is offset `i` inside `bs` (`i ≤ bs.length`), again computed without
measuring the whole list? -/
def offOk (bs : List Nat) : Nat → Bool
  | 0 => true
  | j + 1 => !(bs.drop j).isEmpty

/-- Key loop of Page::from_bytes: each iteration slices exactly
`key_size` bytes but advances by the size the key decoder reports. -/
def pageKeysGo (bs : List Nat) (ksz : Nat) :
    Nat → Nat → List Int → DRes (List Int)
  | 0, i, acc => .ok i acc
  | n + 1, i, acc =>
    match sliceAt bs i ksz with
    | none => .crash
    | some sl =>
      match i32FromBytes sl with
      | .ok sz k => pageKeysGo bs ksz n (i + sz) (acc ++ [k])
      | .err e => .err e
      | .crash => .crash

/-- Child loop of Page::from_bytes: reads `keys_len` u32 ids — one fewer
than the logical child count of a page built by a root split. -/
def pageChildrenGo (bs : List Nat) :
    Nat → Nat → List Nat → Option (Nat × List Nat)
  | 0, i, acc => some (i, acc)
  | n + 1, i, acc =>
    match sliceAt bs i 4 with
    | some [a, b, c, d] => pageChildrenGo bs n (i + 4) (acc ++ [leU32 a b c d])
    | _ => none

/-- Value loop of Page::from_bytes: each value decoded from `&bs[i..]`. -/
def pageValsGo (bs : List Nat) : Nat → Nat → List Int → DRes (List Int)
  | 0, i, acc => .ok i acc
  | n + 1, i, acc =>
    if offOk bs i then
      match i32FromBytes (bs.drop i) with
      | .ok sz v => pageValsGo bs n (i + sz) (acc ++ [v])
      | .err e => .err e
      | .crash => .crash
    else .crash

/-- Page::from_bytes for the i32/i32 instantiation: the header reads
`bs[0..4]`, `bs[4]`, `bs[5..9]`, `bs[9..13]` (id, kind byte, key size,
key count — any of them a panic on input shorter than 13 bytes), then the
keys and the kind-specific payload; returns the page and the number of
consumed bytes. -/
def pageFromBytes (bs : List Nat) : DRes (Page Int Int) :=
  match sliceAt bs 0 4, bs.get? 4, sliceAt bs 5 4, sliceAt bs 9 4 with
  | some [b0, b1, b2, b3], some b4, some [c0, c1, c2, c3],
      some [d0, d1, d2, d3] =>
    let id := leU32 b0 b1 b2 b3
    let ptype := if b4 = 1 then PageType.interior else PageType.leaf
    let ksz := leU32 c0 c1 c2 c3
    let klen := leU32 d0 d1 d2 d3
    match pageKeysGo bs ksz klen 13 [] with
    | .err e => .err e
    | .crash => .crash
    | .ok i keys =>
      match ptype with
      | .interior =>
        match pageChildrenGo bs klen i [] with
        | none => .crash
        | some (j, children) =>
          .ok j { id, ptype := .interior, keys, children,
                  vals := [], deleted := [], sibling := none }
      | .leaf =>
        match sliceAt bs i 4 with
        | some [c0, c1, c2, c3] =>
          let sib_id := leU32 c0 c1 c2 c3
          let sibling := if sib_id = 2 ^ 32 - 1 then none else some sib_id
          let del_len := (klen + 7) / 8
          match sliceAt bs (i + 4) del_len with
          | none => .crash
          | some dbytes =>
            let deleted := unpackBits klen dbytes
            match pageValsGo bs klen (i + 4 + del_len) [] with
            | .err e => .err e
            | .crash => .crash
            | .ok j vals =>
              .ok j { id, ptype := .leaf, keys, vals, deleted, sibling,
                      children := [] }
        | _ => .crash
  | _, _, _, _ => .crash

/-! ### Reachable trees, invariants, and concrete traces -/

/-- The trees reachable from `BTree::new` by completed public operations.
`find` and `find_range` do not change the tree, so only construction,
insert and delete appear; the `init` hypotheses are `new`'s `assert!`s. -/
inductive Reachable [LinearOrder K] : BTree K V → Prop where
  | init : ∀ b u, b % 2 = 1 → 2 < b → Reachable (BTree.new K V b u)
  | ins : ∀ (s : BTree K V) k v s' r, Reachable s →
      BTree.insert s k v = some (s', r) → Reachable s'
  | del : ∀ (s : BTree K V) k fuel s' r, Reachable s →
      BTree.delete s k fuel = some (s', r) → Reachable s'

/-- The pager vector is strictly sorted by page id (so ids are distinct
and binary search agrees with ordered lookup). -/
def IdsSorted (ps : List (Page K V)) : Prop :=
  ps.Pairwise (fun p q => p.id < q.id)

/-- Frame of a delete on one page: everything except tombstone bits is
unchanged, and a changed bit is a set bit at a position whose key is the
deleted key. -/
def PageFrame [DecidableEq K] (key : K) (p q : Page K V) : Prop :=
  q.id = p.id ∧ q.ptype = p.ptype ∧ q.keys = p.keys ∧ q.vals = p.vals ∧
  q.children = p.children ∧ q.sibling = p.sibling ∧
  q.deleted.length = p.deleted.length ∧
  ∀ i, q.deleted.get? i ≠ p.deleted.get? i →
    q.deleted.get? i = some true ∧ p.keys.get? i = some key

/-- Pointwise delete frame over the whole pager. -/
def PagesFrame [DecidableEq K] (key : K) (ps qs : List (Page K V)) : Prop :=
  List.Forall₂ (PageFrame key) ps qs

/-- Canonical field ranges under which the date/time packing of
`DateTime.toBytes` is injective: sub-year components below their mixed
radix and both packed words inside u32. -/
def DateTime.canonical (dt : DateTime) : Prop :=
  dt.month < 100 ∧ dt.day < 100 ∧ dt.minute < 100 ∧ dt.second < 100 ∧
  10000 * dt.year + 100 * dt.month + dt.day < 2 ^ 32 ∧
  dt.hour * 10000 + dt.minute * 100 + dt.second < 2 ^ 32

/-- What the Rust types admit, value by value: an i32 in range, a string
whose length fits the u32 length field, a date/time in canonical range. -/
def Value.wf : Value → Prop
  | .int n => -(2 ^ 31) ≤ n ∧ n < 2 ^ 31
  | .varChar vc => vc.val.1.length < 2 ^ 32
  | .dateTime dt => dt.canonical

instance (dt : DateTime) : Decidable dt.canonical := by
  unfold DateTime.canonical; infer_instance

instance (v : Value) : Decidable v.wf := by
  cases v <;> (unfold Value.wf; infer_instance)

/-- Invariants of a tree-built page at the i32/i32 instantiation (claim
C1's hypothesis set): u32-range id and children, i32-range sorted keys,
i32-range values, a key count fitting the u32 header field, leaf length
agreement with no children, interior pages with no leaf payload, sibling
ids below the all-ones sentinel. -/
def Page.wfSer (p : Page Int Int) : Prop :=
  p.id < 2 ^ 32 ∧ p.keys.length < 2 ^ 32 ∧
  (∀ k ∈ p.keys, -(2 ^ 31) ≤ k ∧ k < 2 ^ 31) ∧ p.keys.Sorted (· ≤ ·) ∧
  (∀ v ∈ p.vals, -(2 ^ 31) ≤ v ∧ v < 2 ^ 31) ∧
  (∀ c ∈ p.children, c < 2 ^ 32) ∧
  (match p.ptype with
   | .leaf => p.deleted.length = p.vals.length ∧
       p.vals.length = p.keys.length ∧ p.children = [] ∧
       (∀ sid, p.sibling = some sid → sid < 2 ^ 32 - 1)
   | .interior => p.vals = [] ∧ p.deleted = [] ∧ p.sibling = none)

instance (p : Page Int Int) : Decidable p.wfSer := by
  unfold Page.wfSer
  cases p.ptype <;> exact inferInstance

/-- Run an insert on the i32/i32 instantiation, keeping the state on a
panic (none of the traces below panics). -/
def runIns (s : BTree Int Int) (k v : Int) : BTree Int Int :=
  match s.insert k v with
  | some (s', _) => s'
  | none => s

/-- Run a delete with ample fuel, keeping the state on a panic. -/
def runDel (s : BTree Int Int) (k : Int) : BTree Int Int :=
  match s.delete k 100 with
  | some (s', _) => s'
  | none => s

/-- Unique b = 27 tree after insert (1,10), insert (2,20), delete 2: one
root leaf, keys [1, 2], second entry tombstoned. -/
def compactPre : BTree Int Int :=
  runDel (runIns (runIns (BTree.new Int Int 27 true) 1 10) 2 20) 2

/-- Non-unique b = 27 tree holding two live entries with key 5. -/
def dupMinTree : BTree Int Int :=
  runIns (runIns (BTree.new Int Int 27 false) 5 50) 5 51

/-- Unique b = 27 tree holding the single entry (5, 55). -/
def oneKeyTree : BTree Int Int :=
  runIns (BTree.new Int Int 27 true) 5 55

/-- Unique b = 3 tree after inserting (5,55), (6,66), (7,77): the third
insert splits the root, so page 2 is an interior root built by
split_root, with one key and two children. -/
def splitTrace : BTree Int Int :=
  runIns (runIns (runIns (BTree.new Int Int 3 true) 5 55) 6 66) 7 77

/-- The S7 test page of the spec: a leaf with six entries, one
tombstoned, no sibling. -/
def s7page : Page Int Int :=
  ⟨1310, .leaf, [false, false, false, true, false, false],
   [44, 45, 49, 50, 55, 60], [45, 46, 50, 51, 56, 61], [], none⟩

/-- The byte image Page::to_bytes writes for the S7 page (used by the C1
witness). -/
def s7bytes : List Nat := (pageBytesWritten s7page).getD []

/-- The date/time value with day = 100, whose packing collides with
month = 1, day = 0. -/
def day100 : DateTime := ⟨0, 0, 100, 0, 0, 0⟩

/-- A concrete row (int, two-byte ASCII string, date/time) for the C7
witness, mirroring the shape of the repository's row test. -/
def row1 : List Value :=
  [.int 163, .varChar ⟨⟨[104, 105], by decide⟩⟩,
   .dateTime ⟨2024, 8, 13, 21, 6, 0⟩]

/-- All pages satisfy a predicate; the shape every pager invariant below
takes. -/
def AllPages (P : Page K V → Prop) (s : BTree K V) : Prop :=
  ∀ p ∈ s.pages, P p

/-- `k` is at or above an optional exclusive-style lower separator. -/
def okLo [LinearOrder K] (lo : Option K) (k : K) : Prop :=
  ∀ u, lo = some u → u ≤ k

/-- `k` is at or below an optional inclusive upper separator. -/
def okHi [LinearOrder K] (hi : Option K) (k : K) : Prop :=
  ∀ u, hi = some u → k ≤ u

/-- `k` is strictly above an optional lower separator (how descent routes:
`find` skips exactly the keys strictly below the target). -/
def stLo [LinearOrder K] (lo : Option K) (k : K) : Prop :=
  ∀ u, lo = some u → u < k

/-- Length of the leading run of keys equal to `u`. -/
def keyRun [DecidableEq K] (u : K) (keys : List K) : Nat :=
  (keys.takeWhile (fun x => x = u)).length

/-- The leading run of the lower separator is at most `b / 2` — the
number of entries a division's right half inherits below its split key,
and the amount that keeps the split key of an overflowing page strictly
above the page's lower separator. -/
def runOK [LinearOrder K] (b : Nat) (lo : Option K) (keys : List K) : Prop :=
  ∀ u, lo = some u → keyRun u keys ≤ b / 2

/-- The lower separator of child slot `i` of an interior page: the
parent's own lower separator for slot 0, otherwise the key left of the
slot. -/
def slotLo (p : Page K V) (lo : Option K) (i : Nat) : Option K :=
  if i = 0 then lo else p.keys.get? (i - 1)

/-- The upper separator of child slot `i`: the key at the slot, or the
parent's own upper separator for the rightmost slot of a keys+1 page. -/
def slotHi (p : Page K V) (hi : Option K) (i : Nat) : Option K :=
  match p.keys.get? i with
  | some k => some k
  | none => hi

/-- The children-count shape every interior page the tree writes has:
non-empty keys and children numbering keys (left half of a split, with
its last key duplicating the promoted key) or keys + 1 (root form). -/
def interiorShape (p : Page K V) : Prop :=
  p.ptype = .interior → p.keys ≠ [] ∧
    (p.children.length = p.keys.length ∨
     p.children.length = p.keys.length + 1)

/-- The structural invariant of the subtree rooted at page `id`, viewed
at tree depth `d` between separators `lo` and `hi`: all ids below `N`
(the pager's next fresh id), every page present with the right type,
sorted keys lying between the separators, the leading-run bound, interior
children paired slot by slot with nested separators, the keys-count
children of a keys-length page carrying the upper separator as their last
key, and `ids` listing the subtree's page ids (root first). -/
inductive GoodSub [LinearOrder K] (ps : List (Page K V)) (N b : Nat) :
    Nat → Nat → Option K → Option K → List Nat → Prop where
  | leaf : ∀ id lo hi (p : Page K V), id < N → readPage ps id = some p →
      p.ptype = .leaf → p.keys.Sorted (· ≤ ·) →
      (∀ k ∈ p.keys, okLo lo k ∧ okHi hi k) → runOK b lo p.keys →
      GoodSub ps N b 0 id lo hi [id]
  | node : ∀ d id lo hi (p : Page K V) (idss : List (List Nat)),
      id < N → readPage ps id = some p → p.ptype = .interior →
      p.keys ≠ [] → p.keys.Sorted (· ≤ ·) →
      (∀ k ∈ p.keys, okLo lo k ∧ okHi hi k) → runOK b lo p.keys →
      idss.length = p.children.length →
      (∀ i c l, p.children.get? i = some c → idss.get? i = some l →
        GoodSub ps N b d c (slotLo p lo i) (slotHi p hi i) l) →
      (p.children.length = p.keys.length + 1 ∨
       (p.children.length = p.keys.length ∧
        ∃ u, hi = some u ∧ p.keys.getLast? = some u)) →
      GoodSub ps N b (d + 1) id lo hi (id :: idss.flatten)

/-- The ancestor chain recorded by the insert descent, nearest parent
first: following it from `start` (at depth `dstart`, between `slo` and
`shi`) reaches `target` at depth `d` between `lo` and `hi`, stepping
through child slots with their nested separators. -/
def PathUpF [LinearOrder K] (ps : List (Page K V)) :
    List Nat → Nat → Nat → Option K → Option K → Nat → Nat → Option K →
    Option K → Prop
  | [], target, d, lo, hi, start, dstart, slo, shi =>
    target = start ∧ d = dstart ∧ lo = slo ∧ hi = shi
  | par :: rest, target, d, lo, hi, start, dstart, slo, shi =>
    ∃ (q : Page K V) (j : Nat) (plo phi : Option K),
      PathUpF ps rest par (d + 1) plo phi start dstart slo shi ∧
      readPage ps par = some q ∧ q.ptype = .interior ∧
      q.children.get? j = some target ∧
      lo = slotLo q plo j ∧ hi = slotHi q phi j

/-- The whole-tree invariant behind claim C10: some duplicate-free id
list witnesses the structural invariant from the root between open
separators. -/
def TreeInv [LinearOrder K] (s : BTree K V) : Prop :=
  ∃ ids, ids.Nodup ∧
    GoodSub s.pages s.next_id s.b s.depth s.root_id none none ids

/-! ### Theorems -/

/-! #### Pager lemmas -/

theorem readPage_mem {ps : List (Page K V)} {id : Nat} {p : Page K V}
    (h : readPage ps id = some p) : p ∈ ps :=
  List.mem_of_find?_eq_some h

theorem readPage_id {ps : List (Page K V)} {id : Nat} {p : Page K V}
    (h : readPage ps id = some p) : p.id = id := by
  have := List.find?_some h
  simpa using this

theorem writePage_mem {ps : List (Page K V)} {pg q : Page K V}
    (h : q ∈ writePage ps pg) : q = pg ∨ q ∈ ps := by
  induction ps with
  | nil => simpa [writePage] using h
  | cons p rest ih =>
    simp only [writePage] at h
    split at h
    · simp only [List.mem_cons] at h
      rcases h with h | h
      · exact Or.inl h
      · exact Or.inr (by simpa using h)
    · split at h
      · simp only [List.mem_cons] at h
        rcases h with h | h
        · exact Or.inl h
        · exact Or.inr (List.mem_cons_of_mem _ h)
      · simp only [List.mem_cons] at h
        rcases h with h | h
        · exact Or.inr (by simp [h])
        · rcases ih h with h | h
          · exact Or.inl h
          · exact Or.inr (List.mem_cons_of_mem _ h)

theorem insIdx_length {l l' : List α} {i : Nat} {a : α}
    (h : insIdx l i a = some l') : l'.length = l.length + 1 := by
  unfold insIdx at h
  by_cases hi : i ≤ l.length
  · rw [if_pos hi] at h
    cases h
    simp [List.length_append, List.length_take, List.length_drop]
    omega
  · rw [if_neg hi] at h
    cases h

theorem setIdx_length {l l' : List α} {i : Nat} {a : α}
    (h : setIdx l i a = some l') : l'.length = l.length := by
  unfold setIdx at h
  split at h
  · cases h; simp
  · cases h

theorem remIdx_length {l l' : List α} {i : Nat}
    (h : remIdx l i = some l') : l'.length + 1 = l.length := by
  unfold remIdx at h
  by_cases hi : i < l.length
  · rw [if_pos hi] at h
    cases h
    rw [List.length_eraseIdx]
    simp only [if_pos hi]
    omega
  · rw [if_neg hi] at h
    cases h

/-! #### Split machinery: key-count facts -/

theorem dividePage_keys {b nid : Nat} {page L R : Page K V}
    (h : dividePage b nid page = some (L, R)) :
    b / 2 + 1 ≤ page.keys.length ∧
    L.keys = page.keys.take (b / 2 + 1) ∧
    R.keys = page.keys.drop (b / 2 + 1) := by
  unfold dividePage at h
  by_cases hk : b / 2 + 1 ≤ page.keys.length
  case neg => rw [if_neg hk] at h; cases h
  case pos =>
    rw [if_pos hk] at h
    refine ⟨hk, ?_⟩
    split at h
    · split at h
      · simp only [Option.some.injEq, Prod.mk.injEq] at h
        obtain ⟨hL, hR⟩ := h
        subst hL; subst hR
        exact ⟨rfl, rfl⟩
      · cases h
    · split at h
      · simp only [Option.some.injEq, Prod.mk.injEq] at h
        obtain ⟨hL, hR⟩ := h
        subst hL; subst hR
        exact ⟨rfl, rfl⟩
      · cases h

theorem splitPage_keys [LinearOrder K] {b nid : Nat}
    {page parent L R P : Page K V}
    (h : splitPage b nid page parent = some (L, R, P)) :
    b ≤ page.keys.length ∧
    L.keys.length = b / 2 + 1 ∧
    R.keys.length = page.keys.length - (b / 2 + 1) ∧
    P.keys.length = parent.keys.length + 1 := by
  unfold splitPage at h
  by_cases hb : page.keys.length < b
  case pos => rw [if_pos hb] at h; cases h
  case neg =>
    rw [if_neg hb] at h
    simp only [Option.bind_eq_bind, Option.bind_eq_some] at h
    obtain ⟨sk, hsk, h⟩ := h
    obtain ⟨⟨L', R'⟩, hdiv, h⟩ := h
    obtain ⟨pkeys, hpk, h⟩ := h
    obtain ⟨pch0, hpc0, h⟩ := h
    obtain ⟨pch, hpc, h⟩ := h
    simp only [Option.some.injEq, Prod.mk.injEq] at h
    obtain ⟨hL, hR, hP⟩ := h
    subst hL; subst hR; subst hP
    obtain ⟨hle, hLk, hRk⟩ := dividePage_keys hdiv
    refine ⟨by omega, ?_, ?_, ?_⟩
    · rw [hLk, List.length_take]; omega
    · rw [hRk, List.length_drop]
    · simp only [insIdx_length hpk]

theorem splitRoot_keys {b nid : Nat} {page L R Rt : Page K V}
    (h : splitRoot b nid page = some (L, R, Rt)) :
    b / 2 + 1 ≤ page.keys.length ∧
    L.keys.length = b / 2 + 1 ∧
    R.keys.length = page.keys.length - (b / 2 + 1) ∧
    Rt.keys.length = 1 := by
  unfold splitRoot at h
  simp only [Option.bind_eq_bind, Option.bind_eq_some] at h
  obtain ⟨sk, hsk, h⟩ := h
  obtain ⟨⟨L', R'⟩, hdiv, h⟩ := h
  simp only [Option.some.injEq, Prod.mk.injEq] at h
  obtain ⟨hL, hR, hRt⟩ := h
  subst hL; subst hR; subst hRt
  obtain ⟨hle, hLk, hRk⟩ := dividePage_keys hdiv
  refine ⟨hle, ?_, ?_, rfl⟩
  · rw [hLk, List.length_take]; omega
  · rw [hRk, List.length_drop]

/-! #### Key-count invariant (C8) -/

theorem splitLoop_keybound [LinearOrder K] :
    ∀ (fuel : Nat) (s : BTree K V) (page : Page K V) (parOpt : Option Nat)
      (vis : List Nat) (s' : BTree K V),
    s.b % 2 = 1 → 2 < s.b →
    AllPages (fun p => p.keys.length < s.b) s →
    page.keys.length ≤ s.b →
    splitLoop fuel s page parOpt vis = some s' →
    s'.b = s.b ∧ s'.is_unique = s.is_unique ∧
    AllPages (fun p => p.keys.length < s'.b) s' := by
  intro fuel
  induction fuel with
  | zero =>
    intro s page parOpt vis s' _ _ hall _ h
    cases h
    exact ⟨rfl, rfl, hall⟩
  | succ fuel ih =>
    intro s page parOpt vis s' hb1 hb2 hall hpage h
    simp only [splitLoop] at h
    cases parOpt with
    | some par_id =>
      simp only [Option.bind_eq_bind, Option.bind_eq_some] at h
      obtain ⟨parent, hpar, h⟩ := h
      obtain ⟨⟨L, R, P⟩, hsp, h⟩ := h
      obtain ⟨hble, hLk, hRk, hPk⟩ := splitPage_keys hsp
      have hparlen := hall parent (readPage_mem hpar)
      have hLlt : L.keys.length < s.b := by omega
      have hRlt : R.keys.length < s.b := by omega
      have hPle : P.keys.length ≤ s.b := by omega
      by_cases hP : P.keys.length < s.b
      · rw [if_pos hP] at h
        cases h
        refine ⟨rfl, rfl, ?_⟩
        intro q hq
        rcases writePage_mem hq with rfl | hq
        · exact hP
        · rcases writePage_mem hq with rfl | hq
          · exact hRlt
          · rcases writePage_mem hq with rfl | hq
            · exact hLlt
            · exact hall q hq
      · rw [if_neg hP] at h
        have hall1 : AllPages (fun p => p.keys.length < s.b)
            { s with pages := writePage (writePage s.pages L) R,
                     next_id := s.next_id + 1 } := by
          intro q hq
          rcases writePage_mem hq with rfl | hq
          · exact hRlt
          · rcases writePage_mem hq with rfl | hq
            · exact hLlt
            · exact hall q hq
        exact ih { s with pages := writePage (writePage s.pages L) R, next_id := s.next_id + 1 } P vis.head? vis.tail s' hb1 hb2 hall1 hPle h
    | none =>
      by_cases hr : page.id = s.root_id
      · rw [if_pos hr] at h
        simp only [Option.bind_eq_bind, Option.bind_eq_some] at h
        obtain ⟨⟨L, R, Rt⟩, hsr, h⟩ := h
        cases h
        obtain ⟨hle, hLk, hRk, hRtk⟩ := splitRoot_keys hsr
        refine ⟨rfl, rfl, ?_⟩
        intro q hq
        dsimp only at hq ⊢
        rcases writePage_mem hq with rfl | hq
        · omega
        · rcases writePage_mem hq with rfl | hq
          · omega
          · rcases writePage_mem hq with rfl | hq
            · omega
            · exact hall q hq
      · rw [if_neg hr] at h
        cases h

theorem insertTail_keybound [LinearOrder K] {s s' : BTree K V}
    {vis : List Nat} {page2 : Page K V} {r : InsRes}
    (hb1 : s.b % 2 = 1) (hb2 : 2 < s.b)
    (hall : AllPages (fun p => p.keys.length < s.b) s)
    (hlen : page2.keys.length ≤ s.b)
    (h : (if page2.keys.length < s.b then
        some (({ s with pages := writePage s.pages page2 } : BTree K V),
          InsRes.ok)
      else (splitLoop (s.depth + 1) s page2 vis.head? vis.tail).bind
        fun s1 => some (s1, InsRes.ok)) = some (s', r)) :
    s'.b = s.b ∧ s'.is_unique = s.is_unique ∧
    AllPages (fun p => p.keys.length < s'.b) s' := by
  by_cases hlt : page2.keys.length < s.b
  · rw [if_pos hlt] at h
    cases h
    refine ⟨rfl, rfl, ?_⟩
    intro q hq
    rcases writePage_mem hq with rfl | hq
    · exact hlt
    · exact hall q hq
  · rw [if_neg hlt] at h
    simp only [Option.bind_eq_some] at h
    obtain ⟨s1, hsl, h⟩ := h
    simp only [Option.some.injEq, Prod.mk.injEq] at h
    obtain ⟨h1, h2⟩ := h
    subst h1
    exact splitLoop_keybound _ s page2 vis.head? vis.tail _ hb1 hb2 hall
      hlen hsl

theorem insertSpliced_keybound [LinearOrder K] {s s' : BTree K V}
    {vis : List Nat} {page0 : Page K V} {idx : Nat} {k : K} {v : V}
    {r : InsRes}
    (hb1 : s.b % 2 = 1) (hb2 : 2 < s.b)
    (hall : AllPages (fun p => p.keys.length < s.b) s)
    (h0 : page0.keys.length < s.b)
    (h : insertSpliced s vis page0 idx k v = some (s', r)) :
    s'.b = s.b ∧ s'.is_unique = s.is_unique ∧
    AllPages (fun p => p.keys.length < s'.b) s' := by
  unfold insertSpliced at h
  simp only [Option.bind_eq_bind, Option.bind_eq_some] at h
  obtain ⟨keys1, hk1, h⟩ := h
  obtain ⟨vals1, hv1, h⟩ := h
  obtain ⟨del1, hd1, h⟩ := h
  have hk1l := insIdx_length hk1
  rcases hcomp : del1.reverse.findIdx? (fun b => b) with _ | i <;>
    simp only [hcomp] at h
  · simp only [Option.some_bind] at h
    refine @insertTail_keybound K V _ s s' vis
      { page0 with keys := keys1, vals := vals1, deleted := del1 } r hb1 hb2
      hall ?_ h
    dsimp only
    omega
  · simp only [Option.bind_eq_some, Option.some_bind] at h
    obtain ⟨d2, hd2, h⟩ := h
    obtain ⟨k2, hk2, h⟩ := h
    obtain ⟨v2, hv2, h⟩ := h
    have h2 := remIdx_length hk2
    refine @insertTail_keybound K V _ s s' vis
      { page0 with keys := k2, vals := v2, deleted := d2 } r hb1 hb2
      hall ?_ h
    dsimp only
    omega

theorem insert_keybound [LinearOrder K] {s s' : BTree K V} {k : K} {v : V}
    {r : InsRes}
    (hb1 : s.b % 2 = 1) (hb2 : 2 < s.b)
    (hall : AllPages (fun p => p.keys.length < s.b) s)
    (h : s.insert k v = some (s', r)) :
    s'.b = s.b ∧ s'.is_unique = s.is_unique ∧
    AllPages (fun p => p.keys.length < s'.b) s' := by
  unfold BTree.insert at h
  simp only [Option.bind_eq_bind, Option.bind_eq_some] at h
  obtain ⟨⟨vis, id⟩, hdesc, h⟩ := h
  obtain ⟨page0, hrd, h⟩ := h
  have h0 := hall page0 (readPage_mem hrd)
  rcases hbs : rustBS page0.keys k with idx | idx <;> simp only [hbs] at h
  · by_cases hu : s.is_unique
    · rw [if_pos hu] at h
      simp only [Option.bind_eq_bind, Option.bind_eq_some] at h
      obtain ⟨d, hd, h⟩ := h
      by_cases hdt : d = true
      · subst hdt
        rw [if_pos rfl] at h
        simp only [Option.bind_eq_bind, Option.bind_eq_some] at h
        obtain ⟨vals1, hv1, h⟩ := h
        obtain ⟨del1, hd1, h⟩ := h
        cases h
        refine ⟨rfl, rfl, ?_⟩
        intro q hq
        rcases writePage_mem hq with rfl | hq
        · exact h0
        · exact hall q hq
      · rw [if_neg hdt] at h
        cases h
        exact ⟨rfl, rfl, hall⟩
    · rw [if_neg hu] at h
      exact insertSpliced_keybound hb1 hb2 hall h0 h
  · exact insertSpliced_keybound hb1 hb2 hall h0 h

theorem delMarkGo_pres [LinearOrder K] (P : Page K V → Prop)
    (hstable : ∀ (p : Page K V) (i : Nat), P p →
      P { p with deleted := p.deleted.set i true }) (key : K) :
    ∀ (rem : Nat) (ps : List (Page K V)) (leaf : Page K V) (i n : Nat)
      (ps' : List (Page K V)) (leaf' : Page K V) (n' : Nat) (st : Bool),
    (∀ p ∈ ps, P p) → P leaf →
    delMarkGo key rem ps leaf i n = some (ps', leaf', n', st) →
    (∀ p ∈ ps', P p) ∧ P leaf' := by
  intro rem
  induction rem with
  | zero =>
    intro ps leaf i n ps' leaf' n' st hps hleaf h
    cases h
    exact ⟨hps, hleaf⟩
  | succ rem ih =>
    intro ps leaf i n ps' leaf' n' st hps hleaf h
    simp only [delMarkGo, Option.bind_eq_bind, Option.bind_eq_some] at h
    obtain ⟨kk, hkk, h⟩ := h
    by_cases hne : kk ≠ key
    · rw [if_pos hne] at h
      cases h
      exact ⟨hps, hleaf⟩
    · rw [if_neg hne] at h
      have hset := hstable leaf i hleaf
      refine ih (writePage ps _) _ (i + 1) (n + 1) ps' leaf' n' st ?_ hset h
      intro q hq
      rcases writePage_mem hq with rfl | hq
      · exact hset
      · exact hps q hq

theorem deleteLoop_pres [LinearOrder K] (P : Page K V → Prop)
    (hstable : ∀ (p : Page K V) (i : Nat), P p →
      P { p with deleted := p.deleted.set i true }) (key : K) :
    ∀ (fuel : Nat) (ps : List (Page K V)) (id n : Nat)
      (ps' : List (Page K V)) (n' : Nat),
    (∀ p ∈ ps, P p) →
    deleteLoop key fuel ps id n = some (ps', n') → ∀ p ∈ ps', P p := by
  intro fuel
  induction fuel with
  | zero => intro ps id n ps' n' _ h; cases h
  | succ fuel ih =>
    intro ps id n ps' n' hps h
    simp only [deleteLoop, Option.bind_eq_bind, Option.bind_eq_some] at h
    obtain ⟨leaf, hrd, h⟩ := h
    obtain ⟨⟨ps1, leaf1, n1, st⟩, hmk, h⟩ := h
    obtain ⟨hps1, hleaf1⟩ := delMarkGo_pres P hstable key _ ps leaf _ n ps1
      leaf1 n1 st hps (hps leaf (readPage_mem hrd)) hmk
    by_cases hst : st = true
    · subst hst
      rw [if_pos rfl] at h
      cases h
      exact hps1
    · rw [if_neg hst] at h
      rcases hsib : leaf1.sibling with _ | sid <;> rw [hsib] at h
      · cases h
        exact hps1
      · exact ih ps1 sid n1 ps' n' hps1 h

theorem delete_pres [LinearOrder K] (P : Page K V → Prop)
    (hstable : ∀ (p : Page K V) (i : Nat), P p →
      P { p with deleted := p.deleted.set i true })
    {s s' : BTree K V} {k : K} {fuel : Nat} {r : Option Nat}
    (hall : ∀ p ∈ s.pages, P p)
    (h : s.delete k fuel = some (s', r)) :
    (∀ p ∈ s'.pages, P p) ∧ s'.b = s.b ∧ s'.is_unique = s.is_unique ∧
    s'.depth = s.depth ∧ s'.root_id = s.root_id ∧ s'.next_id = s.next_id := by
  unfold BTree.delete at h
  simp only [Option.bind_eq_bind, Option.bind_eq_some] at h
  obtain ⟨start, hstart, h⟩ := h
  obtain ⟨⟨ps1, n1⟩, hloop, h⟩ := h
  have hps1 := deleteLoop_pres P hstable k fuel s.pages start 0 ps1 n1 hall
    hloop
  by_cases hn : n1 > 0
  · rw [if_pos hn] at h
    cases h
    exact ⟨hps1, rfl, rfl, rfl, rfl, rfl⟩
  · rw [if_neg hn] at h
    cases h
    exact ⟨hps1, rfl, rfl, rfl, rfl, rfl⟩

theorem reachable_invB [LinearOrder K] {s : BTree K V} (h : Reachable s) :
    s.b % 2 = 1 ∧ 2 < s.b ∧ AllPages (fun p => p.keys.length < s.b) s := by
  induction h with
  | init b u hb1 hb2 =>
    refine ⟨hb1, hb2, ?_⟩
    intro p hp
    simp only [BTree.new, List.mem_singleton] at hp ⊢
    subst hp
    simp only [List.length_nil]
    omega
  | ins s k v s' r _ hins ih =>
    obtain ⟨hb1, hb2, hall⟩ := ih
    obtain ⟨hb, _, hall'⟩ := insert_keybound hb1 hb2 hall hins
    exact ⟨hb ▸ hb1, hb ▸ hb2, hall'⟩
  | del s k fuel s' r _ hdel ih =>
    obtain ⟨hb1, hb2, hall⟩ := ih
    obtain ⟨hall', hb, _⟩ := delete_pres (fun p => p.keys.length < s.b)
      (fun p i hp => by simpa using hp) hall hdel
    refine ⟨hb ▸ hb1, hb ▸ hb2, ?_⟩
    intro p hp
    rw [hb]
    exact hall' p hp

/-- C8: on every tree reachable from new(b, is_unique) — whose asserts
force b odd and above 2 — every page held in the pager has strictly fewer
than b keys after every completed operation (find and find_range do not
change the pager, so construction, insert and delete are the cases). -/
theorem C8_key_count_bound [LinearOrder K] {s : BTree K V}
    (h : Reachable s) : ∀ p ∈ s.pages, p.keys.length < s.b :=
  (reachable_invB h).2.2

/-- C8 witness: the bound applied to the root leaf of a freshly
constructed tree with b = 3. -/
theorem C8_key_count_bound_witness :
    (⟨0, .leaf, [], [], [], [], none⟩ : Page Int Int).keys.length <
      (BTree.new Int Int 3 true).b :=
  C8_key_count_bound (Reachable.init 3 true (by decide) (by decide))
    ⟨0, .leaf, [], [], [], [], none⟩ (by decide)

/-! #### Delete frame (C9) -/

theorem writePage_sorted {ps : List (Page K V)} {pg : Page K V}
    (h : IdsSorted ps) : IdsSorted (writePage ps pg) := by
  induction ps with
  | nil => simp [writePage, IdsSorted]
  | cons p rest ih =>
    rw [IdsSorted, List.pairwise_cons] at h
    obtain ⟨hp, hrest⟩ := h
    simp only [writePage]
    split
    · rw [IdsSorted, List.pairwise_cons]
      refine ⟨?_, List.Pairwise.cons hp hrest⟩
      intro q hq
      simp only [List.mem_cons] at hq
      rcases hq with rfl | hq
      · assumption
      · exact Nat.lt_trans (by assumption) (hp q hq)
    · split
      · rw [IdsSorted, List.pairwise_cons]
        refine ⟨?_, hrest⟩
        intro q hq
        have := hp q hq
        omega
      · rw [IdsSorted, List.pairwise_cons]
        refine ⟨?_, ih hrest⟩
        intro q hq
        rcases writePage_mem hq with rfl | hq
        · omega
        · exact hp q hq

theorem writePage_collapse {ps : List (Page K V)} {p1 p2 : Page K V}
    (hid : p1.id = p2.id) :
    writePage (writePage ps p1) p2 = writePage ps p2 := by
  induction ps with
  | nil =>
    simp only [writePage]
    rw [if_neg (show ¬ p2.id < p1.id by omega), if_pos hid.symm]
  | cons p rest ih =>
    by_cases h1 : p1.id < p.id
    · simp only [writePage, if_pos h1]
      rw [if_neg (show ¬ p2.id < p1.id by omega), if_pos hid.symm,
        if_pos (show p2.id < p.id by omega)]
    · by_cases h2 : p1.id = p.id
      · simp only [writePage, if_neg h1, if_pos h2]
        rw [if_neg (show ¬ p2.id < p1.id by omega), if_pos hid.symm,
          if_neg (show ¬ p2.id < p.id by omega),
          if_pos (show p2.id = p.id by omega)]
      · simp only [writePage, if_neg h1, if_neg h2,
          if_neg (show ¬ p2.id < p.id by omega),
          if_neg (show ¬ p2.id = p.id by omega)]
        rw [ih]

theorem pageFrame_refl [DecidableEq K] (key : K) (p : Page K V) :
    PageFrame key p p :=
  ⟨rfl, rfl, rfl, rfl, rfl, rfl, rfl, fun _ h => absurd rfl h⟩

theorem pageFrame_trans [DecidableEq K] {key : K} {p q r : Page K V}
    (h1 : PageFrame key p q) (h2 : PageFrame key q r) : PageFrame key p r := by
  obtain ⟨a1, a2, a3, a4, a5, a6, a7, a8⟩ := h1
  obtain ⟨b1, b2, b3, b4, b5, b6, b7, b8⟩ := h2
  refine ⟨b1.trans a1, b2.trans a2, b3.trans a3, b4.trans a4, b5.trans a5,
    b6.trans a6, b7.trans a7, ?_⟩
  intro i hne
  by_cases hqp : q.deleted.get? i = p.deleted.get? i
  · rw [← hqp] at hne
    obtain ⟨hb, hk⟩ := b8 i hne
    exact ⟨hb, by rwa [← a3]⟩
  · obtain ⟨hb, hk⟩ := a8 i hqp
    by_cases hrq : r.deleted.get? i = q.deleted.get? i
    · exact ⟨hrq.trans hb, hk⟩
    · obtain ⟨hb', hk'⟩ := b8 i hrq
      exact ⟨hb', by rwa [← a3]⟩

theorem pageFrame_set [DecidableEq K] {key : K} {p : Page K V} {i : Nat}
    (hk : p.keys.get? i = some key) :
    PageFrame key p { p with deleted := p.deleted.set i true } := by
  refine ⟨rfl, rfl, rfl, rfl, rfl, rfl, by simp, ?_⟩
  intro j hne
  dsimp only at hne ⊢
  by_cases hij : j = i
  · subst hij
    rcases hlt : decide (j < p.deleted.length) with _ | _
    · simp only [decide_eq_false_iff_not, not_lt] at hlt
      rw [List.get?_eq_none.2 (by simpa using hlt)] at hne
      rw [List.get?_eq_none.2 (by omega : p.deleted.length ≤ j)] at hne
      exact absurd rfl hne
    · simp only [decide_eq_true_eq] at hlt
      refine ⟨?_, hk⟩
      exact List.get?_set_eq_of_lt _ hlt
  · rw [List.get?_set_ne _ _ (fun h => hij h.symm)] at hne
    exact absurd rfl hne

theorem pagesFrame_refl [DecidableEq K] (key : K) (ps : List (Page K V)) :
    PagesFrame key ps ps :=
  List.forall₂_same.2 (fun p _ => pageFrame_refl key p)

theorem pagesFrame_ids [DecidableEq K] {key : K} {ps qs : List (Page K V)}
    (h : PagesFrame key ps qs) : qs.map Page.id = ps.map Page.id := by
  induction h with
  | nil => rfl
  | cons hpq _ ih => simp [ih, hpq.1]

theorem pagesFrame_sorted [DecidableEq K] {key : K} {ps qs : List (Page K V)}
    (hs : IdsSorted ps) (h : PagesFrame key ps qs) : IdsSorted qs := by
  have h1 : (ps.map Page.id).Pairwise (· < ·) := List.pairwise_map.2 hs
  have h2 : (qs.map Page.id).Pairwise (· < ·) := by
    rw [pagesFrame_ids h]
    exact h1
  exact List.pairwise_map.1 h2

theorem frame_write [DecidableEq K] {key : K} :
    ∀ {qs ps : List (Page K V)} {id : Nat} {q q' : Page K V},
    IdsSorted qs → PagesFrame key ps qs → readPage qs id = some q →
    PageFrame key q q' → PagesFrame key ps (writePage qs q') := by
  intro qs
  induction qs with
  | nil => intro ps id q q' _ _ hrd _; simp [readPage] at hrd
  | cons b qt ih =>
    intro ps id q q' hsort hF hrd hfr
    rcases hF with _ | ⟨hab, htail⟩
    rw [IdsSorted, List.pairwise_cons] at hsort
    obtain ⟨hblt, hsort'⟩ := hsort
    by_cases hb : b.id = id
    · rw [readPage, List.find?_cons_of_pos _ (by simpa using hb)] at hrd
      injection hrd with hq
      subst hq
      have hq' : q'.id = b.id := hfr.1
      simp only [writePage]
      rw [if_neg (by omega), if_pos hq']
      exact List.Forall₂.cons (pageFrame_trans hab hfr) htail
    · rw [readPage, List.find?_cons_of_neg _ (by simpa using hb)] at hrd
      have hqmem := readPage_mem (show readPage qt id = some q from hrd)
      have hqid := readPage_id (show readPage qt id = some q from hrd)
      have hq' : q'.id = q.id := hfr.1
      have hlt := hblt q hqmem
      simp only [writePage]
      rw [if_neg (by omega), if_neg (by omega)]
      exact List.Forall₂.cons hab (ih hsort' htail hrd hfr)

theorem delMarkGo_net [LinearOrder K] (key : K) :
    ∀ (rem : Nat) (ps : List (Page K V)) (leaf : Page K V) (i n : Nat)
      (ps' : List (Page K V)) (leaf' : Page K V) (n' : Nat) (st : Bool),
    delMarkGo key rem ps leaf i n = some (ps', leaf', n', st) →
    PageFrame key leaf leaf' ∧
      ((ps' = ps ∧ leaf' = leaf) ∨ ps' = writePage ps leaf') := by
  intro rem
  induction rem with
  | zero =>
    intro ps leaf i n ps' leaf' n' st h
    cases h
    exact ⟨pageFrame_refl key leaf, Or.inl ⟨rfl, rfl⟩⟩
  | succ rem ih =>
    intro ps leaf i n ps' leaf' n' st h
    simp only [delMarkGo, Option.bind_eq_bind, Option.bind_eq_some] at h
    obtain ⟨kk, hkk, h⟩ := h
    by_cases hne : kk ≠ key
    · rw [if_pos hne] at h
      cases h
      exact ⟨pageFrame_refl key leaf, Or.inl ⟨rfl, rfl⟩⟩
    · rw [if_neg hne] at h
      push_neg at hne
      subst hne
      have hstep := pageFrame_set hkk
      obtain ⟨hfr2, hcase⟩ := ih _ _ (i + 1) (n + 1) ps' leaf' n' st h
      refine ⟨pageFrame_trans hstep hfr2, ?_⟩
      rcases hcase with ⟨hps, hlf⟩ | hps
      · rw [hps, hlf]
        exact Or.inr rfl
      · rw [hps, writePage_collapse hfr2.1.symm]
        exact Or.inr rfl

theorem deleteLoop_frame [LinearOrder K] (key : K) :
    ∀ (fuel : Nat) (ps0 ps : List (Page K V)) (id n : Nat)
      (ps' : List (Page K V)) (n' : Nat),
    IdsSorted ps0 → PagesFrame key ps0 ps →
    deleteLoop key fuel ps id n = some (ps', n') →
    PagesFrame key ps0 ps' := by
  intro fuel
  induction fuel with
  | zero => intro ps0 ps id n ps' n' _ _ h; cases h
  | succ fuel ih =>
    intro ps0 ps id n ps' n' hsort hF h
    simp only [deleteLoop, Option.bind_eq_bind, Option.bind_eq_some] at h
    obtain ⟨leaf, hrd, h⟩ := h
    obtain ⟨⟨ps1, leaf1, n1, st⟩, hmk, h⟩ := h
    obtain ⟨hfr, hcase⟩ := delMarkGo_net key _ ps leaf _ n ps1 leaf1 n1 st
      hmk
    have hF1 : PagesFrame key ps0 ps1 := by
      rcases hcase with ⟨hps, _⟩ | hps
      · rw [hps]; exact hF
      · rw [hps]
        exact frame_write (pagesFrame_sorted hsort hF) hF hrd hfr
    by_cases hst : st = true
    · subst hst
      rw [if_pos rfl] at h
      cases h
      exact hF1
    · rw [if_neg hst] at h
      rcases hsib : leaf1.sibling with _ | sid <;> rw [hsib] at h
      · cases h
        exact hF1
      · exact ih ps0 ps1 sid n1 ps' n' hsort hF1 h

theorem deleteLoop_pagesQ [LinearOrder K] (key : K)
    (Q : List (Page K V) → Prop)
    (hQ : ∀ ps pg, Q ps → Q (writePage ps pg)) :
    ∀ (fuel : Nat) (ps : List (Page K V)) (id n : Nat)
      (ps' : List (Page K V)) (n' : Nat),
    Q ps → deleteLoop key fuel ps id n = some (ps', n') → Q ps' := by
  intro fuel
  induction fuel with
  | zero => intro ps id n ps' n' _ h; cases h
  | succ fuel ih =>
    intro ps id n ps' n' hq h
    simp only [deleteLoop, Option.bind_eq_bind, Option.bind_eq_some] at h
    obtain ⟨leaf, hrd, h⟩ := h
    obtain ⟨⟨ps1, leaf1, n1, st⟩, hmk, h⟩ := h
    obtain ⟨_, hcase⟩ := delMarkGo_net key _ ps leaf _ n ps1 leaf1 n1 st hmk
    have hq1 : Q ps1 := by
      rcases hcase with ⟨hps, _⟩ | hps
      · rw [hps]; exact hq
      · rw [hps]; exact hQ _ _ hq
    by_cases hst : st = true
    · subst hst
      rw [if_pos rfl] at h
      cases h
      exact hq1
    · rw [if_neg hst] at h
      rcases hsib : leaf1.sibling with _ | sid <;> rw [hsib] at h
      · cases h
        exact hq1
      · exact ih ps1 sid n1 ps' n' hq1 h

theorem splitLoop_pagesQ [LinearOrder K] (Q : List (Page K V) → Prop)
    (hQ : ∀ ps pg, Q ps → Q (writePage ps pg)) :
    ∀ (fuel : Nat) (s : BTree K V) (page : Page K V) (parOpt : Option Nat)
      (vis : List Nat) (s' : BTree K V),
    Q s.pages → splitLoop fuel s page parOpt vis = some s' → Q s'.pages := by
  intro fuel
  induction fuel with
  | zero =>
    intro s page parOpt vis s' hq h
    cases h
    exact hq
  | succ fuel ih =>
    intro s page parOpt vis s' hq h
    simp only [splitLoop] at h
    cases parOpt with
    | some par_id =>
      simp only [Option.bind_eq_bind, Option.bind_eq_some] at h
      obtain ⟨parent, hpar, h⟩ := h
      obtain ⟨⟨L, R, P⟩, hsp, h⟩ := h
      by_cases hP : P.keys.length < s.b
      · rw [if_pos hP] at h
        cases h
        exact hQ _ _ (hQ _ _ (hQ _ _ hq))
      · rw [if_neg hP] at h
        exact ih { s with pages := writePage (writePage s.pages L) R, next_id := s.next_id + 1 } P vis.head? vis.tail s' (hQ _ _ (hQ _ _ hq)) h
    | none =>
      by_cases hr : page.id = s.root_id
      · rw [if_pos hr] at h
        simp only [Option.bind_eq_bind, Option.bind_eq_some] at h
        obtain ⟨⟨L, R, Rt⟩, hsr, h⟩ := h
        cases h
        exact hQ _ _ (hQ _ _ (hQ _ _ hq))
      · rw [if_neg hr] at h
        cases h

theorem insert_pagesQ [LinearOrder K] (Q : List (Page K V) → Prop)
    (hQ : ∀ ps pg, Q ps → Q (writePage ps pg)) {s s' : BTree K V} {k : K}
    {v : V} {r : InsRes} (hq : Q s.pages)
    (h : s.insert k v = some (s', r)) : Q s'.pages := by
  unfold BTree.insert at h
  simp only [Option.bind_eq_bind, Option.bind_eq_some] at h
  obtain ⟨⟨vis, id⟩, hdesc, h⟩ := h
  obtain ⟨page0, hrd, h⟩ := h
  have tailQ : ∀ (page2 : Page K V) (s' : BTree K V) (r : InsRes),
      (if page2.keys.length < s.b then
        some (({ s with pages := writePage s.pages page2 } : BTree K V),
          InsRes.ok)
      else (splitLoop (s.depth + 1) s page2 vis.head? vis.tail).bind
        fun s1 => some (s1, InsRes.ok)) = some (s', r) → Q s'.pages := by
    intro page2 s' r h
    by_cases hlt : page2.keys.length < s.b
    · rw [if_pos hlt] at h
      cases h
      exact hQ _ _ hq
    · rw [if_neg hlt] at h
      simp only [Option.bind_eq_some] at h
      obtain ⟨s1, hsl, h⟩ := h
      simp only [Option.some.injEq, Prod.mk.injEq] at h
      obtain ⟨h1, _⟩ := h
      subst h1
      exact splitLoop_pagesQ Q hQ _ s page2 vis.head? vis.tail _ hq hsl
  have splicedQ : ∀ (idx : Nat),
      insertSpliced s vis page0 idx k v = some (s', r) → Q s'.pages := by
    intro idx h
    unfold insertSpliced at h
    simp only [Option.bind_eq_bind, Option.bind_eq_some] at h
    obtain ⟨keys1, hk1, h⟩ := h
    obtain ⟨vals1, hv1, h⟩ := h
    obtain ⟨del1, hd1, h⟩ := h
    rcases hcomp : del1.reverse.findIdx? (fun b => b) with _ | i <;>
      simp only [hcomp] at h
    · simp only [Option.some_bind] at h
      exact tailQ { page0 with keys := keys1, vals := vals1, deleted := del1 } _ _ h
    · simp only [Option.bind_eq_some, Option.some_bind] at h
      obtain ⟨d2, hd2, h⟩ := h
      obtain ⟨k2, hk2, h⟩ := h
      obtain ⟨v2, hv2, h⟩ := h
      exact tailQ { page0 with keys := k2, vals := v2, deleted := d2 } _ _ h
  rcases hbs : rustBS page0.keys k with idx | idx <;> simp only [hbs] at h
  · by_cases hu : s.is_unique
    · rw [if_pos hu] at h
      simp only [Option.bind_eq_bind, Option.bind_eq_some] at h
      obtain ⟨d, hd, h⟩ := h
      by_cases hdt : d = true
      · subst hdt
        rw [if_pos rfl] at h
        simp only [Option.bind_eq_bind, Option.bind_eq_some] at h
        obtain ⟨vals1, hv1, h⟩ := h
        obtain ⟨del1, hd1, h⟩ := h
        cases h
        exact hQ _ _ hq
      · rw [if_neg hdt] at h
        cases h
        exact hq
    · rw [if_neg hu] at h
      exact splicedQ idx h
  · exact splicedQ idx h

theorem reachable_idsSorted [LinearOrder K] {s : BTree K V}
    (h : Reachable s) : IdsSorted s.pages := by
  induction h with
  | init b u _ _ => simp [BTree.new, IdsSorted]
  | ins s k v s' r _ hins ih =>
    exact insert_pagesQ IdsSorted (fun ps pg hq => writePage_sorted hq) ih
      hins
  | del s k fuel s' r _ hdel ih =>
    unfold BTree.delete at hdel
    simp only [Option.bind_eq_bind, Option.bind_eq_some] at hdel
    obtain ⟨start, hstart, hdel⟩ := hdel
    obtain ⟨⟨ps1, n1⟩, hloop, hdel⟩ := hdel
    have hq1 := deleteLoop_pagesQ k IdsSorted
      (fun ps pg hq => writePage_sorted hq) fuel s.pages start 0 ps1 n1 ih
      hloop
    by_cases hn : n1 > 0
    · rw [if_pos hn] at hdel
      cases hdel
      exact hq1
    · rw [if_neg hn] at hdel
      cases hdel
      exact hq1

/-- C9: whether it returns Ok(n) or KeyNotFound, a completed delete leaves
b, is_unique, depth, root_id and next_id unchanged and changes pages only
by setting tombstone bits, each at a position whose key is the deleted
key; every other page field — id, type, keys, values, children, sibling,
the tombstone vector length — and the pager's page sequence are
untouched. -/
theorem C9_delete_frame [LinearOrder K] {s : BTree K V}
    (hreach : Reachable s) (key : K) (fuel : Nat) {s' : BTree K V}
    {r : Option Nat} (h : s.delete key fuel = some (s', r)) :
    s'.b = s.b ∧ s'.is_unique = s.is_unique ∧ s'.depth = s.depth ∧
    s'.root_id = s.root_id ∧ s'.next_id = s.next_id ∧
    PagesFrame key s.pages s'.pages := by
  have hsort := reachable_idsSorted hreach
  unfold BTree.delete at h
  simp only [Option.bind_eq_bind, Option.bind_eq_some] at h
  obtain ⟨start, hstart, h⟩ := h
  obtain ⟨⟨ps1, n1⟩, hloop, h⟩ := h
  have hF := deleteLoop_frame key fuel s.pages s.pages start 0 ps1 n1 hsort
    (pagesFrame_refl key s.pages) hloop
  by_cases hn : n1 > 0
  · rw [if_pos hn] at h
    cases h
    exact ⟨rfl, rfl, rfl, rfl, rfl, hF⟩
  · rw [if_neg hn] at h
    cases h
    exact ⟨rfl, rfl, rfl, rfl, rfl, hF⟩

/-- C9 witness: deleting key 5 from the reachable one-entry tree
completes with Ok(1) and the theorem yields the scalar-field frame at
this input. -/
theorem C9_delete_frame_witness :
    oneKeyTree.delete 5 100 = some (runDel oneKeyTree 5, some 1) ∧
    (runDel oneKeyTree 5).depth = oneKeyTree.depth ∧
    (runDel oneKeyTree 5).root_id = oneKeyTree.root_id ∧
    (runDel oneKeyTree 5).next_id = oneKeyTree.next_id := by
  have hreach : Reachable oneKeyTree :=
    Reachable.ins (BTree.new Int Int 27 true) 5 55 oneKeyTree .ok
      (Reachable.init 27 true (by decide) (by decide)) (by decide)
  have hdel : oneKeyTree.delete 5 100 =
      some (runDel oneKeyTree 5, some 1) := by decide
  have hfrm := C9_delete_frame hreach 5 100 hdel
  exact ⟨hdel, hfrm.2.2.1, hfrm.2.2.2.1, hfrm.2.2.2.2.1⟩

theorem delMarkGo_count [LinearOrder K] (key : K) :
    ∀ (rem : Nat) (ps : List (Page K V)) (leaf : Page K V) (i n : Nat)
      (ps' : List (Page K V)) (leaf' : Page K V) (n' : Nat) (st : Bool),
    delMarkGo key rem ps leaf i n = some (ps', leaf', n', st) →
    n ≤ n' ∧ (n' = n → ps' = ps ∧ leaf' = leaf) := by
  intro rem
  induction rem with
  | zero =>
    intro ps leaf i n ps' leaf' n' st h
    cases h
    exact ⟨Nat.le_refl n, fun _ => ⟨rfl, rfl⟩⟩
  | succ rem ih =>
    intro ps leaf i n ps' leaf' n' st h
    simp only [delMarkGo, Option.bind_eq_bind, Option.bind_eq_some] at h
    obtain ⟨kk, hkk, h⟩ := h
    by_cases hne : kk ≠ key
    · rw [if_pos hne] at h
      cases h
      exact ⟨Nat.le_refl n, fun _ => ⟨rfl, rfl⟩⟩
    · rw [if_neg hne] at h
      obtain ⟨hle, _⟩ := ih _ _ (i + 1) (n + 1) ps' leaf' n' st h
      exact ⟨by omega, fun hz => absurd hz (by omega)⟩

theorem deleteLoop_count [LinearOrder K] (key : K) :
    ∀ (fuel : Nat) (ps : List (Page K V)) (id n : Nat)
      (ps' : List (Page K V)) (n' : Nat),
    deleteLoop key fuel ps id n = some (ps', n') →
    n ≤ n' ∧ (n' = n → ps' = ps) := by
  intro fuel
  induction fuel with
  | zero => intro ps id n ps' n' h; cases h
  | succ fuel ih =>
    intro ps id n ps' n' h
    simp only [deleteLoop, Option.bind_eq_bind, Option.bind_eq_some] at h
    obtain ⟨leaf, hrd, h⟩ := h
    obtain ⟨⟨ps1, leaf1, n1, st⟩, hmk, h⟩ := h
    obtain ⟨hle1, hz1⟩ := delMarkGo_count key _ ps leaf _ n ps1 leaf1 n1 st
      hmk
    by_cases hst : st = true
    · subst hst
      rw [if_pos rfl] at h
      cases h
      exact ⟨hle1, fun hz => (hz1 hz).1⟩
    · rw [if_neg hst] at h
      rcases hsib : leaf1.sibling with _ | sid <;> rw [hsib] at h
      · cases h
        exact ⟨hle1, fun hz => (hz1 hz).1⟩
      · obtain ⟨hle2, hz2⟩ := ih ps1 sid n1 ps' n' h
        refine ⟨by omega, fun hz => ?_⟩
        rw [hz2 (by omega), (hz1 (by omega)).1]

/-- C5 amended: a completed delete(&k) counts every entry whose tombstone
bit it sets — entries already tombstoned before the call are set again
and re-counted, so the count is the number of key-k entries marked, not
the number changed from clear to set. It returns Ok(n) with n positive
whenever it marked at least one entry, and KeyNotFound exactly when it
marked none; in the KeyNotFound case the tree is completely unchanged. -/
theorem C5_delete_count [LinearOrder K] {s : BTree K V} {key : K}
    {fuel : Nat} {s' : BTree K V} {r : Option Nat}
    (h : s.delete key fuel = some (s', r)) :
    (∀ n, r = some n → 0 < n) ∧ (r = none → s' = s) := by
  unfold BTree.delete at h
  simp only [Option.bind_eq_bind, Option.bind_eq_some] at h
  obtain ⟨start, hstart, h⟩ := h
  obtain ⟨⟨ps1, n1⟩, hloop, h⟩ := h
  obtain ⟨_, hz⟩ := deleteLoop_count key fuel s.pages start 0 ps1 n1 hloop
  by_cases hn : n1 > 0
  · rw [if_pos hn] at h
    cases h
    refine ⟨fun n hn' => ?_, fun hcon => by cases hcon⟩
    injection hn' with hn'
    omega
  · rw [if_neg hn] at h
    cases h
    refine ⟨fun n hn' => (nomatch hn'), fun _ => ?_⟩
    rw [hz (by omega)]

/-- C5 witness: deleting the absent key 7 from the one-entry tree
completes with KeyNotFound, and the theorem yields that the tree is
unchanged. -/
theorem C5_delete_count_witness :
    oneKeyTree.delete 7 100 = some (runDel oneKeyTree 7, none) ∧
    runDel oneKeyTree 7 = oneKeyTree := by
  have hdel : oneKeyTree.delete 7 100 =
      some (runDel oneKeyTree 7, none) := by decide
  exact ⟨hdel, (C5_delete_count hdel).2 rfl⟩

theorem leU32_u32Le (m : Nat) (h : m < 2 ^ 32) :
    leU32 (m % 256) (m / 256 % 256) (m / 256 ^ 2 % 256) (m / 256 ^ 3 % 256)
      = m := by
  unfold leU32
  omega

theorem i32Bits_lt (v : Int) : i32Bits v < 2 ^ 32 := by
  unfold i32Bits
  omega

theorem i32OfBits_i32Bits (v : Int) (h1 : -(2 ^ 31) ≤ v) (h2 : v < 2 ^ 31) :
    i32OfBits (i32Bits v) = v := by
  unfold i32OfBits i32Bits
  split <;> omega

theorem i32_frame (v : Int) (h1 : -(2 ^ 31) ≤ v) (h2 : v < 2 ^ 31)
    (rest : List Nat) : i32FromBytes (i32ToBytes v ++ rest) = .ok 4 v := by
  show i32FromBytes (u32Le (i32Bits v) ++ rest) = .ok 4 v
  simp only [u32Le, List.cons_append, i32FromBytes]
  rw [leU32_u32Le _ (i32Bits_lt v), i32OfBits_i32Bits v h1 h2]

theorem varchar_frame (vc : VarChar) (h : vc.val.1.length < 2 ^ 32)
    (rest : List Nat) :
    VarChar.fromBytes (VarChar.toBytes vc ++ rest) =
      .ok (4 + vc.val.1.length) vc := by
  obtain ⟨⟨bs, hv⟩⟩ := vc
  have h' : bs.length < 2 ^ 32 := h
  show VarChar.fromBytes ((u32Le bs.length ++ bs) ++ rest) =
    .ok (4 + bs.length) ⟨⟨bs, hv⟩⟩
  simp only [u32Le, List.cons_append, List.append_assoc, List.nil_append,
    VarChar.fromBytes]
  rw [leU32_u32Le _ h']
  rw [if_pos (by simp : bs.length ≤ (bs ++ rest).length)]
  have htake : (bs ++ rest).take bs.length = bs := List.take_left bs rest
  simp only [htake]
  rw [dif_pos hv]

theorem datetime_frame (dt : DateTime) (h : dt.canonical) (rest : List Nat) :
    DateTime.fromBytes (DateTime.toBytes dt ++ rest) = .ok 8 dt := by
  obtain ⟨y, mo, d, hh, mi, se⟩ := dt
  unfold DateTime.canonical at h
  dsimp only at h
  obtain ⟨h1, h2, h3, h4, h5, h6⟩ := h
  simp only [DateTime.toBytes, u32Le, List.cons_append, List.append_assoc,
    List.nil_append, DateTime.fromBytes]
  rw [Nat.mod_eq_of_lt h5, Nat.mod_eq_of_lt h6,
    leU32_u32Le _ h5, leU32_u32Le _ h6]
  apply congrArg
  have e1 : (10000 * y + 100 * mo + d) / 10000 = y := by omega
  have e2 : (10000 * y + 100 * mo + d) % 10000 / 100 = mo := by omega
  have e3 : (10000 * y + 100 * mo + d) % 10000 % 100 = d := by omega
  have e4 : (hh * 10000 + mi * 100 + se) / 10000 = hh := by omega
  have e5 : (hh * 10000 + mi * 100 + se) % 10000 / 100 = mi := by omega
  have e6 : (hh * 10000 + mi * 100 + se) % 10000 % 100 = se := by omega
  rw [e1, e2, e3, e4, e5, e6]

theorem value_frame (v : Value) (h : Value.wf v) (rest : List Nat) :
    Value.fromBytes (Value.toBytes v ++ rest) =
      .ok (Value.toBytes v).length v := by
  cases v with
  | int n =>
    obtain ⟨h1, h2⟩ := h
    simp only [Value.toBytes, List.cons_append, Value.fromBytes, if_pos rfl]
    rw [i32_frame n h1 h2 rest]
    simp [i32ToBytes, u32Le]
  | varChar vc =>
    simp only [Value.toBytes, List.cons_append, Value.fromBytes]
    norm_num
    rw [varchar_frame vc h rest]
    simp [VarChar.toBytes, u32Le, List.length_append]
    omega
  | dateTime dt =>
    simp only [Value.toBytes, List.cons_append, Value.fromBytes]
    norm_num
    rw [datetime_frame dt h rest]
    simp [DateTime.toBytes, u32Le]

theorem rowGo_frame :
    ∀ (vs : List Value) (acc : List Value) (i : Nat) (bs rest : List Nat),
    (∀ v ∈ vs, Value.wf v) →
    bs.drop i = (vs.map Value.toBytes).flatten ++ rest →
    rowFromBytesGo vs.length bs i acc =
      .ok (i + ((vs.map Value.toBytes).flatten).length) (acc ++ vs) := by
  intro vs
  induction vs with
  | nil => intro acc i bs rest _ _; simp [rowFromBytesGo]
  | cons v vs ih =>
    intro acc i bs rest hwf hdrop
    simp only [List.map_cons, List.flatten_cons, List.append_assoc] at hdrop
    have hv : Value.fromBytes (bs.drop i) =
        .ok (Value.toBytes v).length v := by
      rw [hdrop]
      exact value_frame v (hwf v (by simp)) _
    simp only [List.length_cons, rowFromBytesGo, hv]
    have hdrop' : bs.drop (i + (Value.toBytes v).length) =
        (vs.map Value.toBytes).flatten ++ rest := by
      rw [← List.drop_drop, hdrop]
      simp [List.drop_left]
    rw [ih (acc ++ [v]) _ bs rest (fun w hw => hwf w (by simp [hw])) hdrop']
    simp only [List.map_cons, List.flatten_cons, List.length_append,
      List.append_assoc, List.cons_append, List.nil_append]
    congr 1
    omega

/-- C2: the opportunistic compaction is buggy. On `compactPre` (root leaf
keys [1,2], vals [10,20], tombstones [false,true]), insert(0,5) splices
(0,5,live) at index 0 and should then remove the single tombstoned entry
(2,20); instead the code removes the entry at the reversed-iterator index
— the freshly inserted live (0,5) — and keeps the tombstone, so the
insert returns Ok with the tree unchanged. -/
theorem C2_compaction_bug :
    compactPre.pages =
      [⟨0, .leaf, [false, true], [1, 2], [10, 20], [], none⟩] ∧
    compactPre.insert 0 5 = some (compactPre, .ok) := by decide

/-- C3: point consistency fails on the code. After insert(1,10),
insert(2,20), delete(2) on a unique tree, insert(0,5) returns Ok, no
delete of key 0 ever runs, yet find(0) completes and returns None —
the compaction slip of C2 discarded the new entry. -/
theorem C3_point_consistency_bug :
    (compactPre.insert 0 5).map Prod.snd = some .ok ∧
    (runIns compactPre 0 5).find 0 = some none := by decide

/-- C6: VarChar::from_bytes never returns InvalidByteLen: the unchecked
slices `bs[0..4]` and `bs[4..4 + len]` panic on input shorter than the
4-byte length field, or shorter than 4 plus the declared payload length
(second conjunct: declared length 5, no payload). The InvalidUtf8 half of
the claim does hold (third conjunct: 0xC3 0x28 is not UTF-8). -/
theorem C6_short_input_panics :
    VarChar.fromBytes [] = .crash ∧
    VarChar.fromBytes [5, 0, 0, 0] = .crash ∧
    VarChar.fromBytes [2, 0, 0, 0, 195, 40] = .err .invalidUtf8 := by decide

/-- C7 counterexample: the date/time packing is not injective on
arbitrary u32 components. day = 100 encodes to the same bytes as
month = 1, day = 0, so from_bytes(to_bytes(v)) returns a value different
from v. -/
theorem C7_datetime_collision :
    Value.fromBytes (Value.toBytes (.dateTime day100)) =
      .ok 9 (.dateTime ⟨0, 1, 0, 0, 0, 0⟩) ∧
    Value.dateTime ⟨0, 1, 0, 0, 0, 0⟩ ≠ .dateTime day100 := by decide

/-- C4 counterexample: `dupMinTree` holds two live entries with key 5 in
its only leaf, both inside the range [5, 5], but find_range(5, 5) starts
at the binary-search hit (index 1) and emits only one of them. -/
theorem C4_range_misses_min_duplicate :
    dupMinTree.pages =
      [⟨0, .leaf, [false, false], [5, 5], [51, 50], [], none⟩] ∧
    dupMinTree.find_range 5 5 100 = some [(5, 50)] := by decide

/-- C5 counterexample: with the single entry (5,55) already tombstoned, a
second delete(5) completes with Ok(1) — the loop re-sets the tombstone of
the already tombstoned entry and counts it — while the claim demands
KeyNotFound when no entry goes from clear to set. -/
theorem C5_tombstoned_delete_counts :
    (runDel oneKeyTree 5).pages =
      [⟨0, .leaf, [true], [5], [55], [], none⟩] ∧
    (runDel oneKeyTree 5).delete 5 100 =
      some (runDel oneKeyTree 5, some 1) := by decide

/-- C7 amended: from_bytes(to_bytes(v)) succeeds and returns v together
with the full byte count, for every i32 value, every text value whose
length fits the u32 length field, and every date/time value in canonical
range (month, day, minute, second below 100 and both packed words inside
u32) — but not for arbitrary u32 components, see the counterexample — and
likewise for every row of such values whose element count fits in u32. -/
theorem C7_value_row_roundtrip :
    (∀ v : Value, Value.wf v →
      Value.fromBytes (Value.toBytes v) = .ok (Value.toBytes v).length v) ∧
    (∀ row : List Value, (∀ v ∈ row, Value.wf v) → row.length < 2 ^ 32 →
      rowFromBytes (rowToBytes row) = .ok (rowToBytes row).length row) := by
  constructor
  · intro v hv
    have := value_frame v hv []
    simpa using this
  · intro row hwf hlen
    show rowFromBytes (u32Le row.length ++ (row.map Value.toBytes).flatten) = _
    simp only [u32Le, List.cons_append, List.nil_append, rowFromBytes]
    rw [leU32_u32Le _ hlen]
    have hdrop : ((row.length % 256 :: (row.length / 256 % 256 ::
        (row.length / 256 ^ 2 % 256 :: (row.length / 256 ^ 3 % 256 ::
          (row.map Value.toBytes).flatten))))).drop 4 =
        (row.map Value.toBytes).flatten ++ [] := by simp
    rw [rowGo_frame row [] 4 _ [] hwf hdrop]
    simp only [List.nil_append, rowToBytes, u32Le]
    congr 1
    simp [List.length_append]
    omega

/-- C7 witness: the round trip applied to the concrete row `row1`. -/
theorem C7_value_row_roundtrip_witness :
    (∀ v ∈ row1, Value.wf v) ∧ row1.length < 2 ^ 32 ∧
    rowFromBytes (rowToBytes row1) = .ok (rowToBytes row1).length row1 :=
  ⟨by decide, by decide,
   C7_value_row_roundtrip.2 row1 (by decide) (by decide)⟩

/-! #### Page codec round-trip lemmas -/

theorem packBits_length (bits : List Bool) :
    (packBits bits).length = (bits.length + 7) / 8 := by
  simp [packBits]

theorem byteBits_packByte : ∀ l : List Bool, l.length ≤ 8 →
    byteBits (packByte l) = l ++ List.replicate (8 - l.length) false := by
  intro l h
  match l with
  | [] => decide
  | [a] => revert a; decide
  | [a, b] => revert a b; decide
  | [a, b, c] => revert a b c; decide
  | [a, b, c, d] => revert a b c d; decide
  | [a, b, c, d, e] => revert a b c d e; decide
  | [a, b, c, d, e, f] => revert a b c d e f; decide
  | [a, b, c, d, e, f, g] => revert a b c d e f g; decide
  | [a, b, c, d, e, f, g, h8] => revert a b c d e f g h8; decide
  | a :: b :: c :: d :: e :: f :: g :: h8 :: i :: rest => simp at h

theorem packBits_cons (bits : List Bool) (h : bits ≠ []) :
    packBits bits = packByte (bits.take 8) :: packBits (bits.drop 8) := by
  have hlen : 1 ≤ bits.length := by
    cases bits with
    | nil => exact absurd rfl h
    | cons a t => simp
  have hcount : (bits.length + 7) / 8 = ((bits.drop 8).length + 7) / 8 + 1 := by
    simp only [List.length_drop]
    omega
  unfold packBits
  rw [hcount, List.range_succ_eq_map]
  simp only [List.map_cons, Nat.mul_zero, List.drop_zero, List.map_map]
  congr 1
  apply List.map_congr_left
  intro i _
  simp only [Function.comp_apply]
  have hdd : List.drop (8 * i.succ) bits = List.drop (8 * i) (List.drop 8 bits) := by
    rw [List.drop_drop]
    congr 1
    omega
  rw [hdd]

theorem unpack_pack : ∀ bits : List Bool,
    unpackBits bits.length (packBits bits) = bits := by
  intro bits
  by_cases hb : bits = []
  · subst hb; decide
  · rw [packBits_cons bits hb]
    unfold unpackBits
    simp only [List.map_cons, List.flatten_cons]
    rw [byteBits_packByte (bits.take 8) (by simp)]
    by_cases hlen : bits.length ≤ 8
    · have hdrop : bits.drop 8 = [] := by
        apply List.drop_eq_nil_of_le; omega
      have htake : bits.take 8 = bits := List.take_of_length_le (by omega)
      rw [hdrop, htake]
      simp [packBits, List.take_left]
    · have ih := unpack_pack (bits.drop 8)
      unfold unpackBits at ih
      have h8 : (bits.take 8).length = 8 := by simp; omega
      have hrep : (8 : Nat) - (bits.take 8).length = 0 := by omega
      rw [hrep]
      simp only [List.replicate_zero, List.append_nil]
      rw [List.take_append_eq_append_take]
      rw [List.take_of_length_le (by omega : (bits.take 8).length ≤ bits.length)]
      rw [h8]
      have hd : bits.length - 8 = (bits.drop 8).length := by simp
      rw [hd, ih, List.take_append_drop]
termination_by bits => bits.length
decreasing_by simp [List.length_drop]; omega

theorem i32ToBytes_length (v : Int) : (i32ToBytes v).length = 4 := by
  simp [i32ToBytes, u32Le]

theorem u32Le_length (n : Nat) : (u32Le n).length = 4 := by simp [u32Le]

theorem flat_i32_length (ks : List Int) :
    ((ks.map i32ToBytes).flatten).length = 4 * ks.length := by
  induction ks with
  | nil => simp
  | cons k ks ih => simp [ih, i32ToBytes_length]; omega

theorem flat_u32_length (cs : List Nat) :
    ((cs.map u32Le).flatten).length = 4 * cs.length := by
  induction cs with
  | nil => simp
  | cons c cs ih => simp [ih, u32Le_length]; omega

theorem drop_shift {α : Type} {bs seg tail : List α} {i n : Nat}
    (h : bs.drop i = seg ++ tail) (hn : seg.length = n) :
    bs.drop (i + n) = tail := by
  subst hn
  have hdd : bs.drop (i + seg.length) = (bs.drop i).drop seg.length := by
    rw [List.drop_drop]
  rw [hdd, h]
  exact List.drop_left seg tail

theorem sliceAt_of_drop {bs seg tail : List Nat} {i n : Nat}
    (h : bs.drop i = seg ++ tail) (hn : seg.length = n) :
    sliceAt bs i n = some seg := by
  unfold sliceAt
  rw [h, List.take_left' hn, if_pos hn]

theorem offOk_of_le (bs : List Nat) (i : Nat) (h : i ≤ bs.length) :
    offOk bs i = true := by
  cases i with
  | zero => rfl
  | succ j =>
    cases hbs : bs.drop j with
    | nil =>
      have := congrArg List.length hbs
      simp only [List.length_drop, List.length_nil] at this
      omega
    | cons a l => simp [offOk, hbs]

theorem pageKeysGo_spec :
    ∀ ks : List Int, (∀ k ∈ ks, -(2 ^ 31) ≤ k ∧ k < 2 ^ 31) →
    ∀ (acc : List Int) (i : Nat) (bs tail : List Nat),
    bs.drop i = (ks.map i32ToBytes).flatten ++ tail →
    pageKeysGo bs 4 ks.length i acc = .ok (i + 4 * ks.length) (acc ++ ks) := by
  intro ks
  induction ks with
  | nil => intro _ acc i bs tail _; simp [pageKeysGo]
  | cons k ks ih =>
    intro hwf acc i bs tail hdrop
    simp only [List.map_cons, List.flatten_cons, List.append_assoc] at hdrop
    have hk := hwf k (by simp)
    have hfb : i32FromBytes (i32ToBytes k) = .ok 4 k := by
      have := i32_frame k hk.1 hk.2 []
      simpa using this
    simp only [List.length_cons, pageKeysGo,
      sliceAt_of_drop hdrop (i32ToBytes_length k), hfb]
    have hdrop' : bs.drop (i + 4) = (ks.map i32ToBytes).flatten ++ tail :=
      drop_shift hdrop (i32ToBytes_length k)
    rw [ih (fun x hx => hwf x (by simp [hx])) (acc ++ [k]) (i + 4) bs tail hdrop']
    simp only [List.append_assoc, List.cons_append, List.nil_append]
    congr 1
    omega

theorem pageChildrenGo_spec :
    ∀ cs : List Nat, (∀ c ∈ cs, c < 2 ^ 32) →
    ∀ (acc : List Nat) (i : Nat) (bs tail : List Nat),
    bs.drop i = (cs.map u32Le).flatten ++ tail →
    pageChildrenGo bs cs.length i acc = some (i + 4 * cs.length, acc ++ cs) := by
  intro cs
  induction cs with
  | nil => intro _ acc i bs tail _; simp [pageChildrenGo]
  | cons c cs ih =>
    intro hwf acc i bs tail hdrop
    simp only [List.map_cons, List.flatten_cons, List.append_assoc] at hdrop
    have hslice : sliceAt bs i 4 = some (u32Le c) :=
      sliceAt_of_drop hdrop (u32Le_length c)
    simp only [u32Le] at hslice
    simp only [List.length_cons, pageChildrenGo, hslice]
    rw [leU32_u32Le c (hwf c (by simp))]
    have hdrop' : bs.drop (i + 4) = (cs.map u32Le).flatten ++ tail :=
      drop_shift hdrop (u32Le_length c)
    rw [ih (fun x hx => hwf x (by simp [hx])) (acc ++ [c]) (i + 4) bs tail hdrop']
    simp only [List.append_assoc, List.cons_append, List.nil_append]
    congr 2
    omega

theorem pageValsGo_spec :
    ∀ vs : List Int, (∀ v ∈ vs, -(2 ^ 31) ≤ v ∧ v < 2 ^ 31) →
    ∀ (acc : List Int) (i : Nat) (bs tail : List Nat),
    bs.drop i = (vs.map i32ToBytes).flatten ++ tail →
    pageValsGo bs vs.length i acc = .ok (i + 4 * vs.length) (acc ++ vs) := by
  intro vs
  induction vs with
  | nil => intro _ acc i bs tail _; simp [pageValsGo]
  | cons v vs ih =>
    intro hwf acc i bs tail hdrop
    simp only [List.map_cons, List.flatten_cons, List.append_assoc] at hdrop
    have hle : i ≤ bs.length := by
      have hlen : (bs.drop i).length = bs.length - i := List.length_drop i bs
      rw [hdrop] at hlen
      simp [List.length_append, i32ToBytes_length] at hlen
      omega
    have hv := hwf v (by simp)
    have hfb : i32FromBytes (bs.drop i) = .ok 4 v := by
      rw [hdrop]
      exact i32_frame v hv.1 hv.2 _
    simp only [List.length_cons, pageValsGo, offOk_of_le bs i hle, if_pos, hfb]
    have hdrop' : bs.drop (i + 4) = (vs.map i32ToBytes).flatten ++ tail :=
      drop_shift hdrop (i32ToBytes_length v)
    rw [ih (fun x hx => hwf x (by simp [hx])) (acc ++ [v]) (i + 4) bs tail hdrop']
    simp only [List.append_assoc, List.cons_append, List.nil_append]
    congr 1
    omega

theorem pageDecode_leaf (pid : Nat) (pdel : List Bool) (pkeys pvals : List Int)
    (psib : Option Nat) (rest : List Nat)
    (hid : pid < 2 ^ 32) (hkl : pkeys.length < 2 ^ 32)
    (hkr : ∀ k ∈ pkeys, -(2 ^ 31) ≤ k ∧ k < 2 ^ 31)
    (hvr : ∀ v ∈ pvals, -(2 ^ 31) ≤ v ∧ v < 2 ^ 31)
    (hdl : pdel.length = pvals.length) (hvl : pvals.length = pkeys.length)
    (hsib : ∀ sid, psib = some sid → sid < 2 ^ 32 - 1) :
    pageFromBytes (u32Le pid ++ ([0] ++ (u32Le 4 ++ (u32Le pkeys.length ++
        ((pkeys.map i32ToBytes).flatten ++ (u32Le (psib.getD (2 ^ 32 - 1)) ++
        (packBits pdel ++ ((pvals.map i32ToBytes).flatten ++ rest)))))))) =
      .ok (13 + 4 * pkeys.length + 4 + (pkeys.length + 7) / 8 +
          4 * pvals.length)
        ⟨pid, .leaf, pdel, pkeys, pvals, [], psib⟩ := by
  set sib := psib.getD (2 ^ 32 - 1) with hsibdef
  have hsr : sib < 2 ^ 32 := by
    cases psib with
    | none => simp [hsibdef]
    | some sid =>
      have := hsib sid rfl
      simp only [hsibdef, Option.getD_some]
      omega
  set bs := u32Le pid ++ ([0] ++ (u32Le 4 ++ (u32Le pkeys.length ++
      ((pkeys.map i32ToBytes).flatten ++ (u32Le sib ++
      (packBits pdel ++ ((pvals.map i32ToBytes).flatten ++ rest))))))) with hbs
  have d0 : bs.drop 0 = u32Le pid ++ ([0] ++ (u32Le 4 ++ (u32Le pkeys.length ++
      ((pkeys.map i32ToBytes).flatten ++ (u32Le sib ++
      (packBits pdel ++ ((pvals.map i32ToBytes).flatten ++ rest))))))) := by
    rw [List.drop_zero]
  have d4 : bs.drop 4 = _ := drop_shift d0 (u32Le_length pid)
  have d5 : bs.drop 5 = _ := drop_shift d4 (by simp : ([0] : List Nat).length = 1)
  have d9 : bs.drop 9 = _ := drop_shift d5 (u32Le_length 4)
  have d13 : bs.drop 13 = _ := drop_shift d9 (u32Le_length pkeys.length)
  have dsib : bs.drop (13 + 4 * pkeys.length) = _ :=
    drop_shift d13 (flat_i32_length pkeys)
  have ddel : bs.drop (13 + 4 * pkeys.length + 4) = _ :=
    drop_shift dsib (u32Le_length sib)
  have hdelLen : (packBits pdel).length = (pkeys.length + 7) / 8 := by
    rw [packBits_length, hdl, hvl]
  have dval : bs.drop (13 + 4 * pkeys.length + 4 + (pkeys.length + 7) / 8) = _ :=
    drop_shift ddel hdelLen
  have h0 : sliceAt bs 0 4 = some (u32Le pid) :=
    sliceAt_of_drop d0 (u32Le_length pid)
  have h4get : bs.get? 4 = some 0 := by
    have h := congrArg (fun l => l.get? 0) d4
    simpa [List.get?_drop] using h
  have h5 : sliceAt bs 5 4 = some (u32Le 4) :=
    sliceAt_of_drop d5 (u32Le_length 4)
  have h9 : sliceAt bs 9 4 = some (u32Le pkeys.length) :=
    sliceAt_of_drop d9 (u32Le_length pkeys.length)
  have hslSib : sliceAt bs (13 + 4 * pkeys.length) 4 = some (u32Le sib) :=
    sliceAt_of_drop dsib (u32Le_length sib)
  have hslDel : sliceAt bs (13 + 4 * pkeys.length + 4) ((pkeys.length + 7) / 8) =
      some (packBits pdel) := sliceAt_of_drop ddel hdelLen
  simp only [u32Le] at h0 h5 h9 hslSib
  norm_num at h5
  have hk4 : leU32 4 0 0 0 = 4 := by norm_num [leU32]
  have hunpack : unpackBits pkeys.length (packBits pdel) = pdel := by
    have h := unpack_pack pdel
    rwa [hdl, hvl] at h
  have hvals := pageValsGo_spec pvals hvr []
    (13 + 4 * pkeys.length + 4 + (pkeys.length + 7) / 8) bs rest dval
  rw [hvl] at hvals
  have hsibrec : (if sib = 2 ^ 32 - 1 then (none : Option Nat) else some sib) =
      psib := by
    cases psib with
    | none => simp [hsibdef]
    | some sid =>
      have hlt := hsib sid rfl
      simp only [hsibdef, Option.getD_some]
      rw [if_neg (by omega)]
  rw [pageFromBytes.eq_def]
  simp only [h0, h4get, h5, h9]
  rw [leU32_u32Le pid hid, leU32_u32Le pkeys.length hkl, hk4,
    if_neg (by norm_num : ¬ (0 : Nat) = 1)]
  simp only [pageKeysGo_spec pkeys hkr [] 13 bs _ d13, List.nil_append,
    hslSib, leU32_u32Le sib hsr, hslDel, hunpack, hvals, hsibrec]
  congr 1
  omega

theorem pageDecode_interior (pid : Nat) (pkeys : List Int) (pch : List Nat)
    (rest : List Nat)
    (hid : pid < 2 ^ 32) (hkl : pkeys.length < 2 ^ 32)
    (hkr : ∀ k ∈ pkeys, -(2 ^ 31) ≤ k ∧ k < 2 ^ 31)
    (hcr : ∀ c ∈ pch, c < 2 ^ 32)
    (hcl : pch.length = pkeys.length) :
    pageFromBytes (u32Le pid ++ ([1] ++ (u32Le 4 ++ (u32Le pkeys.length ++
        ((pkeys.map i32ToBytes).flatten ++ ((pch.map u32Le).flatten ++
          rest)))))) =
      .ok (13 + 4 * pkeys.length + 4 * pch.length)
        ⟨pid, .interior, [], pkeys, [], pch, none⟩ := by
  set bs := u32Le pid ++ ([1] ++ (u32Le 4 ++ (u32Le pkeys.length ++
      ((pkeys.map i32ToBytes).flatten ++ ((pch.map u32Le).flatten ++
        rest))))) with hbs
  have d0 : bs.drop 0 = u32Le pid ++ ([1] ++ (u32Le 4 ++ (u32Le pkeys.length ++
      ((pkeys.map i32ToBytes).flatten ++ ((pch.map u32Le).flatten ++
        rest))))) := by
    rw [List.drop_zero]
  have d4 : bs.drop 4 = _ := drop_shift d0 (u32Le_length pid)
  have d5 : bs.drop 5 = _ := drop_shift d4 (by simp : ([1] : List Nat).length = 1)
  have d9 : bs.drop 9 = _ := drop_shift d5 (u32Le_length 4)
  have d13 : bs.drop 13 = _ := drop_shift d9 (u32Le_length pkeys.length)
  have dch : bs.drop (13 + 4 * pkeys.length) = _ :=
    drop_shift d13 (flat_i32_length pkeys)
  have h0 : sliceAt bs 0 4 = some (u32Le pid) :=
    sliceAt_of_drop d0 (u32Le_length pid)
  have h4get : bs.get? 4 = some 1 := by
    have h := congrArg (fun l => l.get? 0) d4
    simpa [List.get?_drop] using h
  have h5 : sliceAt bs 5 4 = some (u32Le 4) :=
    sliceAt_of_drop d5 (u32Le_length 4)
  have h9 : sliceAt bs 9 4 = some (u32Le pkeys.length) :=
    sliceAt_of_drop d9 (u32Le_length pkeys.length)
  simp only [u32Le] at h0 h5 h9
  norm_num at h5
  have hk4 : leU32 4 0 0 0 = 4 := by norm_num [leU32]
  have hch := pageChildrenGo_spec pch hcr [] (13 + 4 * pkeys.length) bs rest dch
  rw [hcl] at hch
  rw [pageFromBytes.eq_def]
  simp only [h0, h4get, h5, h9]
  rw [leU32_u32Le pid hid, leU32_u32Le pkeys.length hkl, hk4]
  simp only [pageKeysGo_spec pkeys hkr [] 13 bs _ d13, List.nil_append, hch,
    if_true]
  congr 1
  omega

/-- C1 amended: the page round trip at the i32/i32 instantiation. For a
tree-built page that fits the 65,536-byte slot, from_bytes after to_bytes
succeeds and returns the written byte count together with a page equal in
every field, provided the page is a leaf or an interior page whose child
count equals its key count; the root-split interior form (keys + 1
children) instead loses its last child — see the counterexample. -/
theorem C1_page_roundtrip (p : Page Int Int) (hwf : p.wfSer)
    (hkind : p.ptype = .leaf ∨ p.children.length = p.keys.length)
    (w : List Nat) (hw : pageBytesWritten p = some w)
    (hfit : w.length ≤ PAGE_SIZE) :
    pageToBytes p = some (w ++ List.replicate (PAGE_SIZE - w.length) 0) ∧
    pageFromBytes (w ++ List.replicate (PAGE_SIZE - w.length) 0) =
      .ok w.length p := by
  constructor
  · unfold pageToBytes
    rw [hw]
    simp only [Option.bind_eq_bind, Option.some_bind]
    rw [if_pos hfit]
  · obtain ⟨pid, pt, pdel, pkeys, pvals, pch, psib⟩ := p
    obtain ⟨hid, hkl, hkr, hsort, hvr, hcr, hrest⟩ := hwf
    cases pt with
    | leaf =>
      obtain ⟨hdl, hvl, hch, hsib⟩ := hrest
      dsimp only at hid hkl hkr hvr hdl hvl hch hsib
      subst hch
      have hw' : w = u32Le pid ++ [0] ++ u32Le 4 ++ u32Le pkeys.length ++
          (pkeys.map i32ToBytes).flatten ++
          u32Le (psib.getD (2 ^ 32 - 1)) ++ packBits pdel ++
          (pvals.map i32ToBytes).flatten := by
        unfold pageBytesWritten at hw
        dsimp only [pageTypeByte] at hw
        rw [if_pos ⟨hdl, hvl⟩] at hw
        exact (Option.some.inj hw).symm
      have hwl : w.length = 13 + 4 * pkeys.length + 4 +
          (pkeys.length + 7) / 8 + 4 * pvals.length := by
        rw [hw']
        simp only [List.length_append, flat_i32_length, packBits_length,
          u32Le_length, List.length_cons, List.length_nil]
        omega
      have hlist : w ++ List.replicate (PAGE_SIZE - w.length) 0 =
          u32Le pid ++ ([0] ++ (u32Le 4 ++ (u32Le pkeys.length ++
            ((pkeys.map i32ToBytes).flatten ++
              (u32Le (psib.getD (2 ^ 32 - 1)) ++ (packBits pdel ++
                ((pvals.map i32ToBytes).flatten ++
                  List.replicate (PAGE_SIZE - w.length) 0))))))) := by
        rw [hw']
        simp [List.append_assoc]
      rw [hlist, hwl]
      exact pageDecode_leaf pid pdel pkeys pvals psib _ hid hkl hkr hvr hdl
        hvl hsib
    | interior =>
      obtain ⟨hv0, hd0, hs0⟩ := hrest
      dsimp only at hid hkl hkr hcr hv0 hd0 hs0
      subst hv0; subst hd0; subst hs0
      have hcl : pch.length = pkeys.length := by
        cases hkind with
        | inl h => exact absurd h (by simp)
        | inr h => exact h
      have hw' : w = u32Le pid ++ [1] ++ u32Le 4 ++ u32Le pkeys.length ++
          (pkeys.map i32ToBytes).flatten ++ (pch.map u32Le).flatten := by
        unfold pageBytesWritten at hw
        dsimp only [pageTypeByte] at hw
        exact (Option.some.inj hw).symm
      have hwl : w.length = 13 + 4 * pkeys.length + 4 * pch.length := by
        rw [hw']
        simp only [List.length_append, flat_i32_length, flat_u32_length,
          u32Le_length, List.length_cons, List.length_nil]
      have hlist : w ++ List.replicate (PAGE_SIZE - w.length) 0 =
          u32Le pid ++ ([1] ++ (u32Le 4 ++ (u32Le pkeys.length ++
            ((pkeys.map i32ToBytes).flatten ++ ((pch.map u32Le).flatten ++
              List.replicate (PAGE_SIZE - w.length) 0))))) := by
        rw [hw']
        simp [List.append_assoc]
      rw [hlist, hwl]
      exact pageDecode_interior pid pkeys pch _ hid hkl hkr hcr hcl

/-- C1 witness: the amended round trip applied to the spec's S7 leaf page
(66 written bytes). -/
theorem C1_page_roundtrip_witness :
    pageBytesWritten s7page = some s7bytes ∧ s7bytes.length ≤ PAGE_SIZE ∧
    pageFromBytes (s7bytes ++ List.replicate (PAGE_SIZE - s7bytes.length) 0) =
      .ok s7bytes.length s7page :=
  ⟨by decide, by decide,
   (C1_page_roundtrip s7page (by decide) (Or.inl rfl) s7bytes (by decide)
     (by decide)).2⟩

/-- C1 counterexample: page 2 of `splitTrace` is the interior root built
by split_root, with one key and two children. to_bytes writes both
children but from_bytes reads only `keys_len = 1` of them, so the decoded
page loses the last child (and 21 of the 25 written bytes are consumed):
the round trip is not the identity on tree-built interior pages. -/
theorem C1_interior_children_dropped :
    readPage splitTrace.pages 2 =
      some ⟨2, .interior, [], [6], [], [0, 1], none⟩ ∧
    (pageToBytes (⟨2, .interior, [], [6], [], [0, 1], none⟩ : Page Int Int)).map
        pageFromBytes =
      some (.ok 21 ⟨2, .interior, [], [6], [], [0], none⟩) := by decide

/-! #### Structural tree invariant (C10): basic facts -/

theorem sorted_get?_le [LinearOrder K] {l : List K} (hs : l.Sorted (· ≤ ·))
    {i j : Nat} {x y : K} (hij : i ≤ j) (hx : l.get? i = some x)
    (hy : l.get? j = some y) : x ≤ y := by
  obtain ⟨hi, hgi⟩ := List.get?_eq_some.1 hx
  obtain ⟨hj, hgj⟩ := List.get?_eq_some.1 hy
  rcases Nat.lt_or_ge i j with hlt | hge
  · have := List.pairwise_iff_get.1 hs ⟨i, hi⟩ ⟨j, hj⟩ (Fin.mk_lt_mk.2 hlt)
    rw [hgi, hgj] at this
    exact this
  · have hij' : i = j := Nat.le_antisymm hij hge
    subst hij'
    rw [hx] at hy
    injection hy with h
    exact le_of_eq h

theorem findGo_le [LinearOrder K] (key : K) (l : List K) :
    pageFindGo key l ≤ l.length := by
  induction l with
  | nil => simp [pageFindGo]
  | cons k rest ih =>
    simp only [pageFindGo, List.length_cons]
    split <;> omega

theorem findGo_lt [LinearOrder K] (key : K) (l : List K) :
    ∀ i x, i < pageFindGo key l → l.get? i = some x → x < key := by
  induction l with
  | nil => intro i x h _; simp [pageFindGo] at h
  | cons k rest ih =>
    intro i x h hx
    simp only [pageFindGo] at h
    by_cases hk : k < key
    · rw [if_pos hk] at h
      cases i with
      | zero =>
        rw [List.get?_cons_zero] at hx
        injection hx with hx
        subst hx
        exact hk
      | succ i =>
        rw [List.get?_cons_succ] at hx
        exact ih i x (by omega) hx
    · rw [if_neg hk] at h
      omega

theorem findGo_stop [LinearOrder K] (key : K) (l : List K) :
    ∀ x, l.get? (pageFindGo key l) = some x → ¬ x < key := by
  induction l with
  | nil => intro x hx; simp at hx
  | cons k rest ih =>
    intro x hx
    simp only [pageFindGo] at hx
    by_cases hk : k < key
    · rw [if_pos hk, List.get?_cons_succ] at hx
      exact ih x hx
    · rw [if_neg hk, List.get?_cons_zero] at hx
      injection hx with hx
      subst hx
      exact hk

theorem findGo_eq [LinearOrder K] (key : K) (l : List K) :
    ∀ (j : Nat), j ≤ l.length →
    (∀ i x, i < j → l.get? i = some x → x < key) →
    (∀ x, l.get? j = some x → ¬ x < key) →
    pageFindGo key l = j := by
  induction l with
  | nil =>
    intro j hj _ _
    simp only [List.length_nil, Nat.le_zero] at hj
    simp [pageFindGo, hj]
  | cons k rest ih =>
    intro j hj hlt hstop
    cases j with
    | zero =>
      have := hstop k (by simp)
      simp [pageFindGo, if_neg this]
    | succ j =>
      have hk : k < key := hlt 0 k (by omega) (by simp)
      simp only [pageFindGo, if_pos hk]
      have := ih j (by simpa using hj)
        (fun i x hi hx => hlt (i + 1) x (by omega) (by simpa using hx))
        (fun x hx => hstop x (by simpa using hx))
      omega

theorem readPage_writePage_ne {ps : List (Page K V)} {pg : Page K V}
    {i : Nat} (h : pg.id ≠ i) :
    readPage (writePage ps pg) i = readPage ps i := by
  induction ps with
  | nil =>
    show List.find? _ [pg] = List.find? _ []
    rw [List.find?_cons_of_neg _ (by simpa using h), List.find?_nil]
  | cons p rest ih =>
    simp only [writePage]
    split
    · show List.find? _ (pg :: p :: rest) = _
      rw [List.find?_cons_of_neg _ (by simpa using h)]
      rfl
    · split
      · rename_i hpe
        show List.find? _ (pg :: rest) = List.find? _ (p :: rest)
        rw [List.find?_cons_of_neg _ (by simpa using h),
          List.find?_cons_of_neg _ (by simp; omega)]
      · show List.find? _ (p :: writePage rest pg) = List.find? _ (p :: rest)
        by_cases hp : p.id = i
        · rw [List.find?_cons_of_pos _ (by simpa using hp),
            List.find?_cons_of_pos _ (by simpa using hp)]
        · rw [List.find?_cons_of_neg _ (by simpa using hp),
            List.find?_cons_of_neg _ (by simpa using hp)]
          exact ih

theorem readPage_writePage_self {ps : List (Page K V)} {pg : Page K V}
    (hs : IdsSorted ps) : readPage (writePage ps pg) pg.id = some pg := by
  induction ps with
  | nil =>
    show List.find? _ [pg] = some pg
    rw [List.find?_cons_of_pos _ (by simp)]
  | cons p rest ih =>
    rw [IdsSorted, List.pairwise_cons] at hs
    obtain ⟨hp, hrest⟩ := hs
    simp only [writePage]
    split
    · show List.find? _ (pg :: p :: rest) = some pg
      rw [List.find?_cons_of_pos _ (by simp)]
    · split
      · show List.find? _ (pg :: rest) = some pg
        rw [List.find?_cons_of_pos _ (by simp)]
      · rename_i h1 h2
        show List.find? _ (p :: writePage rest pg) = some pg
        rw [List.find?_cons_of_neg _ (by simp; omega)]
        exact ih hrest

theorem goodSub_monoN [LinearOrder K] {ps : List (Page K V)} {N N' b : Nat}
    (hN : N ≤ N') : ∀ {d id lo hi l}, GoodSub ps N b d id lo hi l →
    GoodSub ps N' b d id lo hi l := by
  intro d id lo hi l hgs
  induction hgs with
  | leaf id lo hi p hid hrd hty hsort hbnd hrun =>
    exact GoodSub.leaf id lo hi p (by omega) hrd hty hsort hbnd hrun
  | node d id lo hi p idss hid hrd hty hne hsort hbnd hrun hlen hch hform
      ih =>
    exact GoodSub.node d id lo hi p idss (by omega) hrd hty hne hsort hbnd
      hrun hlen (fun i c l' hc hl => ih i c l' hc hl) hform

theorem goodSub_ids_lt [LinearOrder K] {ps : List (Page K V)} {N b : Nat} :
    ∀ {d id lo hi l}, GoodSub ps N b d id lo hi l → ∀ x ∈ l, x < N := by
  intro d id lo hi l hgs
  induction hgs with
  | leaf id lo hi p hid _ _ _ _ _ =>
    intro x hx
    simp only [List.mem_singleton] at hx
    omega
  | node d id lo hi p idss hid _ _ _ _ _ _ hlen hch hform ih =>
    intro x hx
    simp only [List.mem_cons] at hx
    rcases hx with rfl | hx
    · exact hid
    · rw [List.mem_flatten] at hx
      obtain ⟨l', hl', hxl⟩ := hx
      obtain ⟨i, hgi⟩ := List.mem_iff_get?.1 hl'
      have hii : i < idss.length := (List.get?_eq_some.1 hgi).1
      have hic : i < p.children.length := by omega
      exact ih i (p.children.get ⟨i, hic⟩) l' (List.get?_eq_get hic) hgi x
        hxl

theorem goodSub_root_mem [LinearOrder K] {ps : List (Page K V)}
    {N b d id : Nat} {lo hi : Option K} {l : List Nat}
    (h : GoodSub ps N b d id lo hi l) : id ∈ l := by
  cases h with
  | leaf => simp
  | node => simp

theorem goodSub_keep [LinearOrder K] {ps ps' : List (Page K V)}
    {N b : Nat} : ∀ {d id lo hi l}, GoodSub ps N b d id lo hi l →
    (∀ i ∈ l, ∀ (p : Page K V), readPage ps i = some p →
      ∃ q, readPage ps' i = some q ∧ q.ptype = p.ptype ∧ q.keys = p.keys ∧
        q.children = p.children) →
    GoodSub ps' N b d id lo hi l := by
  intro d id lo hi l hgs
  induction hgs with
  | leaf id lo hi p hid hrd hty hsort hbnd hrun =>
    intro hag
    obtain ⟨q, hq, hqt, hqk, hqc⟩ := hag id (by simp) p hrd
    refine GoodSub.leaf id lo hi q hid hq (by rw [hqt, hty]) ?_ ?_ ?_
    · rw [hqk]; exact hsort
    · rw [hqk]; exact hbnd
    · rw [hqk]; exact hrun
  | node d id lo hi p idss hid hrd hty hne hsort hbnd hrun hlen hch hform
      ih =>
    intro hag
    obtain ⟨q, hq, hqt, hqk, hqc⟩ := hag id (by simp) p hrd
    refine GoodSub.node d id lo hi q idss hid hq (by rw [hqt, hty])
      (by rw [hqk]; exact hne) (by rw [hqk]; exact hsort)
      (by rw [hqk]; exact hbnd) (by rw [hqk]; exact hrun)
      (by rw [hqc]; exact hlen) ?_ ?_
    · intro i c l' hc hl
      have hgoal := ih i c l' (by rw [hqc] at hc; exact hc) hl ?_
      · simp only [slotLo, slotHi, hqk]
        exact hgoal
      · intro x hx pp hpp
        refine hag x ?_ pp hpp
        simp only [List.mem_cons]
        right
        rw [List.mem_flatten]
        exact ⟨l', List.get?_mem hl, hx⟩
    · rw [hqc, hqk]
      exact hform

theorem bsearchGo_ok [LinearOrder K] (xs : List K) (key : K) :
    ∀ (fuel left right i : Nat), right ≤ xs.length →
    bsearchGo xs key fuel left right = .inl i → xs.get? i = some key := by
  intro fuel
  induction fuel with
  | zero => intro left right i _ h; simp [bsearchGo] at h
  | succ fuel ih =>
    intro left right i hr h
    simp only [bsearchGo] at h
    by_cases hlr : left < right
    · rw [if_pos hlr] at h
      have hmlt : left + (right - left) / 2 < xs.length := by omega
      have hget : xs.getD (left + (right - left) / 2) key =
          xs.get ⟨left + (right - left) / 2, hmlt⟩ := by
        rw [List.getD_eq_get?, List.get?_eq_get hmlt]
        rfl
      by_cases h1 : xs.getD (left + (right - left) / 2) key < key
      · rw [if_pos h1] at h
        exact ih _ _ i hr h
      · rw [if_neg h1] at h
        by_cases h2 : key < xs.getD (left + (right - left) / 2) key
        · rw [if_pos h2] at h
          exact ih _ _ i (by omega) h
        · rw [if_neg h2] at h
          injection h with h
          have heq : xs.getD (left + (right - left) / 2) key = key :=
            le_antisymm (not_lt.1 h2) (not_lt.1 h1)
          rw [← h, List.get?_eq_get hmlt, ← hget, heq]
    · rw [if_neg hlr] at h
      simp at h

theorem bsearchGo_err [LinearOrder K] {xs : List K}
    (hs : xs.Sorted (· ≤ ·)) (key : K) :
    ∀ (fuel left right i : Nat), right ≤ xs.length → left ≤ right →
    right - left < fuel →
    (∀ j x, j < left → xs.get? j = some x → x ≤ key) →
    (∀ j x, right ≤ j → xs.get? j = some x → key ≤ x) →
    bsearchGo xs key fuel left right = .inr i →
    i ≤ xs.length ∧
    (∀ j x, j < i → xs.get? j = some x → x ≤ key) ∧
    (∀ j x, i ≤ j → xs.get? j = some x → key ≤ x) := by
  intro fuel
  induction fuel with
  | zero => intro left right i _ _ hf _ _ _; omega
  | succ fuel ih =>
    intro left right i hr hlr hf hbef haft h
    simp only [bsearchGo] at h
    by_cases hcond : left < right
    · rw [if_pos hcond] at h
      have hmlt : left + (right - left) / 2 < xs.length := by omega
      have hxm : xs.get? (left + (right - left) / 2) =
          some (xs.get ⟨left + (right - left) / 2, hmlt⟩) :=
        List.get?_eq_get hmlt
      have hget : xs.getD (left + (right - left) / 2) key =
          xs.get ⟨left + (right - left) / 2, hmlt⟩ := by
        rw [List.getD_eq_get?, hxm]
        rfl
      by_cases h1 : xs.getD (left + (right - left) / 2) key < key
      · rw [if_pos h1] at h
        refine ih _ _ i hr (by omega) (by omega) ?_ haft h
        intro j x hj hx
        have hle := sorted_get?_le hs
          (show j ≤ left + (right - left) / 2 by omega) hx hxm
        rw [← hget] at hle
        exact le_of_lt (lt_of_le_of_lt hle h1)
      · rw [if_neg h1] at h
        by_cases h2 : key < xs.getD (left + (right - left) / 2) key
        · rw [if_pos h2] at h
          refine ih _ _ i (by omega) (by omega) (by omega) hbef ?_ h
          intro j x hj hx
          have hle := sorted_get?_le hs
            (show left + (right - left) / 2 ≤ j by omega) hxm hx
          rw [← hget] at hle
          exact le_of_lt (lt_of_lt_of_le h2 hle)
        · rw [if_neg h2] at h
          simp at h
    · rw [if_neg hcond] at h
      injection h with h
      subst h
      refine ⟨by omega, hbef, fun j x hj hx => haft j x (by omega) hx⟩

theorem rustBS_ok [LinearOrder K] {xs : List K} {key : K} {i : Nat}
    (h : rustBS xs key = .inl i) : xs.get? i = some key :=
  bsearchGo_ok xs key (xs.length + 1) 0 xs.length i (Nat.le_refl _) h

theorem rustBS_err [LinearOrder K] {xs : List K} (hs : xs.Sorted (· ≤ ·))
    {key : K} {i : Nat} (h : rustBS xs key = .inr i) :
    i ≤ xs.length ∧
    (∀ j x, j < i → xs.get? j = some x → x ≤ key) ∧
    (∀ j x, i ≤ j → xs.get? j = some x → key ≤ x) :=
  bsearchGo_err hs key (xs.length + 1) 0 xs.length i (Nat.le_refl _)
    (by omega) (by omega) (fun j x hj _ => absurd hj (by omega))
    (fun j x hj hx => absurd (List.get?_eq_some.1 hx).1 (by omega)) h

theorem mem_take_get? {l : List α} {n : Nat} {x : α} (h : x ∈ l.take n) :
    ∃ j, j < n ∧ l.get? j = some x := by
  obtain ⟨j, hj⟩ := List.mem_iff_get?.1 h
  have hjl : j < (l.take n).length := (List.get?_eq_some.1 hj).1
  rw [List.length_take] at hjl
  have hjn : j < n := lt_of_lt_of_le hjl (min_le_left _ _)
  rw [List.get?_take hjn] at hj
  exact ⟨j, hjn, hj⟩

theorem mem_drop_get? {l : List α} {n : Nat} {x : α} (h : x ∈ l.drop n) :
    ∃ j, n ≤ j ∧ l.get? j = some x := by
  obtain ⟨j, hj⟩ := List.mem_iff_get?.1 h
  rw [List.get?_drop] at hj
  exact ⟨n + j, by omega, hj⟩

theorem sorted_insert_at [LinearOrder K] {l : List K}
    (hs : l.Sorted (· ≤ ·)) {i : Nat} {k : K}
    (hbef : ∀ j x, j < i → l.get? j = some x → x ≤ k)
    (haft : ∀ j x, i ≤ j → l.get? j = some x → k ≤ x) :
    (l.take i ++ k :: l.drop i).Sorted (· ≤ ·) := by
  rw [List.Sorted, List.pairwise_append]
  refine ⟨hs.sublist (List.take_sublist i l), ?_, ?_⟩
  · rw [List.pairwise_cons]
    refine ⟨fun x hx => ?_, hs.sublist (List.drop_sublist i l)⟩
    obtain ⟨j, hj, hget⟩ := mem_drop_get? hx
    exact haft j x hj hget
  · intro a ha b hb
    obtain ⟨j, hj, hget⟩ := mem_take_get? ha
    have hak : a ≤ k := hbef j a hj hget
    rcases List.mem_cons.1 hb with rfl | hb
    · exact hak
    · obtain ⟨j', hj', hget'⟩ := mem_drop_get? hb
      exact le_trans hak (haft j' b hj' hget')

theorem keyRun_cons [DecidableEq K] (u y : K) (rest : List K) :
    keyRun u (y :: rest) = if y = u then keyRun u rest + 1 else 0 := by
  simp only [keyRun, List.takeWhile_cons]
  by_cases hy : y = u
  · rw [if_pos (by simpa using hy), if_pos hy]
    simp
  · rw [if_neg (by simpa using hy), if_neg hy]
    rfl

theorem keyRun_lt [DecidableEq K] (u : K) (l : List K) :
    ∀ j, j < keyRun u l → l.get? j = some u := by
  induction l with
  | nil => intro j h; simp [keyRun] at h
  | cons x rest ih =>
    intro j h
    rw [keyRun_cons] at h
    by_cases hx : x = u
    · rw [if_pos hx] at h
      cases j with
      | zero => simp [hx]
      | succ j =>
        rw [List.get?_cons_succ]
        exact ih j (by omega)
    · rw [if_neg hx] at h
      omega

theorem keyRun_stop [DecidableEq K] (u : K) (l : List K) :
    ∀ x, l.get? (keyRun u l) = some x → x ≠ u := by
  induction l with
  | nil => intro x h; simp at h
  | cons y rest ih =>
    intro x h
    rw [keyRun_cons] at h
    by_cases hy : y = u
    · rw [if_pos hy, List.get?_cons_succ] at h
      exact ih x h
    · rw [if_neg hy, List.get?_cons_zero] at h
      injection h with h
      subst h
      exact hy

theorem keyRun_le_length [DecidableEq K] (u : K) (l : List K) :
    keyRun u l ≤ l.length := by
  unfold keyRun
  exact List.Sublist.length_le (List.takeWhile_sublist _)

theorem keyRun_eq [DecidableEq K] (u : K) (l : List K) :
    ∀ (m : Nat), m ≤ l.length → (∀ j, j < m → l.get? j = some u) →
    (∀ x, l.get? m = some x → x ≠ u) → keyRun u l = m := by
  induction l with
  | nil =>
    intro m hm _ _
    simp only [List.length_nil, Nat.le_zero] at hm
    simp [keyRun, hm]
  | cons y rest ih =>
    intro m hm h1 h2
    cases m with
    | zero =>
      have := h2 y (by simp)
      rw [keyRun_cons, if_neg this]
    | succ m =>
      have hy : y = u := by
        have h0 := h1 0 (by omega)
        rw [List.get?_cons_zero] at h0
        exact Option.some.inj h0
      rw [keyRun_cons, if_pos hy]
      have := ih m (by simpa using hm)
        (fun j hj => by
          have := h1 (j + 1) (by omega)
          rwa [List.get?_cons_succ] at this)
        (fun x hx => h2 x (by rwa [List.get?_cons_succ]))
      omega

theorem keyRun_insert [LinearOrder K] {l : List K} {i : Nat} {k u : K}
    (hne : k ≠ u) (hil : i ≤ l.length)
    (haft : ∀ j x, i ≤ j → l.get? j = some x → k ≤ x) (hku : u < k) :
    keyRun u (l.take i ++ k :: l.drop i) = keyRun u l := by
  have hrle : keyRun u l ≤ i := by
    by_contra hc
    push_neg at hc
    have hget := keyRun_lt u l i hc
    have := haft i u (Nat.le_refl i) hget
    exact absurd this (not_le.2 hku)
  have hrlen := keyRun_le_length u l
  have hlt : (l.take i).length = i := by
    rw [List.length_take]
    omega
  refine keyRun_eq u _ (keyRun u l) (by simp; omega) ?_ ?_
  · intro j hj
    rw [List.get?_append (by omega), List.get?_take (by omega)]
    exact keyRun_lt u l j hj
  · intro x hx
    rcases Nat.lt_or_ge (keyRun u l) i with hri | hri
    · rw [List.get?_append (by omega), List.get?_take (by omega)] at hx
      exact keyRun_stop u l x hx
    · have hri' : keyRun u l = i := by omega
      rw [hri'] at hx
      rw [List.get?_append_right (by omega), hlt, Nat.sub_self,
        List.get?_cons_zero] at hx
      injection hx with hx
      subst hx
      exact hne

theorem keyRun_eraseIdx_le [LinearOrder K] {l : List K}
    (hs : l.Sorted (· ≤ ·)) {u : K} (hlo : ∀ x ∈ l, u ≤ x) :
    ∀ i, keyRun u (l.eraseIdx i) ≤ keyRun u l := by
  induction l with
  | nil => intro i; simp [List.eraseIdx]
  | cons y rest ih =>
    intro i
    rw [List.Sorted, List.pairwise_cons] at hs
    obtain ⟨hy, hrest⟩ := hs
    cases i with
    | zero =>
      simp only [List.eraseIdx]
      by_cases hyu : y = u
      · rw [keyRun_cons, if_pos hyu]
        have := keyRun_le_length u rest
        omega
      · have hyu' : u < y :=
          lt_of_le_of_ne (hlo y (by simp)) (fun h => hyu h.symm)
        have hz : keyRun u rest = 0 := by
          cases rest with
          | nil => simp [keyRun]
          | cons z zs =>
            have hz' : z ≠ u := by
              have := hy z (by simp)
              intro hc
              subst hc
              exact absurd this (not_le.2 hyu')
            rw [keyRun_cons, if_neg hz']
        rw [hz, keyRun_cons, if_neg hyu]
    | succ i =>
      simp only [List.eraseIdx]
      rw [keyRun_cons, keyRun_cons]
      by_cases hyu : y = u
      · rw [if_pos hyu, if_pos hyu]
        have := ih hrest (fun x hx => hlo x (by simp [hx])) i
        omega
      · rw [if_neg hyu, if_neg hyu]

theorem keyRun_take_le [DecidableEq K] (u : K) (l : List K) (n : Nat) :
    keyRun u (l.take n) ≤ keyRun u l := by
  induction l generalizing n with
  | nil => simp [keyRun]
  | cons y rest ih =>
    cases n with
    | zero => simp [keyRun]
    | succ n =>
      simp only [List.take]
      rw [keyRun_cons, keyRun_cons]
      by_cases hy : y = u
      · rw [if_pos hy, if_pos hy]
        have := ih n
        omega
      · rw [if_neg hy, if_neg hy]

theorem goodSub_step [LinearOrder K] {ps : List (Page K V)}
    {N b d id : Nat} {lo hi : Option K} {l : List Nat} {k : K}
    (hgs : GoodSub ps N b (d + 1) id lo hi l) (hlo : stLo lo k)
    (hhi : okHi hi k) :
    ∃ (p : Page K V) (idss : List (List Nat)),
      readPage ps id = some p ∧ p.ptype = .interior ∧
      l = id :: idss.flatten ∧ idss.length = p.children.length ∧
      p.find k < p.children.length ∧
      ∃ c lc, p.children.get? (p.find k) = some c ∧
        idss.get? (p.find k) = some lc ∧
        GoodSub ps N b d c (slotLo p lo (p.find k))
          (slotHi p hi (p.find k)) lc ∧
        stLo (slotLo p lo (p.find k)) k ∧
        okHi (slotHi p hi (p.find k)) k := by
  cases hgs with
  | node d id lo hi p idss hid hrd hty hne hsort hbnd hrun hlen hch hform =>
    have hfd : p.find k = pageFindGo k p.keys := rfl
    have hfle := findGo_le k p.keys
    have hkne : p.keys.length ≠ 0 :=
      fun h => hne (List.eq_nil_of_length_eq_zero h)
    have hm : p.find k < p.children.length := by
      rcases hform with hp1 | ⟨hpd, u, hu, hlast⟩
      · rw [hfd]
        omega
      · have hku : k ≤ u := hhi u hu
        have hlast' : p.keys.get? (p.keys.length - 1) = some u := by
          rw [← List.getLast?_eq_get?]
          exact hlast
        by_contra hc
        push_neg at hc
        rw [hfd] at hc
        have hl1 : p.keys.length - 1 < pageFindGo k p.keys := by omega
        have := findGo_lt k p.keys (p.keys.length - 1) u hl1 hlast'
        exact absurd this (not_lt.2 hku)
    have hc : p.children.get? (p.find k) =
        some (p.children.get ⟨p.find k, hm⟩) := List.get?_eq_get hm
    have hmi : p.find k < idss.length := by omega
    have hlc : idss.get? (p.find k) = some (idss.get ⟨p.find k, hmi⟩) :=
      List.get?_eq_get hmi
    refine ⟨p, idss, hrd, hty, rfl, hlen, hm, _, _, hc, hlc,
      hch _ _ _ hc hlc, ?_, ?_⟩
    · unfold slotLo
      by_cases h0 : p.find k = 0
      · rw [if_pos h0]
        exact hlo
      · rw [if_neg h0]
        intro u hu
        refine findGo_lt k p.keys (p.find k - 1) u ?_ hu
        rw [hfd] at h0 ⊢
        omega
    · rcases hgm : p.keys.get? (p.find k) with _ | km
      · simp only [slotHi, hgm]
        exact hhi
      · simp only [slotHi, hgm]
        intro u hu
        injection hu with hu
        subst hu
        rw [hfd] at hgm
        exact not_lt.1 (findGo_stop k p.keys km hgm)

theorem pathUpF_snoc [LinearOrder K] {ps : List (Page K V)} :
    ∀ (vis : List Nat) (target dt : Nat) (lo hi : Option K) (c d : Nat)
      (clo chi : Option K),
    PathUpF ps vis target dt lo hi c d clo chi →
    ∀ (par : Nat) (q : Page K V) (j : Nat) (plo phi : Option K),
    readPage ps par = some q → q.ptype = .interior →
    q.children.get? j = some c → clo = slotLo q plo j →
    chi = slotHi q phi j →
    PathUpF ps (vis ++ [par]) target dt lo hi par (d + 1) plo phi := by
  intro vis
  induction vis with
  | nil =>
    intro target dt lo hi c d clo chi hp par q j plo phi hrd hty hcj hlo hhi
    obtain ⟨h1, h2, h3, h4⟩ := hp
    subst h1; subst h2; subst h3; subst h4
    exact ⟨q, j, plo, phi, ⟨rfl, rfl, rfl, rfl⟩, hrd, hty, hcj, hlo, hhi⟩
  | cons x rest ih =>
    intro target dt lo hi c d clo chi hp par q j plo phi hrd hty hcj hlo hhi
    obtain ⟨q', j', plo', phi', hrest, hrd', hty', hcj', hlo', hhi'⟩ := hp
    exact ⟨q', j', plo', phi',
      ih x (dt + 1) plo' phi' c d clo chi hrest par q j plo phi hrd
        hty hcj hlo hhi, hrd', hty', hcj', hlo', hhi'⟩

theorem descendGood [LinearOrder K] {ps : List (Page K V)} {N b : Nat}
    (k : K) :
    ∀ (d id : Nat) (lo hi : Option K) (l : List Nat) (vis0 : List Nat),
    GoodSub ps N b d id lo hi l → stLo lo k → okHi hi k →
    ∃ (pushed : List Nat) (lid : Nat) (leaf : Page K V)
      (llo lhi : Option K),
      insDescend ps k d id vis0 = some (pushed ++ vis0, lid) ∧
      findLeafGo ps k d id = some lid ∧
      PathUpF ps pushed lid 0 llo lhi id d lo hi ∧
      readPage ps lid = some leaf ∧ leaf.ptype = .leaf ∧
      stLo llo k ∧ okHi lhi k := by
  intro d
  induction d with
  | zero =>
    intro id lo hi l vis0 hgs hlo hhi
    cases hgs with
    | leaf id lo hi p hid hrd hty hsort hbnd hrun =>
      exact ⟨[], id, p, lo, hi, by simp [insDescend], by simp [findLeafGo],
        ⟨rfl, rfl, rfl, rfl⟩, hrd, hty, hlo, hhi⟩
  | succ d ih =>
    intro id lo hi l vis0 hgs hlo hhi
    obtain ⟨p, idss, hrd, hty, hl, hlen, hm, c, lc, hc, hlc, hgc, hclo,
      hchi⟩ := goodSub_step hgs hlo hhi
    obtain ⟨pushed, lid, leaf, llo, lhi, hins, hfl, hpath, hlrd, hlty,
      hslo, hshi⟩ := ih c (slotLo p lo (p.find k)) (slotHi p hi (p.find k))
      lc (id :: vis0) hgc hclo hchi
    refine ⟨pushed ++ [id], lid, leaf, llo, lhi, ?_, ?_, ?_, hlrd, hlty,
      hslo, hshi⟩
    · have hds : descendStep ps k id = some c := by
        simp only [descendStep, hrd, Option.some_bind]
        exact hc
      show (descendStep ps k id).bind
          (fun x => insDescend ps k d x (id :: vis0)) =
        some (pushed ++ [id] ++ vis0, lid)
      rw [hds, Option.some_bind, hins]
      simp
    · have hds : descendStep ps k id = some c := by
        simp only [descendStep, hrd, Option.some_bind]
        exact hc
      show (descendStep ps k id).bind (fun x => findLeafGo ps k d x) =
        some lid
      rw [hds, Option.some_bind]
      exact hfl
    · exact pathUpF_snoc pushed lid 0 llo lhi c d _ _ hpath id p (p.find k)
        lo hi hrd hty hc rfl rfl

theorem flatten_comp_nodup {ls : List (List Nat)}
    (h : ls.flatten.Nodup) : ∀ l ∈ ls, l.Nodup := by
  induction ls with
  | nil => intro l hl; cases hl
  | cons a t ih =>
    intro l hl
    rw [List.flatten_cons] at h
    rcases List.mem_cons.1 hl with rfl | hl
    · exact ((List.sublist_append_left l t.flatten).nodup h)
    · exact ih ((List.sublist_append_right a t.flatten).nodup h) l hl

theorem flatten_comp_disj :
    ∀ (ls : List (List Nat)) (i j : Nat) (li lj : List Nat),
    ls.flatten.Nodup → i < j → ls.get? i = some li →
    ls.get? j = some lj → ∀ x ∈ li, x ∉ lj := by
  intro ls
  induction ls with
  | nil => intro i j li lj _ _ hi _ x hx; simp at hi
  | cons a t ih =>
    intro i j li lj h hij hi hj x hx hxj
    rw [List.flatten_cons] at h
    cases i with
    | zero =>
      rw [List.get?_cons_zero] at hi
      cases j with
      | zero => omega
      | succ j =>
        rw [List.get?_cons_succ] at hj
        have hli : li = a := Option.some.inj hi.symm
        subst hli
        have hmem : x ∈ t.flatten :=
          List.mem_flatten.2 ⟨lj, List.get?_mem hj, hxj⟩
        exact (List.disjoint_of_nodup_append h) hx hmem
    | succ i =>
      cases j with
      | zero => omega
      | succ j =>
        rw [List.get?_cons_succ] at hi hj
        exact ih i j li lj ((List.sublist_append_right a t.flatten).nodup h)
          (by omega) hi hj x hx hxj

theorem mem_flatten_set {idss : List (List Nat)} {j : Nat}
    {lnew : List Nat} {x : Nat} (h : x ∈ (idss.set j lnew).flatten) :
    x ∈ idss.flatten ∨ x ∈ lnew := by
  obtain ⟨l, hl, hx⟩ := List.mem_flatten.1 h
  rcases List.mem_or_eq_of_mem_set hl with hl | rfl
  · exact Or.inl (List.mem_flatten.2 ⟨l, hl, hx⟩)
  · exact Or.inr hx

theorem flatten_set_nodup :
    ∀ (idss : List (List Nat)) (j : Nat) (lj lnew : List Nat),
    idss.flatten.Nodup → idss.get? j = some lj → lnew.Nodup →
    (∀ x ∈ lnew, x ∈ idss.flatten → x ∈ lj) →
    (idss.set j lnew).flatten.Nodup := by
  intro idss
  induction idss with
  | nil => intro j lj lnew _ hj _ _; simp at hj
  | cons a t ih =>
    intro j lj lnew hnd hj hln hsub
    rw [List.flatten_cons] at hnd
    rw [List.nodup_append] at hnd
    obtain ⟨hand, htnd, hdisj⟩ := hnd
    cases j with
    | zero =>
      rw [List.get?_cons_zero] at hj
      have hlj : lj = a := Option.some.inj hj.symm
      subst hlj
      show (lnew :: t).flatten.Nodup
      rw [List.flatten_cons, List.nodup_append]
      refine ⟨hln, htnd, fun x hx hxt => ?_⟩
      have hxa : x ∈ (lj :: t).flatten := by
        rw [List.flatten_cons]
        exact List.mem_append_right lj hxt
      exact hdisj (hsub x hx hxa) hxt
    | succ j =>
      rw [List.get?_cons_succ] at hj
      show (a :: t.set j lnew).flatten.Nodup
      rw [List.flatten_cons, List.nodup_append]
      refine ⟨hand, ih j lj lnew htnd hj hln ?_, fun x hx hxt => ?_⟩
      · intro x hx hxf
        have hxa : x ∈ (a :: t).flatten := by
          rw [List.flatten_cons]
          exact List.mem_append_right a hxf
        exact hsub x hx hxa
      · rcases mem_flatten_set hxt with hxf | hxn
        · exact hdisj hx hxf
        · have hxa : x ∈ (a :: t).flatten := by
            rw [List.flatten_cons]
            exact List.mem_append_left t.flatten hx
          have hxlj := hsub x hxn hxa
          have hljt : x ∈ t.flatten :=
            List.mem_flatten.2 ⟨lj, List.get?_mem hj, hxlj⟩
          exact hdisj hx hljt

theorem goodSub_agree [LinearOrder K] {ps ps' : List (Page K V)}
    {N b d id : Nat} {lo hi : Option K} {l : List Nat}
    (h : GoodSub ps N b d id lo hi l)
    (hag : ∀ i ∈ l, readPage ps' i = readPage ps i) :
    GoodSub ps' N b d id lo hi l :=
  goodSub_keep h (fun i hi p hp => ⟨p, by rw [hag i hi]; exact hp, rfl,
    rfl, rfl⟩)

theorem pathSurgery [LinearOrder K] {ps : List (Page K V)}
    {N b root dtop : Nat} {ids : List Nat}
    (hroot : GoodSub ps N b dtop root none none ids) (hnd : ids.Nodup) :
    ∀ (vis : List Nat) (target d : Nat) (lo hi : Option K),
    PathUpF ps vis target d lo hi root dtop none none →
    ∃ lt, GoodSub ps N b d target lo hi lt ∧ lt.Nodup ∧
      (∀ x ∈ lt, x ∈ ids) ∧ (∀ x ∈ vis, x ∈ ids ∧ x ∉ lt) ∧
      (∀ (ps' : List (Page K V)) (N' : Nat) (lnew : List Nat),
        GoodSub ps' N' b d target lo hi lnew → lnew.Nodup →
        (∀ i ∈ ids, i ∉ lt → readPage ps' i = readPage ps i) →
        (∀ x ∈ lnew, x ∈ ids → x ∈ lt) → N ≤ N' →
        ∃ idsf, GoodSub ps' N' b dtop root none none idsf ∧
          idsf.Nodup) := by
  intro vis
  induction vis with
  | nil =>
    intro target d lo hi hp
    obtain ⟨h1, h2, h3, h4⟩ := hp
    subst h1; subst h2; subst h3; subst h4
    refine ⟨ids, hroot, hnd, fun x hx => hx, ?_, ?_⟩
    · intro x hx
      cases hx
    · exact fun ps' N' lnew hnew hnn _ _ _ => ⟨lnew, hnew, hnn⟩
  | cons par rest ih =>
    intro target d lo hi hp
    obtain ⟨q, j, plo, phi, hrest, hqrd, hqty, hcj, hlo, hhi⟩ := hp
    obtain ⟨lq, hgq, hlqnd, hlqsub, hvisq, replQ⟩ :=
      ih par (d + 1) plo phi hrest
    cases hgq with
    | node _ _ _ _ p idss hid hrd hty hne hsort hbnd hrun hlen hch hform =>
      have hpq : p = q := by
        rw [hrd] at hqrd
        exact Option.some.inj hqrd
      subst hpq
      have hjlt : j < p.children.length := (List.get?_eq_some.1 hcj).1
      have hjidss : j < idss.length := by omega
      obtain ⟨lj, hlj⟩ : ∃ lj, idss.get? j = some lj :=
        ⟨_, List.get?_eq_get hjidss⟩
      have hgt : GoodSub ps N b d target lo hi lj := by
        rw [hlo, hhi]
        exact hch j target lj hcj hlj
      rw [List.nodup_cons] at hlqnd
      obtain ⟨hparnfl, hndfl⟩ := hlqnd
      have hljnd : lj.Nodup :=
        flatten_comp_nodup hndfl lj (List.get?_mem hlj)
      have hljfl : ∀ x ∈ lj, x ∈ idss.flatten :=
        fun x hx => List.mem_flatten.2 ⟨lj, List.get?_mem hlj, hx⟩
      have hljsub : ∀ x ∈ lj, x ∈ ids := fun x hx =>
        hlqsub x (by simp only [List.mem_cons]; exact Or.inr (hljfl x hx))
      have hparids : par ∈ ids := hlqsub par (by simp)
      have hparlj : par ∉ lj := fun hc => hparnfl (hljfl par hc)
      refine ⟨lj, hgt, hljnd, hljsub, ?_, ?_⟩
      · intro x hx
        rcases List.mem_cons.1 hx with rfl | hx
        · exact ⟨hparids, hparlj⟩
        · obtain ⟨hxids, hxlq⟩ := hvisq x hx
          refine ⟨hxids, fun hc => hxlq ?_⟩
          simp only [List.mem_cons]
          exact Or.inr (hljfl x hc)
      intro ps' N' lnew hnew hnn hag hdisj hN
      have hagq : readPage ps' par = readPage ps par :=
        hag par hparids hparlj
      have hcomp : ∀ i c l', i ≠ j → p.children.get? i = some c →
          idss.get? i = some l' →
          GoodSub ps' N b d c (slotLo p plo i) (slotHi p phi i) l' := by
        intro i c l' hij hci hli
        refine goodSub_agree (hch i c l' hci hli) ?_
        intro x hx
        refine hag x (hlqsub x (by
          simp only [List.mem_cons]
          exact Or.inr (List.mem_flatten.2 ⟨l', List.get?_mem hli, hx⟩)))
          ?_
        intro hxj
        rcases Nat.lt_or_ge i j with h1 | h1
        · exact flatten_comp_disj idss i j l' lj hndfl h1 hli hlj x hx hxj
        · exact flatten_comp_disj idss j i lj l' hndfl (by omega) hlj hli
            x hxj hx
      have hnode : GoodSub ps' N' b (d + 1) par plo phi
          (par :: (idss.set j lnew).flatten) := by
        refine GoodSub.node d par plo phi p (idss.set j lnew) (by omega)
          (by rw [hagq]; exact hrd) hty hne hsort hbnd hrun
          (by rw [List.length_set]; exact hlen) ?_ hform
        intro i c l' hci hli
        by_cases hij : i = j
        · subst hij
          rw [List.get?_set_eq_of_lt _ (by omega)] at hli
          have hl' : l' = lnew := (Option.some.inj hli).symm
          subst hl'
          rw [hcj] at hci
          have hct : c = target := (Option.some.inj hci).symm
          subst hct
          rw [hlo, hhi] at hnew
          exact hnew
        · rw [List.get?_set_ne _ _ (fun h => hij h.symm)] at hli
          exact goodSub_monoN hN (hcomp i c l' hij hci hli)
      have hnodeNd : (par :: (idss.set j lnew).flatten).Nodup := by
        rw [List.nodup_cons]
        refine ⟨fun hc => ?_, ?_⟩
        · rcases mem_flatten_set hc with hxf | hxn
          · exact hparnfl hxf
          · exact hparlj (hdisj par hxn hparids)
        · exact flatten_set_nodup idss j lj lnew hndfl hlj hnn
            (fun x hx hxf => hdisj x hx (hlqsub x (by
              simp only [List.mem_cons]
              exact Or.inr hxf)))
      exact replQ ps' N' _ hnode hnodeNd
        (fun i hi hni => hag i hi (fun hij => hni (by
          simp only [List.mem_cons]
          exact Or.inr (hljfl i hij))))
        (fun x hx hxids => by
          rcases List.mem_cons.1 hx with rfl | hx
          · simp
          · rcases mem_flatten_set hx with hxf | hxn
            · simp only [List.mem_cons]
              exact Or.inr hxf
            · simp only [List.mem_cons]
              exact Or.inr (hljfl x (hdisj x hxn hxids)))
        hN

theorem getLast?_take {l : List α} {n : Nat} (h : n < l.length) :
    (l.take (n + 1)).getLast? = l.get? n := by
  rw [List.getLast?_eq_get?, List.length_take]
  have hm : min (n + 1) l.length = n + 1 := by omega
  rw [hm]
  simp only [Nat.add_sub_cancel]
  exact List.get?_take (by omega)

theorem getLast?_drop {l : List α} {n : Nat} (h : n < l.length) :
    (l.drop n).getLast? = l.getLast? := by
  rw [List.getLast?_eq_get?, List.getLast?_eq_get?, List.length_drop,
    List.get?_drop]
  congr 1
  omega

theorem dividePage_spec {b nid : Nat} {page L R : Page K V}
    (h : dividePage b nid page = some (L, R)) :
    b / 2 + 1 ≤ page.keys.length ∧
    L.id = page.id ∧ L.ptype = page.ptype ∧
    L.keys = page.keys.take (b / 2 + 1) ∧
    R.id = nid ∧ R.ptype = page.ptype ∧
    R.keys = page.keys.drop (b / 2 + 1) ∧
    (page.ptype = .interior →
      L.children = page.children.take (b / 2 + 1) ∧
      R.children = page.children.drop (b / 2 + 1)) := by
  unfold dividePage at h
  by_cases hle : b / 2 + 1 ≤ page.keys.length
  · rw [if_pos hle] at h
    rcases hty : page.ptype with _ | _ <;> rw [hty] at h <;> dsimp only at h
    · by_cases hcond : b / 2 + 1 ≤ page.vals.length ∧
          b / 2 + 1 ≤ page.deleted.length
      · rw [if_pos hcond] at h
        injection h with h
        injection h with h1 h2
        subst h1
        subst h2
        exact ⟨hle, rfl, rfl, rfl, rfl, rfl, rfl, fun hc => nomatch hc⟩
      · rw [if_neg hcond] at h
        cases h
    · by_cases hcond : b / 2 + 1 ≤ page.children.length
      · rw [if_pos hcond] at h
        injection h with h
        injection h with h1 h2
        subst h1
        subst h2
        exact ⟨hle, rfl, rfl, rfl, rfl, rfl, rfl, fun _ => ⟨rfl, rfl⟩⟩
      · rw [if_neg hcond] at h
        cases h
  · rw [if_neg hle] at h
    cases h

theorem goodSub_split [LinearOrder K] {ps : List (Page K V)}
    {N b nid d : Nat} {page L R : Page K V} {lo hi : Option K}
    {lsub : List Nat} (hsortp : IdsSorted ps)
    (hg : GoodSub (writePage ps page) N b d page.id lo hi lsub)
    (hnd : lsub.Nodup) (hdiv : dividePage b nid page = some (L, R))
    (hklen : page.keys.length = b) (hb : 3 ≤ b) (hN : N ≤ nid)
    {sk : K} (hsk : page.keys.get? (b / 2) = some sk) :
    ∃ lL lR,
      GoodSub (writePage (writePage ps L) R) (nid + 1) b d page.id lo
        (some sk) lL ∧
      GoodSub (writePage (writePage ps L) R) (nid + 1) b d nid (some sk)
        hi lR ∧
      lL.Nodup ∧ lR.Nodup ∧ (∀ x ∈ lL, x ∉ lR) ∧
      (∀ x ∈ lL, x ∈ lsub) ∧ (∀ x ∈ lR, x ∈ lsub ∨ x = nid) := by
  obtain ⟨hle, hLid, hLty, hLkeys, hRid, hRty, hRkeys, hchint⟩ :=
    dividePage_spec hdiv
  have hlt := goodSub_ids_lt hg
  have hvpself : readPage (writePage ps page) page.id = some page :=
    readPage_writePage_self hsortp
  have hpagemem : page.id ∈ lsub := goodSub_root_mem hg
  have hpageN : page.id < N := hlt page.id hpagemem
  have hsortL : IdsSorted (writePage ps L) := writePage_sorted hsortp
  have hRread : readPage (writePage (writePage ps L) R) nid = some R := by
    have h0 : readPage (writePage (writePage ps L) R) R.id = some R :=
      readPage_writePage_self hsortL
    rw [hRid] at h0
    exact h0
  have hLread : readPage (writePage (writePage ps L) R) page.id =
      some L := by
    rw [readPage_writePage_ne (by rw [hRid]; omega)]
    have h0 : readPage (writePage ps L) L.id = some L :=
      readPage_writePage_self hsortp
    rw [hLid] at h0
    exact h0
  have hother : ∀ x, x ≠ page.id → x ≠ nid →
      readPage (writePage (writePage ps L) R) x =
        readPage (writePage ps page) x := by
    intro x h1 h2
    rw [readPage_writePage_ne (by rw [hRid]; exact fun hc => h2 hc.symm),
      readPage_writePage_ne (by rw [hLid]; exact fun hc => h1 hc.symm),
      readPage_writePage_ne (fun hc => h1 hc.symm)]
  have hsi : b / 2 < page.keys.length := by omega
  cases hg with
  | leaf _ _ _ p hid hrd hty hsort hbnd hrun =>
    have hppage : page = p := by
      rw [hvpself] at hrd
      exact Option.some.inj hrd
    subst hppage
    refine ⟨[page.id], [nid], ?_, ?_, by simp, by simp,
      by simp; omega, by simp, by simp⟩
    · refine GoodSub.leaf page.id lo (some sk) L (by omega) hLread
        (hLty.trans hty) ?_ ?_ ?_
      · rw [hLkeys]
        exact hsort.sublist (List.take_sublist _ _)
      · intro k hk
        rw [hLkeys] at hk
        obtain ⟨j, hj, hget⟩ := mem_take_get? hk
        refine ⟨(hbnd k (List.mem_of_mem_take hk)).1, ?_⟩
        intro u hu
        injection hu with hu
        subst hu
        exact sorted_get?_le hsort (by omega) hget hsk
      · intro u hu
        rw [hLkeys]
        exact le_trans (keyRun_take_le u page.keys _) (hrun u hu)
    · refine GoodSub.leaf nid (some sk) hi R (by omega) hRread
        (hRty.trans hty) ?_ ?_ ?_
      · rw [hRkeys]
        exact hsort.sublist (List.drop_sublist _ _)
      · intro k hk
        rw [hRkeys] at hk
        obtain ⟨j, hj, hget⟩ := mem_drop_get? hk
        refine ⟨?_, (hbnd k (List.mem_of_mem_drop hk)).2⟩
        intro u hu
        injection hu with hu
        subst hu
        exact sorted_get?_le hsort (by omega) hsk hget
      · intro u _
        have h1 := keyRun_le_length u R.keys
        have h2 : R.keys.length = page.keys.length - (b / 2 + 1) := by
          rw [hRkeys, List.length_drop]
        omega
  | node d' _ _ _ p idss hid hrd hty hne hsort hbnd hrun hilen hch hform =>
    have hppage : page = p := by
      rw [hvpself] at hrd
      exact Option.some.inj hrd
    subst hppage
    obtain ⟨hLch, hRch⟩ := hchint hty
    have hflsplit : (idss.take (b / 2 + 1)).flatten ++
        (idss.drop (b / 2 + 1)).flatten = idss.flatten := by
      rw [← List.flatten_append, List.take_append_drop]
    have hnd' := hnd
    rw [List.nodup_cons] at hnd'
    obtain ⟨hpnotfl, hflnd⟩ := hnd'
    rw [← hflsplit, List.nodup_append] at hflnd
    obtain ⟨htaknd, hdrnd, hdisjfl⟩ := hflnd
    have hmemtak : ∀ x ∈ (idss.take (b / 2 + 1)).flatten,
        x ∈ idss.flatten := by
      intro x hx
      rw [← hflsplit]
      exact List.mem_append_left _ hx
    have hmemdr : ∀ x ∈ (idss.drop (b / 2 + 1)).flatten,
        x ∈ idss.flatten := by
      intro x hx
      rw [← hflsplit]
      exact List.mem_append_right _ hx
    have hfllt : ∀ x ∈ idss.flatten, x < N := by
      intro x hx
      exact hlt x (by simp only [List.mem_cons]; exact Or.inr hx)
    have htrans : ∀ i c li, page.children.get? i = some c →
        idss.get? i = some li →
        GoodSub (writePage (writePage ps L) R) (nid + 1) b d' c
          (slotLo page lo i) (slotHi page hi i) li := by
      intro i c li hci hli
      refine goodSub_monoN (by omega) (goodSub_agree (hch i c li hci hli)
        ?_)
      intro x hx
      have hxfl : x ∈ idss.flatten :=
        List.mem_flatten.2 ⟨li, List.get?_mem hli, hx⟩
      have hxN := hfllt x hxfl
      exact hother x (fun hc => hpnotfl (hc ▸ hxfl)) (by omega)
    have hchlen : b / 2 + 1 ≤ page.children.length := by
      rcases hform with h1 | ⟨h1, _⟩ <;> omega
    refine ⟨page.id :: (idss.take (b / 2 + 1)).flatten,
      nid :: (idss.drop (b / 2 + 1)).flatten, ?_, ?_, ?_, ?_, ?_, ?_, ?_⟩
    · -- left half
      refine GoodSub.node d' page.id lo (some sk) L
        (idss.take (b / 2 + 1)) (by omega) hLread (hLty.trans hty) ?_ ?_
        ?_ ?_ ?_ ?_ ?_
      · have hlen1 : L.keys.length = b / 2 + 1 := by
          rw [hLkeys, List.length_take]
          omega
        intro hc
        rw [hc] at hlen1
        simp at hlen1
      · rw [hLkeys]
        exact hsort.sublist (List.take_sublist _ _)
      · intro k hk
        rw [hLkeys] at hk
        obtain ⟨j, hj, hget⟩ := mem_take_get? hk
        refine ⟨(hbnd k (List.mem_of_mem_take hk)).1, ?_⟩
        intro u hu
        injection hu with hu
        subst hu
        exact sorted_get?_le hsort (by omega) hget hsk
      · intro u hu
        rw [hLkeys]
        exact le_trans (keyRun_take_le u page.keys _) (hrun u hu)
      · rw [hLch, List.length_take, List.length_take]
        omega
      · intro i c li hci hli
        have hitak : i < b / 2 + 1 := by
          have := (List.get?_eq_some.1 hli).1
          rw [List.length_take] at this
          omega
        rw [hLch, List.get?_take hitak] at hci
        rw [List.get?_take hitak] at hli
        have hgs := htrans i c li hci hli
        have hkeq : L.keys.get? i = page.keys.get? i := by
          rw [hLkeys]
          exact List.get?_take (by omega)
        have h1 : slotLo L lo i = slotLo page lo i := by
          unfold slotLo
          by_cases h0 : i = 0
          · rw [if_pos h0, if_pos h0]
          · rw [if_neg h0, if_neg h0, hLkeys,
              List.get?_take (by omega)]
        have h2 : slotHi L (some sk) i = slotHi page hi i := by
          have hisk : i < page.keys.length := by omega
          obtain ⟨ki, hki⟩ : ∃ ki, page.keys.get? i = some ki :=
            ⟨_, List.get?_eq_get hisk⟩
          unfold slotHi
          rw [hkeq, hki]
        rw [h1, h2]
        exact hgs
      · refine Or.inr ⟨?_, sk, rfl, ?_⟩
        · rw [hLch, hLkeys, List.length_take, List.length_take]
          omega
        · rw [hLkeys, getLast?_take hsi]
          exact hsk
    · -- right half
      refine GoodSub.node d' nid (some sk) hi R
        (idss.drop (b / 2 + 1)) (by omega) hRread (hRty.trans hty) ?_ ?_
        ?_ ?_ ?_ ?_ ?_
      · have hlen1 : R.keys.length = b - (b / 2 + 1) := by
          rw [hRkeys, List.length_drop, hklen]
        intro hc
        rw [hc] at hlen1
        simp at hlen1
        omega
      · rw [hRkeys]
        exact hsort.sublist (List.drop_sublist _ _)
      · intro k hk
        rw [hRkeys] at hk
        obtain ⟨j, hj, hget⟩ := mem_drop_get? hk
        refine ⟨?_, (hbnd k (List.mem_of_mem_drop hk)).2⟩
        intro u hu
        injection hu with hu
        subst hu
        exact sorted_get?_le hsort (by omega) hsk hget
      · intro u _
        have h1 := keyRun_le_length u R.keys
        have h2 : R.keys.length = page.keys.length - (b / 2 + 1) := by
          rw [hRkeys, List.length_drop]
        omega
      · rw [hRch, List.length_drop, List.length_drop]
        omega
      · intro i c li hci hli
        rw [hRch, List.get?_drop] at hci
        rw [List.get?_drop] at hli
        have hgs := htrans (b / 2 + 1 + i) c li hci hli
        have hkeq : R.keys.get? i = page.keys.get? (b / 2 + 1 + i) := by
          rw [hRkeys]
          exact List.get?_drop _ _ _
        have h1 : slotLo R (some sk) i =
            slotLo page lo (b / 2 + 1 + i) := by
          unfold slotLo
          rw [if_neg (by omega : ¬ b / 2 + 1 + i = 0)]
          by_cases h0 : i = 0
          · subst h0
            rw [if_pos rfl]
            have : b / 2 + 1 + 0 - 1 = b / 2 := by omega
            rw [this, hsk]
          · rw [if_neg h0, hRkeys, List.get?_drop]
            congr 1
            omega
        have h2 : slotHi R hi i = slotHi page hi (b / 2 + 1 + i) := by
          unfold slotHi
          rw [hkeq]
        rw [h1, h2]
        exact hgs
      · rcases hform with h1 | ⟨h1, u, hu, hlast⟩
        · refine Or.inl ?_
          rw [hRch, hRkeys, List.length_drop, List.length_drop]
          omega
        · refine Or.inr ⟨?_, u, hu, ?_⟩
          · rw [hRch, hRkeys, List.length_drop, List.length_drop]
            omega
          · rw [hRkeys, getLast?_drop (by omega)]
            exact hlast
    · rw [List.nodup_cons]
      exact ⟨fun hc => hpnotfl (hmemtak _ hc), htaknd⟩
    · rw [List.nodup_cons]
      refine ⟨fun hc => ?_, hdrnd⟩
      have := hfllt nid (hmemdr _ hc)
      omega
    · intro x hx
      rcases List.mem_cons.1 hx with rfl | hx
      · intro hc
        rcases List.mem_cons.1 hc with h1 | h1
        · omega
        · exact hpnotfl (hmemdr _ h1)
      · intro hc
        rcases List.mem_cons.1 hc with h1 | h1
        · have := hfllt x (hmemtak _ hx)
          omega
        · exact hdisjfl hx h1
    · intro x hx
      rcases List.mem_cons.1 hx with rfl | hx
      · exact hpagemem
      · simp only [List.mem_cons]
        exact Or.inr (hmemtak _ hx)
    · intro x hx
      rcases List.mem_cons.1 hx with rfl | hx
      · exact Or.inr rfl
      · refine Or.inl ?_
        simp only [List.mem_cons]
        exact Or.inr (hmemdr _ hx)

theorem goodSub_shape [LinearOrder K] {ps : List (Page K V)}
    {N b d id : Nat} {lo hi : Option K} {l : List Nat}
    (h : GoodSub ps N b d id lo hi l) {p : Page K V}
    (hrd : readPage ps id = some p) : interiorShape p := by
  cases h with
  | leaf _ _ _ p' _ hrd' hty _ _ _ =>
    rw [hrd'] at hrd
    have : p' = p := Option.some.inj hrd
    subst this
    intro hc
    rw [hty] at hc
    cases hc
  | node _ _ _ _ p' _ _ hrd' _ hne _ _ _ _ _ hform =>
    rw [hrd'] at hrd
    have : p' = p := Option.some.inj hrd
    subst this
    intro _
    refine ⟨hne, ?_⟩
    rcases hform with h1 | ⟨h1, _⟩
    · exact Or.inr h1
    · exact Or.inl h1

theorem run_lt_get [LinearOrder K] {l : List K} {u : K} {m : Nat}
    (hs : l.Sorted (· ≤ ·)) (hlo : ∀ x ∈ l, u ≤ x)
    (hrun : keyRun u l ≤ m) (hm : m < l.length) {x : K}
    (hx : l.get? m = some x) : u < x := by
  have hrl : keyRun u l < l.length := by omega
  obtain ⟨y, hy⟩ : ∃ y, l.get? (keyRun u l) = some y :=
    ⟨_, List.get?_eq_get hrl⟩
  have hyne : y ≠ u := keyRun_stop u l y hy
  have hyu : u ≤ y := hlo y (List.get?_mem hy)
  have hylt : u < y := lt_of_le_of_ne hyu (fun h => hyne h.symm)
  exact lt_of_lt_of_le hylt (sorted_get?_le hs hrun hy hx)

theorem take_cons_drop {l : List α} {j : Nat} {c : α}
    (h : l.get? j = some c) : l.take j ++ c :: l.drop (j + 1) = l := by
  induction l generalizing j with
  | nil => simp at h
  | cons x t ih =>
    cases j with
    | zero =>
      rw [List.get?_cons_zero] at h
      have : x = c := Option.some.inj h
      subst this
      simp
    | succ j =>
      rw [List.get?_cons_succ] at h
      simp only [List.take, List.drop, List.cons_append, List.cons.injEq]
      exact ⟨trivial, ih h⟩

theorem set_after_take {l : List α} {j : Nat} {a c : α}
    (h : l.get? j = some c) (d : α) :
    (l.take j ++ a :: l.drop j).set (j + 1) d =
      l.take j ++ a :: d :: l.drop (j + 1) := by
  induction l generalizing j with
  | nil => simp at h
  | cons x t ih =>
    cases j with
    | zero =>
      rw [List.get?_cons_zero] at h
      have : x = c := Option.some.inj h
      subst this
      simp [List.set]
    | succ j =>
      rw [List.get?_cons_succ] at h
      simp only [List.take, List.drop, List.cons_append, List.set,
        List.cons.injEq]
      exact ⟨trivial, ih h⟩

theorem get?_splice1 {l : List α} {j : Nat} (hj : j ≤ l.length) (a : α)
    (i : Nat) :
    (l.take j ++ a :: l.drop j).get? i =
      if i < j then l.get? i
      else if i = j then some a else l.get? (i - 1) := by
  have htl : (l.take j).length = j := by
    rw [List.length_take]
    omega
  by_cases h1 : i < j
  · rw [if_pos h1, List.get?_append (by omega), List.get?_take h1]
  · rw [if_neg h1]
    rw [List.get?_append_right (by omega), htl]
    by_cases h2 : i = j
    · subst h2
      rw [if_pos rfl, Nat.sub_self, List.get?_cons_zero]
    · rw [if_neg h2]
      have h3 : i - j = (i - j - 1) + 1 := by omega
      rw [h3, List.get?_cons_succ, List.get?_drop]
      congr 1
      omega

theorem get?_splice2 {l : List α} {j : Nat} (hj : j ≤ l.length) (a c : α)
    (i : Nat) :
    (l.take j ++ a :: c :: l.drop (j + 1)).get? i =
      if i < j then l.get? i
      else if i = j then some a
      else if i = j + 1 then some c else l.get? (i - 1) := by
  have htl : (l.take j).length = j := by
    rw [List.length_take]
    omega
  by_cases h1 : i < j
  · rw [if_pos h1, List.get?_append (by omega), List.get?_take h1]
  · rw [if_neg h1]
    rw [List.get?_append_right (by omega), htl]
    by_cases h2 : i = j
    · subst h2
      rw [if_pos rfl, Nat.sub_self, List.get?_cons_zero]
    · rw [if_neg h2]
      by_cases h3 : i = j + 1
      · subst h3
        rw [if_pos rfl]
        have h4 : j + 1 - j = 1 := by omega
        rw [h4, List.get?_cons_succ, List.get?_cons_zero]
      · rw [if_neg h3]
        have h4 : i - j = (i - j - 2) + 1 + 1 := by omega
        rw [h4, List.get?_cons_succ, List.get?_cons_succ, List.get?_drop]
        congr 1
        omega

theorem insIdx_eq {l l' : List α} {j : Nat} {a : α}
    (h : insIdx l j a = some l') :
    l' = l.take j ++ a :: l.drop j ∧ j ≤ l.length := by
  unfold insIdx at h
  by_cases hj : j ≤ l.length
  · rw [if_pos hj] at h
    exact ⟨(Option.some.inj h).symm, hj⟩
  · rw [if_neg hj] at h
    cases h

theorem setIdx_eq {l l' : List α} {i : Nat} {a : α}
    (h : setIdx l i a = some l') : l' = l.set i a ∧ i < l.length := by
  unfold setIdx at h
  by_cases hi : i < l.length
  · rw [if_pos hi] at h
    exact ⟨(Option.some.inj h).symm, hi⟩
  · rw [if_neg hi] at h
    cases h

theorem pathUpF_agree [LinearOrder K] {ps ps' : List (Page K V)} :
    ∀ (vis : List Nat) (target d : Nat) (lo hi : Option K)
      (start dstart : Nat) (slo shi : Option K),
    PathUpF ps vis target d lo hi start dstart slo shi →
    (∀ x ∈ vis, readPage ps' x = readPage ps x) →
    PathUpF ps' vis target d lo hi start dstart slo shi := by
  intro vis
  induction vis with
  | nil =>
    intro target d lo hi start dstart slo shi hp _
    exact hp
  | cons par rest ih =>
    intro target d lo hi start dstart slo shi hp hag
    obtain ⟨q, j, plo, phi, hrest, hrd, hty, hcj, hlo, hhi⟩ := hp
    exact ⟨q, j, plo, phi,
      ih par (d + 1) plo phi start dstart slo shi hrest
        (fun x hx => hag x (by simp [hx])),
      by rw [hag par (by simp)]; exact hrd, hty, hcj, hlo, hhi⟩

theorem splitPage_spec [LinearOrder K] {b nid : Nat}
    {page parent L R P : Page K V}
    (h : splitPage b nid page parent = some (L, R, P)) :
    b ≤ page.keys.length ∧
    ∃ sk, page.keys.get? (b / 2) = some sk ∧
      dividePage b nid page = some (L, R) ∧
      ∃ pk pc0 pc,
        insIdx parent.keys (parent.find sk) sk = some pk ∧
        insIdx parent.children (parent.find sk) page.id = some pc0 ∧
        setIdx pc0 (parent.find sk + 1) R.id = some pc ∧
        P = { parent with keys := pk, children := pc } := by
  unfold splitPage at h
  split at h
  · cases h
  · simp only [Option.bind_eq_bind, Option.bind_eq_some] at h
    obtain ⟨sk, hsk, h⟩ := h
    obtain ⟨⟨L', R'⟩, hdiv, h⟩ := h
    obtain ⟨pk, hpk, h⟩ := h
    obtain ⟨pc0, hpc0, h⟩ := h
    obtain ⟨pc, hpc, h⟩ := h
    injection h with h
    injection h with h1 h
    injection h with h2 h3
    subst h1
    subst h2
    subst h3
    exact ⟨by omega, sk, hsk, hdiv, pk, pc0, pc, hpk, hpc0, hpc, rfl⟩

theorem goodSub_root_facts [LinearOrder K] {ps : List (Page K V)}
    {N b d id : Nat} {lo hi : Option K} {l : List Nat}
    (h : GoodSub ps N b d id lo hi l) {p : Page K V}
    (hrd : readPage ps id = some p) :
    p.keys.Sorted (· ≤ ·) ∧ (∀ k ∈ p.keys, okLo lo k ∧ okHi hi k) ∧
    runOK b lo p.keys := by
  cases h with
  | leaf _ _ _ p' _ hrd' _ hsort hbnd hrun =>
    rw [hrd'] at hrd
    have : p' = p := Option.some.inj hrd
    subst this
    exact ⟨hsort, hbnd, hrun⟩
  | node _ _ _ _ p' _ _ hrd' _ _ hsort hbnd hrun _ _ _ =>
    rw [hrd'] at hrd
    have : p' = p := Option.some.inj hrd
    subst this
    exact ⟨hsort, hbnd, hrun⟩

theorem divide_shape {b nid : Nat} {page L R : Page K V}
    (hdiv : dividePage b nid page = some (L, R))
    (hklen : page.keys.length = b) (hb : 3 ≤ b)
    (hshape : interiorShape page) : interiorShape L ∧ interiorShape R := by
  obtain ⟨hle, hLid, hLty, hLkeys, hRid, hRty, hRkeys, hchint⟩ :=
    dividePage_spec hdiv
  constructor
  · intro hint
    rw [hLty] at hint
    obtain ⟨hch, hchR⟩ := hchint hint
    obtain ⟨hne, hform⟩ := hshape hint
    have hkl : L.keys.length = b / 2 + 1 := by
      rw [hLkeys, List.length_take]
      omega
    refine ⟨fun hc => by rw [hc] at hkl; simp at hkl, Or.inl ?_⟩
    rw [hch, hkl, List.length_take]
    rcases hform with h1 | h1 <;> omega
  · intro hint
    rw [hRty] at hint
    obtain ⟨hch, hchR⟩ := hchint hint
    obtain ⟨hne, hform⟩ := hshape hint
    have hkl : R.keys.length = b - (b / 2 + 1) := by
      rw [hRkeys, List.length_drop, hklen]
    refine ⟨fun hc => by rw [hc] at hkl; simp at hkl; omega, ?_⟩
    rw [hchR, hkl, List.length_drop]
    rcases hform with h1 | h1
    · exact Or.inl (by omega)
    · exact Or.inr (by omega)

theorem pagesFrame_read [DecidableEq K] {key : K} :
    ∀ {ps qs : List (Page K V)}, PagesFrame key ps qs →
    ∀ {id : Nat} {p : Page K V}, readPage ps id = some p →
    ∃ q, readPage qs id = some q ∧ PageFrame key p q := by
  intro ps qs h
  induction h with
  | nil => intro id p hp; simp [readPage] at hp
  | @cons a b l₁ l₂ hpq htail ih =>
    intro id p hp
    by_cases hid : a.id = id
    · rw [readPage, List.find?_cons_of_pos _ (by simpa using hid)] at hp
      injection hp with hp
      subst hp
      refine ⟨b, ?_, hpq⟩
      rw [readPage, List.find?_cons_of_pos _ (by simp [hpq.1, hid])]
    · rw [readPage, List.find?_cons_of_neg _ (by simpa using hid)] at hp
      obtain ⟨q, hq, hfr⟩ := ih hp
      refine ⟨q, ?_, hfr⟩
      rw [readPage, List.find?_cons_of_neg _ (by simp [hpq.1]; omega)]
      exact hq

theorem splitRoot_spec {b nid : Nat} {page L R Rt : Page K V}
    (h : splitRoot b nid page = some (L, R, Rt)) :
    ∃ sk, page.keys.get? (b / 2) = some sk ∧
      dividePage b nid page = some (L, R) ∧
      Rt.id = nid + 1 ∧ Rt.ptype = .interior ∧ Rt.keys = [sk] ∧
      Rt.children = [page.id, R.id] := by
  unfold splitRoot at h
  simp only [Option.bind_eq_bind, Option.bind_eq_some] at h
  obtain ⟨sk, hsk, h⟩ := h
  obtain ⟨⟨L', R'⟩, hdiv, h⟩ := h
  injection h with h
  injection h with h1 h
  injection h with h2 h3
  subst h1
  subst h2
  subst h3
  exact ⟨sk, hsk, hdiv, rfl, rfl, rfl, rfl⟩

theorem splice2_flatten_nodup {A B lj lL lR : List Nat} {nid : Nat}
    (h : (A ++ (lj ++ B)).Nodup) (hL : lL.Nodup) (hR : lR.Nodup)
    (hLR : ∀ x ∈ lL, x ∉ lR) (hLs : ∀ x ∈ lL, x ∈ lj)
    (hRs : ∀ x ∈ lR, x ∈ lj ∨ x = nid)
    (hnid : nid ∉ A ++ (lj ++ B)) :
    (A ++ (lL ++ (lR ++ B))).Nodup := by
  rw [List.nodup_append] at h
  obtain ⟨hA, hjB, hAjB⟩ := h
  rw [List.nodup_append] at hjB
  obtain ⟨hj, hB, hjBd⟩ := hjB
  simp only [List.mem_append, not_or] at hnid
  obtain ⟨hnidA, hnidj, hnidB⟩ := hnid
  rw [List.nodup_append]
  refine ⟨hA, ?_, ?_⟩
  · rw [List.nodup_append]
    refine ⟨hL, ?_, ?_⟩
    · rw [List.nodup_append]
      refine ⟨hR, hB, fun x hx hxB => ?_⟩
      rcases hRs x hx with hxj | rfl
      · exact hjBd hxj hxB
      · exact hnidB hxB
    · intro x hx hxc
      rw [List.mem_append] at hxc
      rcases hxc with hxR | hxB
      · exact hLR x hx hxR
      · exact hjBd (hLs x hx) hxB
  · intro x hx hxc
    simp only [List.mem_append] at hxc
    rcases hxc with hxL | hxR | hxB
    · exact hAjB hx (List.mem_append_left B (hLs x hxL))
    · rcases hRs x hxR with hxj | rfl
      · exact hAjB hx (List.mem_append_left B hxj)
      · exact hnidA hx
    · exact hAjB hx (List.mem_append_right lj hxB)

theorem flatten_splice2 {idss : List (List Nat)} {j : Nat}
    {lj : List Nat} (h : idss.get? j = some lj) (lL lR : List Nat) :
    idss.flatten =
      (idss.take j).flatten ++ (lj ++ (idss.drop (j + 1)).flatten) ∧
    (idss.take j ++ lL :: lR :: idss.drop (j + 1)).flatten =
      (idss.take j).flatten ++
        (lL ++ (lR ++ (idss.drop (j + 1)).flatten)) := by
  constructor
  · conv_lhs => rw [← take_cons_drop h]
    rw [List.flatten_append, List.flatten_cons]
  · rw [List.flatten_append, List.flatten_cons, List.flatten_cons]

theorem getLast?_app {l₁ l₂ : List α} (h : l₂ ≠ []) :
    (l₁ ++ l₂).getLast? = l₂.getLast? := by
  have hl2 : 0 < l₂.length := List.length_pos.2 h
  rw [List.getLast?_eq_get?, List.getLast?_eq_get?, List.length_append,
    List.get?_append_right (by omega)]
  congr 1
  omega

theorem splitRoot_good [LinearOrder K] {s : BTree K V}
    {page L R Rt : Page K V} {ids : List Nat}
    (hsort : IdsSorted s.pages)
    (hroot : GoodSub (writePage s.pages page) s.next_id s.b s.depth
      page.id none none ids)
    (hnd : ids.Nodup) (hplen : page.keys.length = s.b) (hb : 3 ≤ s.b)
    (hpshape : interiorShape page)
    (hsr : splitRoot s.b s.next_id page = some (L, R, Rt)) :
    ∃ ids', ids'.Nodup ∧
      GoodSub (writePage (writePage (writePage s.pages L) R) Rt)
        (s.next_id + 2) s.b (s.depth + 1) Rt.id none none ids' ∧
      Rt.id = s.next_id + 1 ∧ interiorShape Rt ∧ interiorShape L ∧
      interiorShape R ∧ L.keys.length < s.b ∧ R.keys.length < s.b ∧
      Rt.keys.length < s.b := by
  obtain ⟨sk, hsk, hdiv, hRtid, hRtty, hRtkeys, hRtch⟩ :=
    splitRoot_spec hsr
  obtain ⟨hdle, hLid, hLty, hLkeys, hRid, hRty, hRkeys, hchint⟩ :=
    dividePage_spec hdiv
  obtain ⟨lL, lR, hLt, hRt', hLnd, hRnd, hdisj, hLsub, hRsub⟩ :=
    goodSub_split hsort hroot hnd hdiv hplen hb (Nat.le_refl _) hsk
  obtain ⟨hLshape, hRshape⟩ := divide_shape hdiv hplen hb hpshape
  have hLlt := goodSub_ids_lt hLt
  have hRlt := goodSub_ids_lt hRt'
  have hsortf : IdsSorted (writePage (writePage s.pages L) R) :=
    writePage_sorted (writePage_sorted hsort)
  have hRtrd : readPage (writePage (writePage (writePage s.pages L) R) Rt)
      Rt.id = some Rt := readPage_writePage_self hsortf
  have hagL : ∀ x ∈ lL,
      readPage (writePage (writePage (writePage s.pages L) R) Rt) x =
        readPage (writePage (writePage s.pages L) R) x := by
    intro x hx
    refine readPage_writePage_ne ?_
    rw [hRtid]
    have := hLlt x hx
    omega
  have hagR : ∀ x ∈ lR,
      readPage (writePage (writePage (writePage s.pages L) R) Rt) x =
        readPage (writePage (writePage s.pages L) R) x := by
    intro x hx
    refine readPage_writePage_ne ?_
    rw [hRtid]
    have := hRlt x hx
    omega
  have hLt2 : GoodSub (writePage (writePage (writePage s.pages L) R) Rt)
      (s.next_id + 2) s.b s.depth page.id none (some sk) lL :=
    goodSub_monoN (by omega) (goodSub_agree hLt hagL)
  have hRt2 : GoodSub (writePage (writePage (writePage s.pages L) R) Rt)
      (s.next_id + 2) s.b s.depth s.next_id (some sk) none lR :=
    goodSub_monoN (by omega) (goodSub_agree hRt' hagR)
  refine ⟨Rt.id :: ([lL, lR] : List (List Nat)).flatten, ?_, ?_, hRtid,
    ?_, hLshape, hRshape, ?_, ?_, ?_⟩
  · have hfl : ([lL, lR] : List (List Nat)).flatten = lL ++ lR := by simp
    rw [hfl, List.nodup_cons]
    refine ⟨fun hc => ?_, ?_⟩
    · rw [List.mem_append] at hc
      rcases hc with hc | hc
      · have := hLlt Rt.id hc
        omega
      · have := hRlt Rt.id hc
        omega
    · rw [List.nodup_append]
      exact ⟨hLnd, hRnd, fun a ha hb' => hdisj a ha hb'⟩
  · refine GoodSub.node s.depth Rt.id none none Rt [lL, lR]
      (by omega) hRtrd hRtty (by rw [hRtkeys]; simp)
      (by rw [hRtkeys]; simp) ?_ (fun u hu => nomatch hu)
      (by rw [hRtch]; rfl) ?_ ?_
    · intro k _
      exact ⟨fun u hu => (nomatch hu), fun u hu => (nomatch hu)⟩
    · intro i c l' hci hli
      rw [hRtch] at hci
      cases i with
      | zero =>
        rw [List.get?_cons_zero] at hci hli
        have hc' : page.id = c := Option.some.inj hci
        have hl' : lL = l' := Option.some.inj hli
        subst hc'
        subst hl'
        have hslo : slotLo Rt none 0 = none := by
          unfold slotLo
          rw [if_pos rfl]
        have hshi : slotHi Rt none 0 = some sk := by
          simp [slotHi, hRtkeys]
        rw [hslo, hshi]
        exact hLt2
      | succ i =>
        cases i with
        | zero =>
          rw [List.get?_cons_succ, List.get?_cons_zero] at hci hli
          have hc' : R.id = c := Option.some.inj hci
          have hl' : lR = l' := Option.some.inj hli
          subst hc'
          subst hl'
          have hslo : slotLo Rt none 1 = some sk := by
            simp [slotLo, hRtkeys]
          have hshi : slotHi Rt none 1 = none := by
            simp [slotHi, hRtkeys]
          rw [hslo, hshi, hRid]
          exact hRt2
        | succ i =>
          rw [List.get?_cons_succ, List.get?_cons_succ] at hci
          simp at hci
    · exact Or.inl (by rw [hRtch, hRtkeys]; rfl)
  · intro _
    refine ⟨by rw [hRtkeys]; simp, Or.inr (by rw [hRtch, hRtkeys]; rfl)⟩
  · rw [hLkeys, List.length_take, hplen]
    omega
  · rw [hRkeys, List.length_drop, hplen]
    omega
  · rw [hRtkeys]
    simp
    omega

theorem goodSub_node_elim [LinearOrder K] {ps : List (Page K V)}
    {N b d id : Nat} {lo hi : Option K} {l : List Nat}
    (h : GoodSub ps N b (d + 1) id lo hi l) :
    ∃ (p : Page K V) (idss : List (List Nat)),
      l = id :: idss.flatten ∧ id < N ∧ readPage ps id = some p ∧
      p.ptype = .interior ∧ p.keys ≠ [] ∧ p.keys.Sorted (· ≤ ·) ∧
      (∀ k ∈ p.keys, okLo lo k ∧ okHi hi k) ∧ runOK b lo p.keys ∧
      idss.length = p.children.length ∧
      (∀ i c l', p.children.get? i = some c → idss.get? i = some l' →
        GoodSub ps N b d c (slotLo p lo i) (slotHi p hi i) l') ∧
      (p.children.length = p.keys.length + 1 ∨
       (p.children.length = p.keys.length ∧
        ∃ u, hi = some u ∧ p.keys.getLast? = some u)) := by
  cases h with
  | node _ _ _ _ p idss hid hrd hty hne hsort hbnd hrun hlen hch hform =>
    exact ⟨p, idss, rfl, hid, hrd, hty, hne, hsort, hbnd, hrun, hlen,
      hch, hform⟩

theorem splitLoop_good [LinearOrder K] :
    ∀ (rvis : List Nat) (fuel : Nat) (s : BTree K V) (page : Page K V)
      (d : Nat) (lo hi : Option K) (ids : List Nat) (s' : BTree K V),
    IdsSorted s.pages →
    (∀ p ∈ s.pages, p.keys.length < s.b) →
    (∀ p ∈ s.pages, interiorShape p) →
    3 ≤ s.b →
    ids.Nodup →
    GoodSub (writePage s.pages page) s.next_id s.b s.depth s.root_id
      none none ids →
    PathUpF (writePage s.pages page) rvis page.id d lo hi s.root_id
      s.depth none none →
    page.keys.length = s.b →
    interiorShape page →
    rvis.length < fuel →
    splitLoop fuel s page rvis.head? rvis.tail = some s' →
    IdsSorted s'.pages ∧ s'.b = s.b ∧
    (∀ p ∈ s'.pages, interiorShape p) ∧
    (∀ p ∈ s'.pages, p.keys.length < s'.b) ∧
    ∃ ids', ids'.Nodup ∧
      GoodSub s'.pages s'.next_id s'.b s'.depth s'.root_id none none
        ids' := by
  intro rvis
  induction rvis with
  | nil =>
    intro fuel s page d lo hi ids s' hsort hkb hshape hb hnd hroot hpath
      hplen hpshape hfuel h
    cases fuel with
    | zero => simp at hfuel
    | succ fuel =>
      obtain ⟨h1, h2, h3, h4⟩ := hpath
      subst h2
      subst h3
      subst h4
      rw [List.head?_nil, List.tail_nil] at h
      simp only [splitLoop] at h
      rw [if_pos h1] at h
      simp only [Option.bind_eq_bind, Option.bind_eq_some] at h
      obtain ⟨⟨L, R, Rt⟩, hsr, h⟩ := h
      injection h with h
      subst h
      rw [← h1] at hroot
      obtain ⟨ids', hnd', hgood, hRtid, hRtshape, hLshape, hRshape,
        hLlt, hRlt, hRtlt⟩ :=
        splitRoot_good hsort hroot hnd hplen hb hpshape hsr
      refine ⟨writePage_sorted (writePage_sorted (writePage_sorted hsort)),
        rfl, ?_, ?_, ids', hnd', hgood⟩
      · intro p hp
        rcases writePage_mem hp with rfl | hp
        · exact hRtshape
        rcases writePage_mem hp with rfl | hp
        · exact hRshape
        rcases writePage_mem hp with rfl | hp
        · exact hLshape
        · exact hshape p hp
      · intro p hp
        rcases writePage_mem hp with rfl | hp
        · exact hRtlt
        rcases writePage_mem hp with rfl | hp
        · exact hRlt
        rcases writePage_mem hp with rfl | hp
        · exact hLlt
        · exact hkb p hp
  | cons par rest ih =>
    intro fuel s page d lo hi ids s' hsort hkb hshape hb hnd hroot hpath
      hplen hpshape hfuel h
    cases fuel with
    | zero => simp at hfuel
    | succ fuel =>
      rw [List.head?_cons, List.tail_cons] at h
      simp only [splitLoop] at h
      simp only [Option.bind_eq_bind, Option.bind_eq_some] at h
      obtain ⟨parent, hpar, h⟩ := h
      obtain ⟨⟨L, R, P⟩, hsp, h⟩ := h
      dsimp only at h
      obtain ⟨hble, sk, hsk, hdiv, pk, pc0, pc, hpk0, hpc00, hpcs, hPeq⟩ :=
        splitPage_spec hsp
      obtain ⟨hdle, hLid, hLty, hLkeys, hRid, hRty, hRkeys, hchint⟩ :=
        dividePage_spec hdiv
      obtain ⟨q, j, plo, phi, hrest, hqrd, hqty, hcj, hloeq, hhieq⟩ :=
        hpath
      obtain ⟨lq, hgq, hlqnd, hlqsub, hvisq, replQ⟩ :=
        pathSurgery hroot hnd rest par (d + 1) plo phi hrest
      obtain ⟨q', idss, hlqeq, hid, hqrd', hqty', hqne, hqsort, hqbnd,
        hqrun, hlen, hch, hform⟩ := goodSub_node_elim hgq
      subst hlqeq
      have hqq' : q = q' := by
        have h0 := hqrd
        rw [hqrd'] at h0
        exact (Option.some.inj h0).symm
      subst hqq'
      have hjlt : j < q.children.length := (List.get?_eq_some.1 hcj).1
      have hjidss : j < idss.length := by omega
      obtain ⟨lj, hlj⟩ : ∃ lj, idss.get? j = some lj :=
        ⟨_, List.get?_eq_get hjidss⟩
      have hgt : GoodSub (writePage s.pages page) s.next_id s.b d page.id
          lo hi lj := by
        rw [hloeq, hhieq]
        exact hch j page.id lj hcj hlj
      have hpagelj : page.id ∈ lj := goodSub_root_mem hgt
      have hljfl : ∀ x ∈ lj, x ∈ idss.flatten :=
        fun x hx => List.mem_flatten.2 ⟨lj, List.get?_mem hlj, hx⟩
      rw [List.nodup_cons] at hlqnd
      obtain ⟨hparnfl, hndfl⟩ := hlqnd
      have hparpage : page.id ≠ par := by
        intro hc
        refine hparnfl ?_
        rw [← hc]
        exact hljfl page.id hpagelj
      have hvppar : readPage (writePage s.pages page) par =
          readPage s.pages par := readPage_writePage_ne hparpage
      have hqparent : parent = q := by
        have h0 := hqrd
        rw [hvppar, hpar] at h0
        exact Option.some.inj h0
      subst hqparent
      have hparid : parent.id = par := readPage_id hpar
      have hvpself : readPage (writePage s.pages page) page.id =
          some page := readPage_writePage_self hsort
      have hidslt := goodSub_ids_lt hroot
      obtain ⟨hpsort, hpbnd, hprun⟩ := goodSub_root_facts hgt hvpself
      have hjk : j ≤ parent.keys.length := by
        rcases hform with h1 | ⟨h1, _⟩ <;> omega
      have hkplt : ∀ kp, parent.keys.get? (j - 1) = some kp → 0 < j →
          kp < sk := by
        intro kp hkp hj0
        have hslo : lo = some kp := by
          rw [hloeq]
          unfold slotLo
          rw [if_neg (by omega)]
          exact hkp
        refine run_lt_get hpsort ?_ (hprun kp hslo) (by omega) hsk
        intro y hy
        exact (hpbnd y hy).1 kp hslo
      have hbef : ∀ i x, i < j → parent.keys.get? i = some x →
          x < sk := by
        intro i x hij hxi
        obtain ⟨kp, hkp⟩ : ∃ kp, parent.keys.get? (j - 1) = some kp :=
          ⟨_, List.get?_eq_get (by omega)⟩
        exact lt_of_le_of_lt (sorted_get?_le hqsort (by omega) hxi hkp)
          (hkplt kp hkp (by omega))
      have haft0 : ∀ x, parent.keys.get? j = some x → ¬ x < sk := by
        intro x hxj
        have hshi : hi = some x := by
          rw [hhieq]
          simp only [slotHi, hxj]
        have hskmem : sk ∈ page.keys := List.get?_mem hsk
        exact not_lt.2 ((hpbnd sk hskmem).2 x hshi)
      have hidx : parent.find sk = j := findGo_eq sk parent.keys j hjk
        hbef haft0
      have haft : ∀ i x, j ≤ i → parent.keys.get? i = some x →
          sk ≤ x := by
        intro i x hji hxi
        have hilen : i < parent.keys.length := (List.get?_eq_some.1 hxi).1
        obtain ⟨y, hy⟩ : ∃ y, parent.keys.get? j = some y :=
          ⟨_, List.get?_eq_get (by omega)⟩
        exact le_trans (not_lt.1 (haft0 y hy))
          (sorted_get?_le hqsort hji hy hxi)
      have hult : ∀ u, plo = some u → u < sk := by
        intro u hu
        by_cases hj0 : j = 0
        · have hlop : lo = plo := by
            rw [hloeq, hj0]
            unfold slotLo
            rw [if_pos rfl]
          refine run_lt_get hpsort ?_ (hprun u (by rw [hlop]; exact hu))
            (by omega) hsk
          intro y hy
          exact (hpbnd y hy).1 u (by rw [hlop]; exact hu)
        · obtain ⟨kp, hkp⟩ : ∃ kp, parent.keys.get? (j - 1) = some kp :=
            ⟨_, List.get?_eq_get (by omega)⟩
          exact lt_of_le_of_lt ((hqbnd kp (List.get?_mem hkp)).1 u hu)
            (hkplt kp hkp (by omega))
      have hskhi : okHi phi sk := by
        intro u hu
        rcases hgj : parent.keys.get? j with _ | kj
        · have hhiphi : hi = phi := by
            rw [hhieq]
            simp only [slotHi, hgj]
          have hskmem : sk ∈ page.keys := List.get?_mem hsk
          exact (hpbnd sk hskmem).2 u (by rw [hhiphi]; exact hu)
        · exact le_trans (not_lt.1 (haft0 kj hgj))
            ((hqbnd kj (List.get?_mem hgj)).2 u hu)
      rw [hidx] at hpk0 hpc00 hpcs
      obtain ⟨hpk, hjk2⟩ := insIdx_eq hpk0
      obtain ⟨hpc0, hjc2⟩ := insIdx_eq hpc00
      obtain ⟨hpc, hjc3⟩ := setIdx_eq hpcs
      rw [hpc0, set_after_take hcj R.id] at hpc
      have hljnd : lj.Nodup := flatten_comp_nodup hndfl lj
        (List.get?_mem hlj)
      obtain ⟨lL, lR, hLt, hRt, hLnd, hRnd, hLRd, hLsub, hRsub⟩ :=
        goodSub_split hsort hgt hljnd hdiv hplen hb (Nat.le_refl _) hsk
      have hsortf : IdsSorted (writePage (writePage s.pages L) R) :=
        writePage_sorted (writePage_sorted hsort)
      have hPid : P.id = par := by
        rw [hPeq]
        exact hparid
      have hPty : P.ptype = .interior := by
        rw [hPeq]
        exact hqty
      have hPkeys : P.keys = pk := by rw [hPeq]
      have hPch : P.children = pc := by rw [hPeq]
      have hPklen : P.keys.length = parent.keys.length + 1 := by
        rw [hPkeys, hpk, List.length_append, List.length_cons,
          List.length_take, List.length_drop]
        omega
      have hagree : ∀ x, x ≠ par → x ≠ page.id → x ≠ s.next_id →
          readPage (writePage (writePage (writePage s.pages L) R) P) x =
            readPage (writePage s.pages page) x := by
        intro x h1 h2 h3
        rw [readPage_writePage_ne (by rw [hPid]; exact fun hc => h1 hc.symm),
          readPage_writePage_ne (by rw [hRid]; exact fun hc => h3 hc.symm),
          readPage_writePage_ne (by rw [hLid]; exact fun hc => h2 hc.symm),
          readPage_writePage_ne (fun hc => h2 hc.symm)]
      have hPrd : readPage (writePage (writePage (writePage s.pages L) R)
          P) par = some P := by
        have h0 : readPage (writePage (writePage (writePage s.pages L) R)
            P) P.id = some P := readPage_writePage_self hsortf
        rw [hPid] at h0
        exact h0
      have hparlj : par ∉ lj := fun hc => hparnfl (hljfl par hc)
      have hparids : par ∈ ids := hlqsub par (List.mem_cons_self par _)
      have hLt2 : GoodSub (writePage (writePage (writePage s.pages L) R)
          P) (s.next_id + 1) s.b d page.id lo (some sk) lL := by
        refine goodSub_agree hLt ?_
        intro x hx
        refine readPage_writePage_ne ?_
        rw [hPid]
        intro hc
        exact hparlj (hc ▸ hLsub x hx)
      have hRt2 : GoodSub (writePage (writePage (writePage s.pages L) R)
          P) (s.next_id + 1) s.b d s.next_id (some sk) hi lR := by
        refine goodSub_agree hRt ?_
        intro x hx
        refine readPage_writePage_ne ?_
        rw [hPid]
        intro hc
        rcases hRsub x hx with hc2 | hc2
        · exact hparlj (hc ▸ hc2)
        · rw [hc2] at hc
          have := hidslt par hparids
          omega
      have hcomp : ∀ i c l', i ≠ j → parent.children.get? i = some c →
          idss.get? i = some l' →
          GoodSub (writePage (writePage (writePage s.pages L) R) P)
            (s.next_id + 1) s.b d c (slotLo parent plo i)
            (slotHi parent phi i) l' := by
        intro i c l' hij hci hli
        refine goodSub_monoN (by omega)
          (goodSub_agree (hch i c l' hci hli) ?_)
        intro x hx
        have hxfl : x ∈ idss.flatten :=
          List.mem_flatten.2 ⟨l', List.get?_mem hli, hx⟩
        have hxlj : x ∉ lj := by
          intro hc
          rcases Nat.lt_or_ge i j with h1 | h1
          · exact flatten_comp_disj idss i j l' lj hndfl h1 hli hlj x hx hc
          · exact flatten_comp_disj idss j i lj l' hndfl (by omega) hlj
              hli x hc hx
        refine hagree x ?_ ?_ ?_
        · intro hc
          exact hparnfl (hc ▸ hxfl)
        · intro hc
          refine hxlj ?_
          rw [hc]
          exact hpagelj
        · intro hc
          have := hidslt x (hlqsub x (List.mem_cons_of_mem par hxfl))
          omega
      have hPne : P.keys ≠ [] := by
        intro hc
        have := congrArg List.length hc
        rw [hPklen] at this
        simp at this
      have hPsort : P.keys.Sorted (· ≤ ·) := by
        rw [hPkeys, hpk]
        exact sorted_insert_at hqsort
          (fun i x hij hx => le_of_lt (hbef i x hij hx)) haft
      have hPbnd : ∀ k ∈ P.keys, okLo plo k ∧ okHi phi k := by
        rw [hPkeys, hpk]
        intro k hk
        rcases List.mem_append.1 hk with hk | hk
        · obtain ⟨j', hj', hg⟩ := mem_take_get? hk
          exact hqbnd k (List.get?_mem hg)
        · rcases List.mem_cons.1 hk with rfl | hk
          · exact ⟨fun u hu => le_of_lt (hult u hu), hskhi⟩
          · obtain ⟨j', hj', hg⟩ := mem_drop_get? hk
            exact hqbnd k (List.get?_mem hg)
      have hPrun : runOK s.b plo P.keys := by
        intro u hu
        rw [hPkeys, hpk,
          keyRun_insert (ne_of_gt (hult u hu)) hjk haft (hult u hu)]
        exact hqrun u hu
      have hlen' : (idss.take j ++ lL :: lR :: idss.drop (j + 1)).length =
          P.children.length := by
        rw [hPch, hpc]
        simp only [List.length_append, List.length_cons, List.length_take,
          List.length_drop]
        omega
      have hgetc : ∀ i, P.children.get? i =
          if i < j then parent.children.get? i
          else if i = j then some page.id
          else if i = j + 1 then some R.id
          else parent.children.get? (i - 1) := by
        intro i
        rw [hPch, hpc]
        exact get?_splice2 (by omega) page.id R.id i
      have hgetk : ∀ i, P.keys.get? i =
          if i < j then parent.keys.get? i
          else if i = j then some sk
          else parent.keys.get? (i - 1) := by
        intro i
        rw [hPkeys, hpk]
        exact get?_splice1 hjk sk i
      have hch' : ∀ i c l',
          P.children.get? i = some c →
          (idss.take j ++ lL :: lR :: idss.drop (j + 1)).get? i =
            some l' →
          GoodSub (writePage (writePage (writePage s.pages L) R) P)
            (s.next_id + 1) s.b d c (slotLo P plo i) (slotHi P phi i)
            l' := by
        intro i c l' hci hli
        rw [hgetc i] at hci
        rw [get?_splice2 (by omega) lL lR i] at hli
        by_cases h1 : i < j
        · rw [if_pos h1] at hci hli
          have hsl : slotLo P plo i = slotLo parent plo i := by
            unfold slotLo
            by_cases h0 : i = 0
            · rw [if_pos h0, if_pos h0]
            · rw [if_neg h0, if_neg h0, hgetk (i - 1), if_pos (by omega)]
          have hsh : slotHi P phi i = slotHi parent phi i := by
            unfold slotHi
            rw [hgetk i, if_pos h1]
          rw [hsl, hsh]
          exact hcomp i c l' (by omega) hci hli
        · by_cases h2 : i = j
          · subst h2
            rw [if_neg h1, if_pos rfl] at hci hli
            have hc' : page.id = c := Option.some.inj hci
            subst hc'
            have hl' : lL = l' := Option.some.inj hli
            subst hl'
            have hsl : slotLo P plo i = lo := by
              rw [hloeq]
              unfold slotLo
              by_cases h0 : i = 0
              · rw [if_pos h0, if_pos h0]
              · rw [if_neg h0, if_neg h0, hgetk (i - 1),
                  if_pos (by omega)]
            have hsh : slotHi P phi i = some sk := by
              unfold slotHi
              rw [hgetk i, if_neg h1, if_pos rfl]
            rw [hsl, hsh]
            exact hLt2
          · by_cases h3 : i = j + 1
            · subst h3
              rw [if_neg h1, if_neg h2, if_pos rfl] at hci hli
              have hc' : R.id = c := Option.some.inj hci
              subst hc'
              have hl' : lR = l' := Option.some.inj hli
              subst hl'
              have hsl : slotLo P plo (j + 1) = some sk := by
                unfold slotLo
                rw [if_neg (by omega)]
                have he : j + 1 - 1 = j := by omega
                rw [he, hgetk j, if_neg (by omega), if_pos rfl]
              have hsh : slotHi P phi (j + 1) = hi := by
                rw [hhieq]
                unfold slotHi
                rw [hgetk (j + 1), if_neg (by omega), if_neg (by omega)]
                have he : j + 1 - 1 = j := by omega
                rw [he]
              rw [hsl, hsh, hRid]
              exact hRt2
            · rw [if_neg h1, if_neg h2, if_neg h3] at hci hli
              have hsl : slotLo P plo i = slotLo parent plo (i - 1) := by
                unfold slotLo
                rw [if_neg (by omega), if_neg (by omega), hgetk (i - 1),
                  if_neg (by omega), if_neg (by omega)]
              have hsh : slotHi P phi i = slotHi parent phi (i - 1) := by
                unfold slotHi
                rw [hgetk i, if_neg h1, if_neg h2]
              rw [hsl, hsh]
              exact hcomp (i - 1) c l' (by omega) hci hli
      have hformP : P.children.length = P.keys.length + 1 ∨
          (P.children.length = P.keys.length ∧
           ∃ u, phi = some u ∧ P.keys.getLast? = some u) := by
        have hPchlen2 : P.children.length = parent.children.length + 1 := by
          rw [hPch, hpc]
          simp only [List.length_append, List.length_cons,
            List.length_take, List.length_drop]
          omega
        rcases hform with h1 | ⟨h1, u, hu, hlast⟩
        · exact Or.inl (by rw [hPchlen2, hPklen, h1])
        · refine Or.inr ⟨by rw [hPchlen2, hPklen, h1], u, hu, ?_⟩
          have hjklt : j < parent.keys.length := by omega
          have hdj : parent.keys.drop j ≠ [] := by
            intro hc
            have := congrArg List.length hc
            rw [List.length_drop] at this
            simp at this
            omega
          have hdj2 : sk :: parent.keys.drop j ≠ [] := by simp
          have hcons : sk :: parent.keys.drop j =
              [sk] ++ parent.keys.drop j := rfl
          rw [hPkeys, hpk, getLast?_app hdj2, hcons, getLast?_app hdj,
            getLast?_drop hjklt]
          exact hlast
      have hPshape : interiorShape P := by
        intro _
        refine ⟨hPne, ?_⟩
        rcases hformP with h1 | ⟨h1, _⟩
        · exact Or.inr h1
        · exact Or.inl h1
      have hnode : GoodSub
          (writePage (writePage (writePage s.pages L) R) P)
          (s.next_id + 1) s.b (d + 1) par plo phi
          (par :: (idss.take j ++ lL :: lR :: idss.drop (j + 1)).flatten) :=
        GoodSub.node d par plo phi P
          (idss.take j ++ lL :: lR :: idss.drop (j + 1)) (by omega) hPrd
          hPty hPne hPsort hPbnd hPrun hlen' hch' hformP
      obtain ⟨hfl1, hfl2⟩ := flatten_splice2 hlj lL lR
      have hndf' :
          (idss.take j ++ lL :: lR :: idss.drop (j + 1)).flatten.Nodup := by
        rw [hfl2]
        refine splice2_flatten_nodup (by rw [← hfl1]; exact hndfl) hLnd
          hRnd hLRd hLsub hRsub ?_
        rw [← hfl1]
        intro hc
        have := hidslt s.next_id (hlqsub s.next_id
          (List.mem_cons_of_mem par hc))
        omega
      have hparnfl' :
          par ∉ (idss.take j ++ lL :: lR :: idss.drop (j + 1)).flatten := by
        rw [hfl2]
        intro hc
        simp only [List.mem_append] at hc
        rcases hc with hc | hc | hc | hc
        · refine hparnfl ?_
          rw [hfl1]
          exact List.mem_append_left _ hc
        · exact hparlj (hLsub par hc)
        · rcases hRsub par hc with hc2 | hc2
          · exact hparlj hc2
          · have := hidslt par hparids
            omega
        · refine hparnfl ?_
          rw [hfl1]
          exact List.mem_append_right _ (List.mem_append_right _ hc)
      have hnodeNd :
          (par ::
            (idss.take j ++ lL :: lR :: idss.drop (j + 1)).flatten).Nodup :=
        List.nodup_cons.2 ⟨hparnfl', hndf'⟩
      have hag' : ∀ i ∈ ids, i ∉ par :: idss.flatten →
          readPage (writePage (writePage (writePage s.pages L) R) P) i =
            readPage (writePage s.pages page) i := by
        intro i hi hni
        refine hagree i ?_ ?_ ?_
        · intro hc
          refine hni ?_
          rw [hc]
          exact List.mem_cons_self par _
        · intro hc
          refine hni ?_
          rw [hc]
          exact List.mem_cons_of_mem par (hljfl page.id hpagelj)
        · intro hc
          have := hidslt i hi
          omega
      have hdisj' : ∀ x ∈
          (par ::
            (idss.take j ++ lL :: lR :: idss.drop (j + 1)).flatten),
          x ∈ ids → x ∈ par :: idss.flatten := by
        intro x hx hxids
        rcases List.mem_cons.1 hx with rfl | hx
        · exact List.mem_cons_self x _
        · rw [hfl2] at hx
          simp only [List.mem_append] at hx
          rcases hx with hx | hx | hx | hx
          · refine List.mem_cons_of_mem par ?_
            rw [hfl1]
            exact List.mem_append_left _ hx
          · exact List.mem_cons_of_mem par (hljfl x (hLsub x hx))
          · rcases hRsub x hx with hc | hc
            · exact List.mem_cons_of_mem par (hljfl x hc)
            · have := hidslt x hxids
              omega
          · refine List.mem_cons_of_mem par ?_
            rw [hfl1]
            exact List.mem_append_right _ (List.mem_append_right _ hx)
      obtain ⟨idsf, hgf, hndf⟩ := replQ
        (writePage (writePage (writePage s.pages L) R) P)
        (s.next_id + 1) _ hnode hnodeNd hag' hdisj' (by omega)
      have hkbf : ∀ p ∈ writePage (writePage s.pages L) R,
          p.keys.length < s.b := by
        intro p hp
        rcases writePage_mem hp with rfl | hp
        · rw [hRkeys, List.length_drop, hplen]
          omega
        rcases writePage_mem hp with rfl | hp
        · rw [hLkeys, List.length_take, hplen]
          omega
        · exact hkb p hp
      obtain ⟨hLshape, hRshape⟩ := divide_shape hdiv hplen hb hpshape
      have hshf : ∀ p ∈ writePage (writePage s.pages L) R,
          interiorShape p := by
        intro p hp
        rcases writePage_mem hp with rfl | hp
        · exact hRshape
        rcases writePage_mem hp with rfl | hp
        · exact hLshape
        · exact hshape p hp
      by_cases hPlt : P.keys.length < s.b
      · rw [if_pos hPlt] at h
        injection h with h
        subst h
        refine ⟨writePage_sorted hsortf, rfl, ?_, ?_, idsf, hndf, hgf⟩
        · intro p hp
          rcases writePage_mem hp with rfl | hp
          · exact hPshape
          · exact hshf p hp
        · intro p hp
          rcases writePage_mem hp with rfl | hp
          · exact hPlt
          · exact hkbf p hp
      · rw [if_neg hPlt] at h
        have hagrest : ∀ x ∈ rest,
            readPage (writePage (writePage (writePage s.pages L) R) P)
              x = readPage (writePage s.pages page) x := by
          intro x hx
          obtain ⟨hxids, hxnlq⟩ := hvisq x hx
          exact hag' x hxids hxnlq
        have hpath' : PathUpF
            (writePage (writePage (writePage s.pages L) R) P) rest par
            (d + 1) plo phi s.root_id s.depth none none :=
          pathUpF_agree rest par (d + 1) plo phi s.root_id s.depth none
            none hrest hagrest
        rw [← hPid] at hpath'
        have hPlen' : P.keys.length = s.b := by
          have := hkb parent (readPage_mem hpar)
          omega
        have hflen : rest.length < fuel := by
          rw [List.length_cons] at hfuel
          omega
        exact ih fuel
          { s with
              pages := writePage (writePage s.pages L) R,
              next_id := s.next_id + 1 }
          P (d + 1) plo phi idsf s' hsortf
          hkbf hshf hb hndf hgf hpath' hPlen' hPshape hflen h

theorem leafShape {q : Page K V} (h : q.ptype = .leaf) :
    interiorShape q := by
  intro hc
  rw [h] at hc
  cases hc

theorem remIdx_eq {l l' : List α} {i : Nat}
    (h : remIdx l i = some l') : l' = l.eraseIdx i ∧ i < l.length := by
  unfold remIdx at h
  by_cases hi : i < l.length
  · rw [if_pos hi] at h
    exact ⟨(Option.some.inj h).symm, hi⟩
  · rw [if_neg hi] at h
    cases h

theorem pathUpF_length [LinearOrder K] {ps : List (Page K V)} :
    ∀ (vis : List Nat) (target d : Nat) (lo hi : Option K)
      (start dstart : Nat) (slo shi : Option K),
    PathUpF ps vis target d lo hi start dstart slo shi →
    d + vis.length = dstart := by
  intro vis
  induction vis with
  | nil =>
    intro target d lo hi start dstart slo shi h
    obtain ⟨_, h2, _, _⟩ := h
    rw [List.length_nil]
    omega
  | cons par rest ih =>
    intro target d lo hi start dstart slo shi h
    obtain ⟨q, j, plo, phi, hrest, _⟩ := h
    have := ih par (d + 1) plo phi start dstart slo shi hrest
    rw [List.length_cons]
    omega

theorem goodSub_leaf_elim [LinearOrder K] {ps : List (Page K V)}
    {N b id : Nat} {lo hi : Option K} {l : List Nat}
    (h : GoodSub ps N b 0 id lo hi l) :
    l = [id] ∧ id < N ∧ ∃ p, readPage ps id = some p ∧
      p.ptype = .leaf ∧ p.keys.Sorted (· ≤ ·) ∧
      (∀ k ∈ p.keys, okLo lo k ∧ okHi hi k) ∧ runOK b lo p.keys := by
  cases h with
  | leaf id lo hi p hid hrd hty hsort hbnd hrun =>
    exact ⟨rfl, hid, p, hrd, hty, hsort, hbnd, hrun⟩

theorem insertTail_good [LinearOrder K] {s s' : BTree K V}
    {pushed : List Nat} {page2 : Page K V} {r : InsRes} {ids : List Nat}
    {llo lhi : Option K}
    (hsort : IdsSorted s.pages)
    (hkb : ∀ p ∈ s.pages, p.keys.length < s.b)
    (hshape : ∀ p ∈ s.pages, interiorShape p)
    (hb : 3 ≤ s.b) (hnd : ids.Nodup)
    (hgood : GoodSub s.pages s.next_id s.b s.depth s.root_id none none
      ids)
    (hpath : PathUpF s.pages pushed page2.id 0 llo lhi s.root_id s.depth
      none none)
    (hp2ty : page2.ptype = .leaf)
    (hp2sort : page2.keys.Sorted (· ≤ ·))
    (hp2bnd : ∀ k ∈ page2.keys, okLo llo k ∧ okHi lhi k)
    (hp2run : runOK s.b llo page2.keys)
    (hp2len : page2.keys.length ≤ s.b)
    (h : (if page2.keys.length < s.b then
        some (({ s with pages := writePage s.pages page2 } : BTree K V),
          InsRes.ok)
      else (splitLoop (s.depth + 1) s page2 pushed.head? pushed.tail).bind
        fun s1 => some (s1, InsRes.ok)) = some (s', r)) :
    IdsSorted s'.pages ∧ s'.b = s.b ∧
    (∀ p ∈ s'.pages, interiorShape p) ∧
    (∀ p ∈ s'.pages, p.keys.length < s'.b) ∧ TreeInv s' := by
  obtain ⟨lt, hglt, hltnd, hltsub, hvismem, repl⟩ :=
    pathSurgery hgood hnd pushed page2.id 0 llo lhi hpath
  obtain ⟨hlteq, hidN, p, hprd, hpty2, hpsort, hpbnd, hprun⟩ :=
    goodSub_leaf_elim hglt
  subst hlteq
  have hnewleaf : GoodSub (writePage s.pages page2) s.next_id s.b 0
      page2.id llo lhi [page2.id] :=
    GoodSub.leaf page2.id llo lhi page2 hidN
      (readPage_writePage_self hsort) hp2ty hp2sort hp2bnd hp2run
  obtain ⟨idsv, hgv, hndv⟩ := repl (writePage s.pages page2) s.next_id
    [page2.id] hnewleaf (by simp)
    (fun i _ hni => readPage_writePage_ne
      (fun hc => hni (by rw [← hc]; exact List.mem_singleton.2 rfl)))
    (fun x hx _ => hx) (Nat.le_refl _)
  by_cases hlt : page2.keys.length < s.b
  · rw [if_pos hlt] at h
    cases h
    refine ⟨writePage_sorted hsort, rfl, ?_, ?_, idsv, hndv, hgv⟩
    · intro q hq
      rcases writePage_mem hq with rfl | hq
      · exact leafShape hp2ty
      · exact hshape q hq
    · intro q hq
      rcases writePage_mem hq with rfl | hq
      · exact hlt
      · exact hkb q hq
  · rw [if_neg hlt] at h
    simp only [Option.bind_eq_some] at h
    obtain ⟨s1, hsl, h⟩ := h
    simp only [Option.some.injEq, Prod.mk.injEq] at h
    obtain ⟨h1, h2⟩ := h
    subst h1
    have hpath' : PathUpF (writePage s.pages page2) pushed page2.id 0
        llo lhi s.root_id s.depth none none := by
      refine pathUpF_agree pushed page2.id 0 llo lhi s.root_id s.depth
        none none hpath ?_
      intro x hx
      refine readPage_writePage_ne ?_
      intro hc
      exact (hvismem x hx).2 (by rw [← hc]; exact List.mem_singleton.2 rfl)
    have hflen : pushed.length < s.depth + 1 := by
      have := pathUpF_length pushed page2.id 0 llo lhi s.root_id s.depth
        none none hpath
      omega
    exact splitLoop_good pushed (s.depth + 1) s page2 0 llo lhi idsv s1
      hsort hkb hshape hb hndv hgv hpath' (by omega) (leafShape hp2ty)
      hflen hsl

theorem insertSpliced_good [LinearOrder K] {s s' : BTree K V}
    {pushed : List Nat} {lid : Nat} {leaf : Page K V}
    {llo lhi : Option K} {idx : Nat} {key : K} {val : V} {r : InsRes}
    {ids : List Nat}
    (hsort : IdsSorted s.pages)
    (hkb : ∀ p ∈ s.pages, p.keys.length < s.b)
    (hshape : ∀ p ∈ s.pages, interiorShape p)
    (hb : 3 ≤ s.b) (hnd : ids.Nodup)
    (hgood : GoodSub s.pages s.next_id s.b s.depth s.root_id none none
      ids)
    (hpath : PathUpF s.pages pushed lid 0 llo lhi s.root_id s.depth
      none none)
    (hlrd : readPage s.pages lid = some leaf)
    (hslo : stLo llo key) (hshi : okHi lhi key)
    (hsplice : leaf.keys.Sorted (· ≤ ·) →
      idx ≤ leaf.keys.length ∧
      (∀ j x, j < idx → leaf.keys.get? j = some x → x ≤ key) ∧
      (∀ j x, idx ≤ j → leaf.keys.get? j = some x → key ≤ x))
    (h : insertSpliced s pushed leaf idx key val = some (s', r)) :
    IdsSorted s'.pages ∧ s'.b = s.b ∧
    (∀ p ∈ s'.pages, interiorShape p) ∧
    (∀ p ∈ s'.pages, p.keys.length < s'.b) ∧ TreeInv s' := by
  have hlid : leaf.id = lid := readPage_id hlrd
  obtain ⟨lt, hglt, hltnd, hltsub, hvismem, repl⟩ :=
    pathSurgery hgood hnd pushed lid 0 llo lhi hpath
  obtain ⟨hlteq, hidN, p, hprd, hpty, hpsort, hpbnd, hprun⟩ :=
    goodSub_leaf_elim hglt
  have hple : leaf = p := by
    have h0 := hprd
    rw [hlrd] at h0
    exact Option.some.inj h0
  subst hple
  obtain ⟨hidxle, hbef, haft⟩ := hsplice hpsort
  have hleafkb : leaf.keys.length < s.b := hkb leaf (readPage_mem hlrd)
  unfold insertSpliced at h
  simp only [Option.bind_eq_bind, Option.bind_eq_some] at h
  obtain ⟨keys1, hk1, h⟩ := h
  obtain ⟨vals1, hv1, h⟩ := h
  obtain ⟨del1, hd1, h⟩ := h
  obtain ⟨hk1e, hk1le⟩ := insIdx_eq hk1
  have hk1len := insIdx_length hk1
  have hks1 : keys1.Sorted (· ≤ ·) := by
    rw [hk1e]
    exact sorted_insert_at hpsort hbef haft
  have hbnd1 : ∀ k' ∈ keys1, okLo llo k' ∧ okHi lhi k' := by
    rw [hk1e]
    intro k' hk'
    rcases List.mem_append.1 hk' with hk' | hk'
    · obtain ⟨j', hj', hg⟩ := mem_take_get? hk'
      exact hpbnd k' (List.get?_mem hg)
    · rcases List.mem_cons.1 hk' with rfl | hk'
      · exact ⟨fun u hu => le_of_lt (hslo u hu), hshi⟩
      · obtain ⟨j', hj', hg⟩ := mem_drop_get? hk'
        exact hpbnd k' (List.get?_mem hg)
  have hrun1 : runOK s.b llo keys1 := by
    intro u hu
    rw [hk1e, keyRun_insert (ne_of_gt (hslo u hu)) hidxle haft
      (hslo u hu)]
    exact hprun u hu
  have hpathL : PathUpF s.pages pushed leaf.id 0 llo lhi s.root_id
      s.depth none none := by
    rw [hlid]
    exact hpath
  rcases hcomp : del1.reverse.findIdx? (fun b => b) with _ | i <;>
    simp only [hcomp] at h
  · simp only [Option.some_bind] at h
    exact @insertTail_good K V _ s s' pushed
      { leaf with keys := keys1, vals := vals1, deleted := del1 } r ids
      llo lhi hsort hkb hshape hb hnd hgood hpathL hpty hks1 hbnd1 hrun1
      (by dsimp only; omega) h
  · simp only [Option.bind_eq_some, Option.some_bind] at h
    obtain ⟨d2, hd2, h⟩ := h
    obtain ⟨k2, hk2, h⟩ := h
    obtain ⟨v2, hv2, h⟩ := h
    obtain ⟨hk2e, hk2lt⟩ := remIdx_eq hk2
    have hk2len := remIdx_length hk2
    have hks2 : k2.Sorted (· ≤ ·) := by
      rw [hk2e]
      exact hks1.sublist (List.eraseIdx_sublist keys1 i)
    have hbnd2 : ∀ k' ∈ k2, okLo llo k' ∧ okHi lhi k' := by
      intro k' hk'
      refine hbnd1 k' ?_
      rw [hk2e] at hk'
      exact (List.eraseIdx_sublist keys1 i).mem hk'
    have hrun2 : runOK s.b llo k2 := by
      intro u hu
      rw [hk2e]
      exact le_trans
        (keyRun_eraseIdx_le hks1
          (fun x hx => (hbnd1 x hx).1 u hu) i)
        (hrun1 u hu)
    exact @insertTail_good K V _ s s' pushed
      { leaf with keys := k2, vals := v2, deleted := d2 } r ids
      llo lhi hsort hkb hshape hb hnd hgood hpathL hpty hks2 hbnd2 hrun2
      (by dsimp only; omega) h

theorem insert_good [LinearOrder K] {s : BTree K V} {key : K} {val : V}
    {s' : BTree K V} {r : InsRes}
    (hsort : IdsSorted s.pages)
    (hkb : ∀ p ∈ s.pages, p.keys.length < s.b)
    (hshape : ∀ p ∈ s.pages, interiorShape p)
    (hb : 3 ≤ s.b)
    (hnd0 : ∃ ids, ids.Nodup ∧
      GoodSub s.pages s.next_id s.b s.depth s.root_id none none ids)
    (h : s.insert key val = some (s', r)) :
    IdsSorted s'.pages ∧ s'.b = s.b ∧
    (∀ p ∈ s'.pages, interiorShape p) ∧
    (∀ p ∈ s'.pages, p.keys.length < s'.b) ∧ TreeInv s' := by
  obtain ⟨ids, hnd, hgood⟩ := hnd0
  obtain ⟨pushed, lid, leaf, llo, lhi, hins, hfl, hpath, hlrd, hlty,
    hslo, hshi⟩ :=
    descendGood key s.depth s.root_id none none ids [] hgood
      (fun u hu => (nomatch hu)) (fun u hu => (nomatch hu))
  unfold BTree.insert at h
  simp only [Option.bind_eq_bind, Option.bind_eq_some] at h
  obtain ⟨⟨vis, lid0⟩, hdesc, h⟩ := h
  rw [hins] at hdesc
  injection hdesc with hdesc
  injection hdesc with hv hl
  subst hv
  subst hl
  rw [List.append_nil] at h
  obtain ⟨page0, hrd, h⟩ := h
  have hpl : leaf = page0 := by
    have h0 := hlrd
    rw [hrd] at h0
    exact (Option.some.inj h0).symm
  subst hpl
  have hlid : leaf.id = lid := readPage_id hlrd
  rcases hbs : rustBS leaf.keys key with idx | idx <;>
    simp only [hbs] at h
  · by_cases hu : s.is_unique
    · rw [if_pos hu] at h
      simp only [Option.bind_eq_bind, Option.bind_eq_some] at h
      obtain ⟨dflag, hd, h⟩ := h
      by_cases hdt : dflag = true
      · subst hdt
        rw [if_pos rfl] at h
        simp only [Option.bind_eq_bind, Option.bind_eq_some] at h
        obtain ⟨vals1, hv1, h⟩ := h
        obtain ⟨del1, hd1, h⟩ := h
        cases h
        have hleafkb : leaf.keys.length < s.b :=
          hkb leaf (readPage_mem hlrd)
        have hpgty :
            ({ leaf with vals := vals1, deleted := del1 } : Page K V).ptype =
              PageType.leaf := hlty
        refine ⟨writePage_sorted hsort, rfl, ?_, ?_, ids, hnd, ?_⟩
        · intro q hq
          rcases writePage_mem hq with rfl | hq
          · exact leafShape hpgty
          · exact hshape q hq
        · intro q hq
          rcases writePage_mem hq with rfl | hq
          · exact hleafkb
          · exact hkb q hq
        · refine goodSub_keep hgood ?_
          intro i hi pp hpp
          by_cases hil : i = lid
          · subst hil
            have hppleaf : leaf = pp := by
              have h0 := hpp
              rw [hlrd] at h0
              exact Option.some.inj h0
            subst hppleaf
            refine ⟨{ leaf with vals := vals1, deleted := del1 }, ?_,
              rfl, rfl, rfl⟩
            rw [← hlid]
            exact readPage_writePage_self hsort
          · refine ⟨pp, ?_, rfl, rfl, rfl⟩
            show readPage
              (writePage s.pages { leaf with vals := vals1, deleted := del1 })
              i = some pp
            rw [@readPage_writePage_ne K V s.pages
              { leaf with vals := vals1, deleted := del1 } i
              (fun hc => hil (hc.symm.trans hlid))]
            exact hpp
      · rw [if_neg hdt] at h
        cases h
        exact ⟨hsort, rfl, hshape, hkb, ids, hnd, hgood⟩
    · rw [if_neg hu] at h
      have hky : leaf.keys.get? idx = some key := rustBS_ok hbs
      refine insertSpliced_good hsort hkb hshape hb hnd hgood hpath hlrd
        hslo hshi ?_ h
      intro hs0
      refine ⟨by
        have := (List.get?_eq_some.1 hky).1
        omega, ?_, ?_⟩
      · intro j x hj hx
        have := sorted_get?_le hs0 (by omega) hx hky
        exact this
      · intro j x hj hx
        have := sorted_get?_le hs0 hj hky hx
        exact this
  · refine insertSpliced_good hsort hkb hshape hb hnd hgood hpath hlrd
      hslo hshi ?_ h
    intro hs0
    exact rustBS_err hs0 hbs

theorem pagesFrame_mem_right [DecidableEq K] {key : K} :
    ∀ {ps qs : List (Page K V)}, PagesFrame key ps qs →
    ∀ {q : Page K V}, q ∈ qs → ∃ p ∈ ps, PageFrame key p q := by
  intro ps qs h
  induction h with
  | nil => intro q hq; cases hq
  | @cons a b l₁ l₂ hpq htail ih =>
    intro q hq
    rcases List.mem_cons.1 hq with rfl | hq
    · exact ⟨a, List.mem_cons_self a _, hpq⟩
    · obtain ⟨p, hp, hfr⟩ := ih hq
      exact ⟨p, List.mem_cons_of_mem a hp, hfr⟩

theorem delete_good [LinearOrder K] {s : BTree K V} {key : K}
    {fuel : Nat} {s' : BTree K V} {r : Option Nat}
    (hsort : IdsSorted s.pages)
    (hkb : ∀ p ∈ s.pages, p.keys.length < s.b)
    (hshape : ∀ p ∈ s.pages, interiorShape p)
    (hinv : ∃ ids, ids.Nodup ∧
      GoodSub s.pages s.next_id s.b s.depth s.root_id none none ids)
    (h : s.delete key fuel = some (s', r)) :
    IdsSorted s'.pages ∧ s'.b = s.b ∧
    (∀ p ∈ s'.pages, interiorShape p) ∧
    (∀ p ∈ s'.pages, p.keys.length < s'.b) ∧ TreeInv s' := by
  obtain ⟨ids, hnd, hgood⟩ := hinv
  unfold BTree.delete at h
  simp only [Option.bind_eq_bind, Option.bind_eq_some] at h
  obtain ⟨start, hstart, h⟩ := h
  obtain ⟨⟨ps1, n1⟩, hloop, h⟩ := h
  have hF := deleteLoop_frame key fuel s.pages s.pages start 0 ps1 n1
    hsort (pagesFrame_refl key s.pages) hloop
  have hc1 : IdsSorted ps1 := pagesFrame_sorted hsort hF
  have hc2 : ∀ p ∈ ps1, interiorShape p := by
    intro q hq
    obtain ⟨p, hp, hfr⟩ := pagesFrame_mem_right hF hq
    intro hc
    rw [hfr.2.1] at hc
    obtain ⟨hne, hlen⟩ := hshape p hp hc
    constructor
    · rw [hfr.2.2.1]
      exact hne
    · rw [hfr.2.2.1, hfr.2.2.2.2.1]
      exact hlen
  have hc3 : ∀ p ∈ ps1, p.keys.length < s.b := by
    intro q hq
    obtain ⟨p, hp, hfr⟩ := pagesFrame_mem_right hF hq
    rw [hfr.2.2.1]
    exact hkb p hp
  have hc4 : GoodSub ps1 s.next_id s.b s.depth s.root_id none none ids := by
    refine goodSub_keep hgood ?_
    intro i hi p hp
    obtain ⟨q, hq, hfr⟩ := pagesFrame_read hF hp
    exact ⟨q, hq, hfr.2.1, hfr.2.2.1, hfr.2.2.2.2.1⟩
  by_cases hn : n1 > 0
  · rw [if_pos hn] at h
    cases h
    exact ⟨hc1, rfl, hc2, hc3, ids, hnd, hc4⟩
  · rw [if_neg hn] at h
    cases h
    exact ⟨hc1, rfl, hc2, hc3, ids, hnd, hc4⟩

theorem reachable_good [LinearOrder K] {s : BTree K V}
    (h : Reachable s) :
    IdsSorted s.pages ∧ 3 ≤ s.b ∧
    (∀ p ∈ s.pages, interiorShape p) ∧
    (∀ p ∈ s.pages, p.keys.length < s.b) ∧ TreeInv s := by
  induction h with
  | init b u hb1 hb2 =>
    refine ⟨?_, (by show 3 ≤ b; omega), ?_, ?_, [0], by simp, ?_⟩
    · show List.Pairwise _ [_]
      exact List.pairwise_singleton _ _
    · intro p hp
      rcases List.mem_singleton.1 hp with rfl
      exact leafShape rfl
    · intro p hp
      rcases List.mem_singleton.1 hp with rfl
      show 0 < b
      omega
    · refine GoodSub.leaf 0 none none
        { id := 0, ptype := .leaf, deleted := [], keys := [], vals := [],
          children := [], sibling := none }
        (by show (0 : Nat) < 1; omega) rfl rfl (by simp) (by simp) ?_
      intro u hu
      simp [keyRun]
  | ins s k v s' r hre hins ih =>
    obtain ⟨hsort, hb, hshape, hkb, hinv⟩ := ih
    obtain ⟨hs1, hb1, hsh1, hkb1, hinv1⟩ :=
      insert_good hsort hkb hshape hb hinv hins
    exact ⟨hs1, by omega, hsh1, hkb1, hinv1⟩
  | del s k fuel s' r hre hdel ih =>
    obtain ⟨hsort, hb, hshape, hkb, hinv⟩ := ih
    obtain ⟨hs1, hb1, hsh1, hkb1, hinv1⟩ :=
      delete_good hsort hkb hshape hinv hdel
    exact ⟨hs1, by omega, hsh1, hkb1, hinv1⟩

/-- C10: in every tree reachable by any sequence of public operations,
every interior page held in the pager has a non-empty children list
whose length equals its key count or its key count plus one, and the
descent of find_leaf and of the insert path never indexes the children
list out of bounds: for every key both complete, reaching a leaf page. -/
theorem C10_interior_shape_descent [LinearOrder K] {s : BTree K V}
    (hreach : Reachable s) :
    (∀ p ∈ s.pages, p.ptype = .interior →
      p.children ≠ [] ∧
      (p.children.length = p.keys.length ∨
       p.children.length = p.keys.length + 1)) ∧
    ∀ key : K, ∃ (vis : List Nat) (lid : Nat) (leaf : Page K V),
      insDescend s.pages key s.depth s.root_id [] = some (vis, lid) ∧
      s.find_leaf key = some lid ∧
      readPage s.pages lid = some leaf ∧ leaf.ptype = .leaf := by
  obtain ⟨hsort, hb, hshape, hkb, ids, hnd, hgood⟩ := reachable_good hreach
  constructor
  · intro p hp hint
    obtain ⟨hne, hlen⟩ := hshape p hp hint
    have hk1 : 0 < p.keys.length := List.length_pos.2 hne
    refine ⟨?_, hlen⟩
    intro hc
    rcases hlen with h1 | h1 <;> rw [hc] at h1 <;> simp at h1 <;> omega
  · intro key
    obtain ⟨pushed, lid, leaf, llo, lhi, hins, hfl, hpath, hlrd, hlty,
      hslo, hshi⟩ :=
      descendGood key s.depth s.root_id none none ids [] hgood
        (fun u hu => (nomatch hu)) (fun u hu => (nomatch hu))
    exact ⟨pushed ++ [], lid, leaf, hins, hfl, hlrd, hlty⟩

/-- C10 witness: the reachable b = 3 tree whose third insert split the
root; the theorem applies there, giving the children-count shape of its
interior root and a completed two-level descent for key 6. -/
theorem C10_interior_shape_descent_witness :
    Reachable splitTrace ∧
    (∀ p ∈ splitTrace.pages, p.ptype = .interior →
      p.children ≠ [] ∧
      (p.children.length = p.keys.length ∨
       p.children.length = p.keys.length + 1)) ∧
    ∃ (vis : List Nat) (lid : Nat) (leaf : Page Int Int),
      insDescend splitTrace.pages 6 splitTrace.depth splitTrace.root_id
        [] = some (vis, lid) ∧
      splitTrace.find_leaf 6 = some lid ∧
      readPage splitTrace.pages lid = some leaf ∧
      leaf.ptype = .leaf := by
  have h0 : Reachable (BTree.new Int Int 3 true) :=
    Reachable.init 3 true (by decide) (by decide)
  have h1 : Reachable (runIns (BTree.new Int Int 3 true) 5 55) :=
    Reachable.ins _ 5 55 _ .ok h0 (by decide)
  have h2 : Reachable
      (runIns (runIns (BTree.new Int Int 3 true) 5 55) 6 66) :=
    Reachable.ins _ 6 66 _ .ok h1 (by decide)
  have h3 : Reachable splitTrace :=
    Reachable.ins _ 7 77 _ .ok h2 (by decide)
  exact ⟨h3, (C10_interior_shape_descent h3).1,
    (C10_interior_shape_descent h3).2 6⟩

end Bokedb
